import Mathlib

/-!
Shallow embedding of the trie write-back cache (`Database` and friends) of
hashkey-chain, together with theorems settling the specification claims.

Hashes (`common.Hash`) are modelled as natural numbers with `0` playing the
role of the all-zero hash (the meta-root key).  Go maps become association
lists, `common.StorageSize` (a float64 holding whole-number byte counts)
becomes `Int`, and the disk plus its write batches are modelled explicitly so
that batch-write failures can be injected through an oracle `diskOk`.
Recursive walks carry explicit fuel, mirroring the soft time budget that can
abort the real recursion at any node.
-/

namespace TrieDB

/-- Node hashes; `0` is the zero hash / meta-root key. -/
abbrev Hash := Nat

/-- Encoded byte blobs (rlp output, preimages, disk values). -/
abbrev Blob := List Nat

/-- `common.HashLength`. -/
def hashLength : Nat := 32

/-- `cachedNodeChildrenSize`, raw size of an initialized children map. -/
def cachedNodeChildrenSize : Nat := 48

/-- `cachedNodeSize`: reflect-derived struct size; platform constant, only
feeds the `Cap` size estimate. -/
def cachedNodeSize : Nat := 80

/-- `ethdb.IdealBatchSize`. -/
def idealBatchSize : Nat := 100 * 1024

/-- Association-list lookup, first match (Go map read). -/
def alook {α : Type} : List (Nat × α) → Nat → Option α
  | [], _ => none
  | (k', v') :: t, k => if k' = k then some v' else alook t k

/-- Association-list write (Go map assignment): replace or append. -/
def aset {α : Type} : List (Nat × α) → Nat → α → List (Nat × α)
  | [], k, v => [(k, v)]
  | (k', v') :: t, k, v => if k' = k then (k, v) :: t else (k', v') :: aset t k v

/-- Association-list delete (Go `delete`): removes every binding of the key. -/
def adel {α : Type} : List (Nat × α) → Nat → List (Nat × α)
  | [], _ => []
  | (k', v') :: t, k => if k' = k then adel t k else (k', v') :: adel t k

/-- Update the value bound to a key in place, no-op when absent. -/
def aupd {α : Type} : List (Nat × α) → Nat → (α → α) → List (Nat × α)
  | [], _, _ => []
  | (k', v') :: t, k, f => if k' = k then (k', f v') :: t else (k', v') :: aupd t k f

/-- `cachedNode`: one entry of the dirty Node Store.  `isRaw` distinguishes a
`rawNode` byte blob from a decoded trie node; `intChildren` are the hash-node
children that `forGatherChildren` would enumerate from the decoded structure;
`blob` is the `rlp()` encoding. -/
structure CachedNode where
  isRaw : Bool
  intChildren : List Hash
  blob : Blob
  size : Nat
  parents : Nat
  children : Option (List (Hash × Nat))
  flushPrev : Hash
  flushNext : Hash
  version : Nat
deriving DecidableEq

/-- Keys of the external children map (empty when the map is nil). -/
def CachedNode.childKeys (n : CachedNode) : List Hash :=
  match n.children with
  | some cs => cs.map Prod.fst
  | none => []

/-- `forChilds`: external children first, then the structural scan, which is
skipped for `rawNode` content. -/
def CachedNode.childrenOf (n : CachedNode) : List Hash :=
  n.childKeys ++ (if n.isRaw then [] else n.intChildren)

/-- The full in-memory database state plus the modelled disk. -/
structure DB where
  dirties : List (Hash × CachedNode)
  oldest : Hash
  newest : Hash
  nodeVersion : Nat
  freshNodes : List Hash
  cleans : Option (List (Hash × Blob))
  useless : List (List Hash)
  preimages : Option (List (Hash × Blob))
  dirtiesSize : Int
  childrenSize : Int
  preimagesSize : Int
  diskNodes : List (Hash × Blob)
  diskPreimages : List (Hash × Blob)
deriving DecidableEq

/-- The meta-root entry created by `NewDatabaseWithConfig`: zero value except
for an initialized (non-nil, empty) children map. -/
def metaRootNode : CachedNode :=
  { isRaw := false, intChildren := [], blob := [], size := 0, parents := 0,
    children := some [], flushPrev := 0, flushNext := 0, version := 0 }

/-- `NewDatabaseWithConfig` over an empty disk: meta-root present, clean cache
and preimage tracking per configuration. -/
def NewDatabase (withCleans withPreimages : Bool) : DB :=
  { dirties := [(0, metaRootNode)], oldest := 0, newest := 0, nodeVersion := 0,
    freshNodes := [],
    cleans := if withCleans then some [] else none,
    useless := [],
    preimages := if withPreimages then some [] else none,
    dirtiesSize := 0, childrenSize := 0, preimagesSize := 0,
    diskNodes := [], diskPreimages := [] }

/-- `fastcache.Set`. -/
def cleansSet (c : Option (List (Hash × Blob))) (h : Hash) (b : Blob) :
    Option (List (Hash × Blob)) :=
  match c with
  | none => none
  | some m => some (aset m h b)

/-- `fastcache.Del`. -/
def cleansDel (c : Option (List (Hash × Blob))) (h : Hash) :
    Option (List (Hash × Blob)) :=
  match c with
  | none => none
  | some m => some (adel m h)

/-- `fastcache.Get` through the `enc != nil` test used by `Node`: a stored
empty value reads back as a miss. -/
def cleansGet (c : Option (List (Hash × Blob))) (h : Hash) : Option Blob :=
  match c with
  | none => none
  | some m =>
    match alook m h with
    | some b => if b = [] then none else some b
    | none => none

/-- The byte delta `insert` adds to `dirtiesSize`: the Go expression
`common.HashLength + entry.size` is evaluated in uint16 arithmetic because
`entry.size` is a `uint16`. -/
def insertSizeDelta (sz : Nat) : Int :=
  ((hashLength + sz % 65536) % 65536 : Nat)

/-- `Database.insert`: dedup on the hash, append to the flush-list tail. -/
def DB.insert (db : DB) (hash : Hash) (sz : Nat) (isRaw : Bool)
    (intCh : List Hash) (blob : Blob) : DB :=
  match alook db.dirties hash with
  | some _ => db
  | none =>
    let entry : CachedNode :=
      { isRaw := isRaw, intChildren := intCh, blob := blob, size := sz % 65536,
        parents := 0, children := none, flushPrev := db.newest, flushNext := 0,
        version := db.nodeVersion }
    let db1 := { db with dirties := aset db.dirties hash entry }
    let db2 :=
      if db1.oldest = 0 then { db1 with oldest := hash, newest := hash }
      else
        { db1 with
          dirties := aupd db1.dirties db1.newest (fun n => { n with flushNext := hash }),
          newest := hash }
    { db2 with dirtiesSize := db2.dirtiesSize + insertSizeDelta sz }

/-- `Database.insertFreshNode`. -/
def DB.insertFreshNode (db : DB) (h : Hash) : DB :=
  { db with freshNodes := h :: db.freshNodes }

/-- `Database.resetFreshNode`. -/
def DB.resetFreshNode (db : DB) : DB := { db with freshNodes := [] }

/-- `Database.IncrVersion`. -/
def DB.IncrVersion (db : DB) : DB := { db with nodeVersion := db.nodeVersion + 1 }

/-- Bump a node's live-parent counter. -/
def bumpParents (n : CachedNode) : CachedNode := { n with parents := n.parents + 1 }

/-- Record count `cnt` for `child` in a node's children map, creating the map
when it is still nil. -/
def addChildEdge (child : Hash) (cnt : Nat) (n : CachedNode) : CachedNode :=
  { n with children := some (aset (match n.children with
                                   | some cs => cs
                                   | none => []) child cnt) }

/-- The children map of the entry stored under `parent` (none when the entry
is missing or its map is nil). -/
def entryChildren (db : DB) (parent : Hash) : Option (List (Hash × Nat)) :=
  match alook db.dirties parent with
  | some pn => pn.children
  | none => none

/-- The count stored for `child` in an optional children map. -/
def mapCount (c : Option (List (Hash × Nat))) (child : Hash) : Nat :=
  match c with
  | some cs => (match alook cs child with | some n => n | none => 0)
  | none => 0

/-- The shared tail of `reference`: bump the child's `parents` counter and the
parent's `children[child]` count, growing `childrenSize` on a first edge. -/
def DB.referenceCount (db : DB) (child parent : Hash) : DB :=
  let db1 := { db with dirties := aupd db.dirties child bumpParents }
  let cnt := mapCount (entryChildren db1 parent) child + 1
  let db2 := { db1 with dirties := aupd db1.dirties parent (addChildEdge child cnt) }
  if cnt = 1 then
    { db2 with childrenSize := db2.childrenSize + (hashLength + 2 : Nat) }
  else db2

/-- `Database.reference`: no-op when the child is not dirty; a missing parent
makes the Go code fault before mutating anything, modelled as a no-op. -/
def DB.reference (db : DB) (child parent : Hash) : DB :=
  match alook db.dirties child with
  | none => db
  | some _ =>
    match alook db.dirties parent with
    | none => db
    | some pnode =>
      match pnode.children with
      | none =>
        -- create the map (childrenSize grows), then fall through to count
        let db1 := { db with
          dirties := aupd db.dirties parent (fun n => { n with children := some [] }),
          childrenSize := db.childrenSize + cachedNodeChildrenSize }
        db1.referenceCount child parent
      | some cs =>
        if (alook cs child).isSome ∧ parent ≠ 0 then db
        else db.referenceCount child parent

/-- `Database.Reference`, the locked public variant. -/
def DB.Reference (db : DB) (child parent : Hash) : DB :=
  db.reference child parent

/-- Set only the `flushNext` link of an entry. -/
def setNext (db : DB) (h tgt : Hash) : DB :=
  { db with dirties := aupd db.dirties h (fun n => { n with flushNext := tgt }) }

/-- Set only the `flushPrev` link of an entry. -/
def setPrev (db : DB) (h tgt : Hash) : DB :=
  { db with dirties := aupd db.dirties h (fun n => { n with flushPrev := tgt }) }

/-- The three-way flush-list splice shared by `dereference` and
`cleaner.Put`, with the oldest case taking priority like Go's `switch`. -/
def spliceOut (db : DB) (h : Hash) (node : CachedNode) : DB :=
  if h = db.oldest then
    setPrev { db with oldest := node.flushNext } node.flushNext 0
  else if h = db.newest then
    setNext { db with newest := node.flushPrev } node.flushPrev 0
  else
    setPrev (setNext db node.flushPrev node.flushNext) node.flushNext node.flushPrev

/-- One step of the recursive `dereference`: process hash `h` against the
accumulated state, recursing into the children through `rec`.  Skips fresh
hashes, missing hashes and nodes at the current version; a stale node is
spliced out of the flush list, its children dereferenced, the node deleted
with size accounting, and (for non-raw content only) its hash handed to the
clear callback, which evicts the clean-cache shadow and reports the hash. -/
def derefStepF (rec : DB → List Hash → DB × List Hash) (acc : DB × List Hash)
    (h : Hash) : DB × List Hash :=
  if h ∈ acc.1.freshNodes then acc
  else
    match alook acc.1.dirties h with
    | none => acc
    | some node =>
      if node.version < acc.1.nodeVersion then
        let dbA := spliceOut acc.1 h node
        let res := rec dbA node.childrenOf
        let dbC := { res.1 with
          dirties := adel res.1.dirties h,
          dirtiesSize := res.1.dirtiesSize - ((hashLength : Int) + node.size),
          childrenSize := res.1.childrenSize -
            (if node.children.isSome then (cachedNodeChildrenSize : Int) else 0) }
        if node.isRaw then (dbC, acc.2 ++ res.2)
        else ({ dbC with cleans := cleansDel dbC.cleans h }, acc.2 ++ res.2 ++ [h])
      else acc

/-- `Database.dereference`, processing a work list of hashes left to right;
the fuel bounds the recursion depth, playing the role of the soft time budget
that can cut off the remaining recursion at any node. -/
def derefMany : Nat → DB → List Hash → DB × List Hash
  | 0, db, _ => (db, [])
  | fuel + 1, db, hs => hs.foldl (derefStepF (derefMany fuel)) (db, [])

/-- `dereference` of a single hash. -/
def derefOne (fuel : Nat) (db : DB) (h : Hash) : DB × List Hash :=
  derefMany fuel db [h]

/-- `Database.Dereference`: refuse the meta-root, otherwise run the recursive
dereference (its clear callback only evicts clean-cache shadows). -/
def DB.Dereference (db : DB) (root : Hash) (fuel : Nat) : DB :=
  if root = 0 then db else (derefOne fuel db root).1

/-- `Database.DereferenceDB`: refuse the meta-root, run the recursive
dereference and append the collected hash set to the pending useless list. -/
def DB.DereferenceDB (db : DB) (root : Hash) (fuel : Nat) : DB :=
  if root = 0 then db
  else
    let res := derefOne fuel db root
    { res.1 with useless := res.1.useless ++ [res.2] }

/-- `Database.referenceVersion` over a work list: children first, then stamp
the node with the current version counter. -/
def refVerMany : Nat → DB → List Hash → DB
  | 0, db, _ => db
  | fuel + 1, db, hs =>
    hs.foldl (fun db1 h =>
      match alook db1.dirties h with
      | none => db1
      | some node =>
        let db2 := refVerMany fuel db1 node.childrenOf
        { db2 with
          dirties := aupd db2.dirties h (fun n => { n with version := db2.nodeVersion }) })
      db

/-- `Database.ReferenceVersion`. -/
def DB.ReferenceVersion (db : DB) (root : Hash) (fuel : Nat) : DB :=
  refVerMany fuel db [root]

/-- A pending disk write batch; node writes and preimage writes live in
distinct key spaces on disk. -/
structure Batch where
  nodeWrites : List (Hash × Blob)
  preWrites : List (Hash × Blob)
deriving DecidableEq

def Batch.empty : Batch := { nodeWrites := [], preWrites := [] }

def Batch.putNode (b : Batch) (h : Hash) (blob : Blob) : Batch :=
  { b with nodeWrites := b.nodeWrites ++ [(h, blob)] }

/-- `batch.ValueSize`: accumulated key plus value bytes. -/
def Batch.vsize (b : Batch) : Nat :=
  (b.nodeWrites.map (fun kv => hashLength + kv.2.length)).sum +
    (b.preWrites.map (fun kv => hashLength + kv.2.length)).sum

/-- Apply a successfully written batch to the disk stores. -/
def batchWriteTo (db : DB) (b : Batch) : DB :=
  { db with
    diskNodes := b.nodeWrites.foldl (fun m kv => aset m kv.1 kv.2) db.diskNodes,
    diskPreimages := b.preWrites.foldl (fun m kv => aset m kv.1 kv.2) db.diskPreimages }

/-- `rawdb.WritePreimages` into a batch. -/
def Batch.putPreimages (b : Batch) (ps : List (Hash × Blob)) : Batch :=
  { b with preWrites := b.preWrites ++ ps }

/-- `cleaner.Put`: with `uncache` and the hash still dirty, splice it out of
the flush list, delete it and adjust `dirtiesSize` (including, as the code
does, the children-map metadata); in every non-early-return path promote the
written bytes into the clean cache. -/
def cleanerPut (uncache : Bool) (db : DB) (key : Hash) (blob : Blob) : DB :=
  if uncache then
    match alook db.dirties key with
    | none => db
    | some node =>
      let dbA := spliceOut db key node
      let dbB := { dbA with
        dirties := adel dbA.dirties key,
        dirtiesSize := dbA.dirtiesSize - ((hashLength : Int) + node.size) -
          (match node.children with
           | some cs => ((cachedNodeChildrenSize + cs.length * (hashLength + 2) : Nat) : Int)
           | none => 0) }
      { dbB with cleans := cleansSet dbB.cleans key blob }
  else { db with cleans := cleansSet db.cleans key blob }

/-- `batch.Replay(uncacher)`: replay every buffered put through
`cleaner.Put` in write order.  (A replayed preimage key reduces to the bare
hash because `BytesToHash` keeps the last 32 bytes.) -/
def replayBatch (uncache : Bool) (db : DB) (b : Batch) : DB :=
  let db1 := b.nodeWrites.foldl (fun d kv => cleanerPut uncache d kv.1 kv.2) db
  b.preWrites.foldl (fun d kv => cleanerPut uncache d kv.1 kv.2) db1

/-- The per-entry amount the `Cap` write loop subtracts from its running size
estimate. -/
def capSizeStep (node : CachedNode) : Int :=
  ((hashLength + node.size + cachedNodeSize : Nat) : Int) +
    (match node.children with
     | some cs => ((cachedNodeChildrenSize + cs.length * (hashLength + 2) : Nat) : Int)
     | none => 0)

/-- The write loop of `Cap`: push flush-list entries into the batch until the
size estimate drops below the limit, flushing full batches to disk.  `wc`
counts issued `Write` calls against the failure oracle.  An error result
carries the state reached so far (disk sub-batches already applied, memory
untouched). -/
def capWriteLoop (diskOk : Nat → Bool) :
    Nat → DB → Nat → Batch → Int → Int → Hash → Except DB (DB × Batch × Nat × Hash)
  | 0, db, wc, batch, _, _, oldest => .ok (db, batch, wc, oldest)
  | fuel + 1, db, wc, batch, size, limit, oldest =>
    if size > limit ∧ oldest ≠ 0 then
      match alook db.dirties oldest with
      | none => .ok (db, batch, wc, oldest)
      | some node =>
        let batch1 := batch.putNode oldest node.blob
        if batch1.vsize ≥ idealBatchSize then
          if diskOk wc then
            capWriteLoop diskOk fuel (batchWriteTo db batch1) (wc + 1) Batch.empty
              (size - capSizeStep node) limit node.flushNext
          else .error db
        else
          capWriteLoop diskOk fuel db wc batch1 (size - capSizeStep node) limit node.flushNext
    else .ok (db, batch, wc, oldest)

/-- The eviction loop of `Cap`: drop flush-list heads until the target is
reached, adjusting both size counters. -/
def capEvictLoop : Nat → DB → Hash → DB
  | 0, db, _ => db
  | fuel + 1, db, target =>
    if db.oldest ≠ target then
      match alook db.dirties db.oldest with
      | none => db
      | some node =>
        capEvictLoop fuel
          { db with
            dirties := adel db.dirties db.oldest,
            oldest := node.flushNext,
            dirtiesSize := db.dirtiesSize - ((hashLength : Int) + node.size),
            childrenSize := db.childrenSize -
              (match node.children with
               | some cs => ((cachedNodeChildrenSize + cs.length * (hashLength + 2) : Nat) : Int)
               | none => 0) }
          target
    else db

/-- Number of children tracked under the meta-root (read by the `Cap` size
estimate). -/
def metaChildCount (db : DB) : Nat :=
  match alook db.dirties 0 with
  | some m => (match m.children with | some cs => cs.length | none => 0)
  | none => 0

/-- The total memory estimate `Cap` starts from: useful data plus cache item
metadata plus external children metadata, minus the meta-root's share. -/
def capSizeEstimate (db : DB) : Int :=
  db.dirtiesSize + ((db.dirties.length : Int) - 1) * (cachedNodeSize : Nat) +
    db.childrenSize - ((metaChildCount db * (hashLength + 2) : Nat) : Int)

/-- `Database.Cap`: returns `false` exactly when a batch `Write` failed, in
which case the Go code returns the error (the mid-loop failure path also
performs a stray `RUnlock`, a locking fault outside this state model). -/
def DB.Cap (db : DB) (limit : Int) (diskOk : Nat → Bool) (fuel : Nat) : Bool × DB :=
  let size := capSizeEstimate db
  let flushPre := db.preimagesSize > 4 * 1024 * 1024
  let pre : Except DB (DB × Batch × Nat) :=
    match db.preimages with
    | some ps =>
      if flushPre then
        let batch := Batch.empty.putPreimages ps
        if batch.vsize > idealBatchSize then
          if diskOk 0 then .ok (batchWriteTo db batch, Batch.empty, 1)
          else .error db
        else .ok (db, batch, 0)
      else .ok (db, Batch.empty, 0)
    | none => .ok (db, Batch.empty, 0)
  match pre with
  | .error db' => (false, db')
  | .ok (db1, batch, wc) =>
    match capWriteLoop diskOk fuel db1 wc batch size limit db1.oldest with
    | .error db' => (false, db')
    | .ok (db2, batch2, wc2, target) =>
      if diskOk wc2 then
        let db3 := batchWriteTo db2 batch2
        let db4 :=
          if flushPre ∧ db3.preimages.isSome then
            { db3 with preimages := some [], preimagesSize := 0 }
          else db3
        let db5 := capEvictLoop fuel db4 target
        let db6 :=
          if db5.oldest ≠ 0 then setPrev db5 db5.oldest 0
          else db5
        (true, db6)
      else (false, db2)

/-- `Database.commit` over a work list: post-order walk over fresh dirty
nodes, writing each to the batch and flushing (write plus replay through the
uncacher) whenever the batch crosses the ideal size; the first write error
aborts the walk. -/
def commitMany (diskOk : Nat → Bool) (uncache : Bool) :
    Nat → DB → Nat → Batch → List Hash → Except DB (DB × Batch × Nat)
  | 0, db, wc, batch, _ => .ok (db, batch, wc)
  | fuel + 1, db, wc, batch, hs =>
    hs.foldl (fun acc h =>
      match acc with
      | .error e => .error e
      | .ok (db1, batch1, wc1) =>
        if h ∈ db1.freshNodes then
          match alook db1.dirties h with
          | none => .ok (db1, batch1, wc1)
          | some node =>
            match commitMany diskOk uncache fuel db1 wc1 batch1 node.childrenOf with
            | .error e => .error e
            | .ok (db2, batch2, wc2) =>
              let batch3 := batch2.putNode h node.blob
              if batch3.vsize ≥ idealBatchSize then
                if diskOk wc2 then
                  let db3 := batchWriteTo db2 batch3
                  .ok (replayBatch uncache db3 batch3, Batch.empty, wc2 + 1)
                else .error db2
              else .ok (db2, batch3, wc2)
        else .ok (db1, batch1, wc1))
      (.ok (db, batch, wc))

/-- `Database.Commit`: preimages first (flushed and reset before any replay),
then the recursive commit, the final batch write, the final replay, and the
reset of preimages and of the fresh-node marker set. -/
def DB.Commit (db : DB) (root : Hash) (uncache : Bool) (diskOk : Nat → Bool)
    (fuel : Nat) : Bool × DB :=
  let pre : Except DB (DB × Nat) :=
    match db.preimages with
    | some ps =>
      let batch := Batch.empty.putPreimages ps
      if batch.vsize > idealBatchSize then
        if diskOk 0 then
          -- threshold write, reset, then the unconditional write of the
          -- now-empty batch
          if diskOk 1 then .ok (batchWriteTo db batch, 2) else .error (batchWriteTo db batch)
        else .error db
      else
        if diskOk 0 then .ok (batchWriteTo db batch, 1) else .error db
    | none => .ok (db, 0)
  match pre with
  | .error db' => (false, db')
  | .ok (db0, wc0) =>
    match commitMany diskOk uncache fuel db0 wc0 Batch.empty [root] with
    | .error db' => (false, db')
    | .ok (db1, batch1, wc1) =>
      if diskOk wc1 then
        let db2 := batchWriteTo db1 batch1
        let db3 := replayBatch uncache db2 batch1
        let db4 :=
          if db3.preimages.isSome then
            { db3 with preimages := some [], preimagesSize := 0 }
          else db3
        (true, db4.resetFreshNode)
      else (false, db1)

/-- `Database.Node`: meta-root refused, then clean cache, then dirty store,
then disk (an empty disk value counts as missing); a disk hit is promoted
into the clean cache.  `none` models the "not found" error. -/
def DB.NodeLookup (db : DB) (hash : Hash) : Option Blob × DB :=
  if hash = 0 then (none, db)
  else
    match cleansGet db.cleans hash with
    | some b => (some b, db)
    | none =>
      match alook db.dirties hash with
      | some n => (some n.blob, db)
      | none =>
        match alook db.diskNodes hash with
        | some enc =>
          if enc ≠ [] then (some enc, { db with cleans := cleansSet db.cleans hash enc })
          else (none, db)
        | none => (none, db)

/-- `Database.UselessGC`: consume the first `num` pending useless sets,
deleting from disk every recorded key that is not resident in the dirty
store. -/
def DB.UselessGC (db : DB) (num : Nat) : DB :=
  let take := min num db.useless.length
  let disk := (db.useless.take take).foldl
    (fun d m => m.foldl (fun d' k => if (alook db.dirties k).isSome then d' else adel d' k) d)
    db.diskNodes
  { db with useless := db.useless.drop take, diskNodes := disk }

/-! ### Association-list lemmas -/

theorem alook_aset_self {α : Type} (m : List (Nat × α)) (k : Nat) (v : α) :
    alook (aset m k v) k = some v := by
  induction m with
  | nil => simp [aset, alook]
  | cons kv t ih =>
    obtain ⟨k', v'⟩ := kv
    by_cases h : k' = k
    · subst h; simp [aset, alook]
    · simp [aset, alook, h, ih]

theorem alook_aset_ne {α : Type} (m : List (Nat × α)) (k j : Nat) (v : α)
    (hkj : k ≠ j) : alook (aset m k v) j = alook m j := by
  induction m with
  | nil => simp [aset, alook, hkj]
  | cons kv t ih =>
    obtain ⟨k', v'⟩ := kv
    by_cases h : k' = k
    · subst h; simp [aset, alook, hkj]
    · simp only [aset, if_neg h]
      by_cases h2 : k' = j
      · simp [alook, h2]
      · simp [alook, h2, ih]

theorem alook_aupd {α : Type} (m : List (Nat × α)) (k j : Nat) (f : α → α) :
    alook (aupd m k f) j = if k = j then (alook m j).map f else alook m j := by
  induction m with
  | nil => simp [aupd, alook]
  | cons kv t ih =>
    obtain ⟨k', v'⟩ := kv
    by_cases h : k' = k
    · subst h
      by_cases h2 : k' = j
      · subst h2; simp [aupd, alook]
      · simp [aupd, alook, h2]
    · simp only [aupd, if_neg h]
      by_cases h2 : k' = j
      · subst h2
        have : ¬ k = k' := fun hh => h hh.symm
        simp [alook, this]
      · simp [alook, h2, ih]

theorem alook_adel {α : Type} (m : List (Nat × α)) (k j : Nat) :
    alook (adel m k) j = if k = j then none else alook m j := by
  induction m with
  | nil => simp [adel, alook]
  | cons kv t ih =>
    obtain ⟨k', v'⟩ := kv
    by_cases h : k' = k
    · subst h
      by_cases h2 : k' = j
      · subst h2; simp [adel, alook, ih]
      · simp [adel, alook, h2, ih]
    · simp only [adel, if_neg h]
      by_cases h2 : k' = j
      · subst h2
        have : ¬ k = k' := fun hh => h hh.symm
        simp [alook, this]
      · simp [alook, h2, ih]

/-! ### Derived observations used by the claims -/

/-- The aggregate the spec's size invariant asserts: the sum of
`hash length + size` over all Node Store entries except the meta-root. -/
def dirtySum (db : DB) : Int :=
  (db.dirties.filter (fun kv => kv.1 ≠ 0)).foldl
    (fun acc kv => acc + ((hashLength : Int) + kv.2.size)) 0

/-- The reference count recorded for `child` in `parent`'s children map. -/
def childCount (db : DB) (parent child : Hash) : Nat :=
  mapCount (entryChildren db parent) child

/-- Both branches of the `childrenSize` adjustment in `referenceCount` leave
the same Node Store. -/
theorem referenceCount_dirties (db : DB) (child parent : Hash) :
    (db.referenceCount child parent).dirties =
      aupd (aupd db.dirties child bumpParents) parent
        (addChildEdge child
          (mapCount (entryChildren
            { db with dirties := aupd db.dirties child bumpParents } parent) child + 1)) := by
  simp only [DB.referenceCount]
  split <;> rfl

/-- What `referenceCount` does to the child's `parents` counter and to the
parent's per-child count. -/
theorem referenceCount_spec (db : DB) (child parent : Hash) (cn pn : CachedNode)
    (hc : alook db.dirties child = some cn) (hp : alook db.dirties parent = some pn) :
    (∃ cn', alook (db.referenceCount child parent).dirties child = some cn' ∧
        cn'.parents = cn.parents + 1) ∧
    childCount (db.referenceCount child parent) parent child =
      mapCount pn.children child + 1 := by
  rw [childCount, entryChildren, referenceCount_dirties]
  by_cases hcp : parent = child
  · subst hcp
    have hpc : pn = cn := by rw [hc] at hp; exact (Option.some_inj.mp hp).symm
    subst hpc
    simp [alook_aupd, hc, bumpParents, addChildEdge, mapCount, entryChildren,
      alook_aset_self]
  · have hcp' : ¬ child = parent := fun h => hcp h.symm
    simp [alook_aupd, hcp, hcp', hc, hp, bumpParents, addChildEdge, mapCount, entryChildren,
      alook_aset_self]

/-! ### Flush-list well-formedness -/

/-- Shorthand for the Node Store representation. -/
abbrev NodeMap := List (Hash × CachedNode)

/-- The `flushNext` link stored for a hash (`0` when absent). -/
def nxtm (m : NodeMap) (h : Hash) : Hash :=
  match alook m h with
  | some n => n.flushNext
  | none => 0

/-- The `flushPrev` link stored for a hash (`0` when absent). -/
def prvm (m : NodeMap) (h : Hash) : Hash :=
  match alook m h with
  | some n => n.flushPrev
  | none => 0

/-- Forward links chain through the list and the last element links to `e`. -/
def linksFto (m : NodeMap) : List Hash → Hash → Prop
  | [], _ => True
  | a :: t, e => nxtm m a = t.headD e ∧ linksFto m t e

/-- Forward links of a complete flush list, terminated by the zero hash. -/
def linksF (m : NodeMap) (L : List Hash) : Prop := linksFto m L 0

/-- Every element's `flushPrev` names its predecessor, the first one `p`. -/
def linksPfrom (m : NodeMap) : Hash → List Hash → Prop
  | _, [] => True
  | p, a :: t => prvm m a = p ∧ linksPfrom m a t

/-- Back links of a flush list; the head's `flushPrev` is unconstrained
because the code never reads it (it can go stale when the list empties). -/
def linksB (m : NodeMap) : List Hash → Prop
  | [] => True
  | a :: t => linksPfrom m a t

/-- Walk the flush list forward following `flushNext`, stopping at the zero
hash. -/
def walkFwd (m : NodeMap) : Nat → Hash → List Hash
  | 0, _ => []
  | fuel + 1, h => if h = 0 then [] else h :: walkFwd m fuel (nxtm m h)

/-- Walk the flush list backward following `flushPrev`, stopping at the zero
hash. -/
def walkBwd (m : NodeMap) : Nat → Hash → List Hash
  | 0, _ => []
  | fuel + 1, h => if h = 0 then [] else h :: walkBwd m fuel (prvm m h)

theorem headD_append {α : Type} (l₁ l₂ : List α) (e : α) :
    (l₁ ++ l₂).headD e = l₁.headD (l₂.headD e) := by
  cases l₁ <;> simp

theorem linksFto_append (m : NodeMap) (l₁ l₂ : List Hash) (e : Hash) :
    linksFto m (l₁ ++ l₂) e ↔ linksFto m l₁ (l₂.headD e) ∧ linksFto m l₂ e := by
  induction l₁ with
  | nil => simp [linksFto]
  | cons a t ih =>
    simp only [List.cons_append, linksFto, ih, List.append_eq, headD_append]
    tauto

theorem linksPfrom_append (m : NodeMap) (p : Hash) (l₁ l₂ : List Hash) :
    linksPfrom m p (l₁ ++ l₂) ↔ linksPfrom m p l₁ ∧ linksPfrom m (l₁.getLastD p) l₂ := by
  induction l₁ generalizing p with
  | nil => simp [linksPfrom]
  | cons a t ih =>
    simp only [List.cons_append, linksPfrom, ih, List.append_eq, List.getLastD_cons]
    tauto

theorem linksFto_congr (m m' : NodeMap) (L : List Hash) (e : Hash)
    (hsame : ∀ a ∈ L, nxtm m' a = nxtm m a) :
    linksFto m L e → linksFto m' L e := by
  induction L with
  | nil => simp [linksFto]
  | cons a t ih =>
    intro hl
    refine ⟨?_, ih (fun x hx => hsame x (List.mem_cons_of_mem a hx)) hl.2⟩
    rw [hsame a (List.mem_cons_self a t)]
    exact hl.1

theorem linksPfrom_congr (m m' : NodeMap) (p : Hash) (L : List Hash)
    (hsame : ∀ a ∈ L, prvm m' a = prvm m a) :
    linksPfrom m p L → linksPfrom m' p L := by
  induction L generalizing p with
  | nil => simp [linksPfrom]
  | cons a t ih =>
    intro hl
    refine ⟨?_, ih a (fun x hx => hsame x (List.mem_cons_of_mem a hx)) hl.2⟩
    rw [hsame a (List.mem_cons_self a t)]
    exact hl.1

theorem nxtm_aupd (m : NodeMap) (k : Hash) (f : CachedNode → CachedNode)
    (hf : ∀ n, (f n).flushNext = n.flushNext) (h : Hash) :
    nxtm (aupd m k f) h = nxtm m h := by
  rw [nxtm, nxtm, alook_aupd]
  by_cases hk : k = h
  · subst hk
    cases alook m k <;> simp [hf]
  · simp [hk]

theorem prvm_aupd (m : NodeMap) (k : Hash) (f : CachedNode → CachedNode)
    (hf : ∀ n, (f n).flushPrev = n.flushPrev) (h : Hash) :
    prvm (aupd m k f) h = prvm m h := by
  rw [prvm, prvm, alook_aupd]
  by_cases hk : k = h
  · subst hk
    cases alook m k <;> simp [hf]
  · simp [hk]

theorem nxtm_aupd_ne (m : NodeMap) (k : Hash) (f : CachedNode → CachedNode)
    (h : Hash) (hk : k ≠ h) : nxtm (aupd m k f) h = nxtm m h := by
  rw [nxtm, nxtm, alook_aupd, if_neg hk]

theorem prvm_aupd_ne (m : NodeMap) (k : Hash) (f : CachedNode → CachedNode)
    (h : Hash) (hk : k ≠ h) : prvm (aupd m k f) h = prvm m h := by
  rw [prvm, prvm, alook_aupd, if_neg hk]

theorem nxtm_adel (m : NodeMap) (k h : Hash) :
    nxtm (adel m k) h = if k = h then 0 else nxtm m h := by
  rw [nxtm, alook_adel]
  by_cases hk : k = h <;> simp [hk, nxtm]

theorem prvm_adel (m : NodeMap) (k h : Hash) :
    prvm (adel m k) h = if k = h then 0 else prvm m h := by
  rw [prvm, alook_adel]
  by_cases hk : k = h <;> simp [hk, prvm]

theorem map_fst_aupd {α : Type} (m : List (Nat × α)) (k : Nat) (f : α → α) :
    (aupd m k f).map Prod.fst = m.map Prod.fst := by
  induction m with
  | nil => simp [aupd]
  | cons kv t ih =>
    obtain ⟨k', v'⟩ := kv
    by_cases hk : k' = k <;> simp [aupd, hk, ih]

theorem mem_map_fst_adel {α : Type} (m : List (Nat × α)) (k x : Nat) :
    x ∈ (adel m k).map Prod.fst → x ∈ m.map Prod.fst ∧ x ≠ k := by
  induction m with
  | nil => intro hx; simp [adel] at hx
  | cons kv t ih =>
    obtain ⟨k', v'⟩ := kv
    intro hx
    by_cases hk : k' = k
    · rw [adel, if_pos hk] at hx
      have := ih hx
      exact ⟨List.mem_cons_of_mem _ this.1, this.2⟩
    · rw [adel, if_neg hk] at hx
      simp only [List.map_cons, List.mem_cons] at hx
      rcases hx with hx | hx
      · refine ⟨by simp [hx], ?_⟩
        rw [hx]; exact hk
      · have := ih hx
        exact ⟨List.mem_cons_of_mem _ this.1, this.2⟩

theorem mem_map_fst_aset {α : Type} (m : List (Nat × α)) (k x : Nat) (v : α) :
    x ∈ (aset m k v).map Prod.fst → x ∈ m.map Prod.fst ∨ x = k := by
  induction m with
  | nil => intro hx; simpa [aset] using hx
  | cons kv t ih =>
    obtain ⟨k', v'⟩ := kv
    intro hx
    by_cases hk : k' = k
    · rw [aset, if_pos hk] at hx
      simp only [List.map_cons, List.mem_cons] at hx
      rcases hx with hx | hx
      · right; exact hx
      · left; exact List.mem_cons_of_mem _ hx
    · rw [aset, if_neg hk] at hx
      simp only [List.map_cons, List.mem_cons] at hx
      rcases hx with hx | hx
      · left; simp [hx]
      · rcases ih hx with hh | hh
        · left; exact List.mem_cons_of_mem _ hh
        · right; exact hh

theorem alook_mem_map_fst {α : Type} (m : List (Nat × α)) (k : Nat) (v : α)
    (hl : alook m k = some v) : k ∈ m.map Prod.fst := by
  induction m with
  | nil => simp [alook] at hl
  | cons kv t ih =>
    obtain ⟨k', v'⟩ := kv
    by_cases hk : k' = k
    · subst hk; exact List.mem_cons_self _ _
    · simp only [alook, if_neg hk] at hl
      exact List.mem_cons_of_mem _ (ih hl)

theorem walkFwd_of_links (m : NodeMap) (L : List Hash) (hf : linksF m L)
    (hnz : 0 ∉ L) : ∀ fuel, L.length ≤ fuel → walkFwd m fuel (L.headD 0) = L := by
  induction L with
  | nil =>
    intro fuel _
    cases fuel <;> simp [walkFwd]
  | cons a t ih =>
    intro fuel hfuel
    cases fuel with
    | zero => simp at hfuel
    | succ f =>
      have ha : a ≠ 0 := fun h => hnz (h ▸ List.mem_cons_self a t)
      have ht : 0 ∉ t := fun h => hnz (List.mem_cons_of_mem a h)
      simp only [List.headD_cons, walkFwd, if_neg ha]
      rw [hf.1]
      rw [ih hf.2 ht f (Nat.le_of_succ_le_succ hfuel)]

theorem isSome_alook_aupd {α : Type} (m : List (Nat × α)) (k : Nat) (f : α → α)
    (x : Nat) : (alook (aupd m k f) x).isSome = (alook m x).isSome := by
  rw [alook_aupd]
  by_cases hk : k = x <;> simp [hk]

theorem prvm_setPrev (m : NodeMap) (k t : Hash) (hk : (alook m k).isSome) :
    prvm (aupd m k (fun n => { n with flushPrev := t })) k = t := by
  obtain ⟨n, hn⟩ := Option.isSome_iff_exists.mp hk
  rw [prvm, alook_aupd, if_pos rfl, hn]
  rfl

theorem nxtm_setNext (m : NodeMap) (k t : Hash) (hk : (alook m k).isSome) :
    nxtm (aupd m k (fun n => { n with flushNext := t })) k = t := by
  obtain ⟨n, hn⟩ := Option.isSome_iff_exists.mp hk
  rw [nxtm, alook_aupd, if_pos rfl, hn]
  rfl

theorem nxtm_fPrev (m : NodeMap) (k t x : Hash) :
    nxtm (aupd m k (fun n => { n with flushPrev := t })) x = nxtm m x :=
  nxtm_aupd m k (fun n => { n with flushPrev := t }) (fun _ => rfl) x

theorem prvm_fNext (m : NodeMap) (k t x : Hash) :
    prvm (aupd m k (fun n => { n with flushNext := t })) x = prvm m x :=
  prvm_aupd m k (fun n => { n with flushNext := t }) (fun _ => rfl) x

/-- Rewire the outgoing edge of a chain's last element: if the links agree on
all non-last elements and the last element now points at `e'`, the chain
targets `e'`. -/
theorem linksFto_retarget (m m' : NodeMap) (l : List Hash) (e e' : Hash)
    (hnd : l.Nodup)
    (hlast : ∀ x, l.getLast? = some x → nxtm m' x = e')
    (hother : ∀ a ∈ l, l.getLast? ≠ some a → nxtm m' a = nxtm m a) :
    linksFto m l e → linksFto m' l e' := by
  induction l with
  | nil => intro; trivial
  | cons a t ih =>
    intro hl
    cases t with
    | nil =>
      exact ⟨by simpa using hlast a rfl, trivial⟩
    | cons b u =>
      have hlast2 : (a :: b :: u).getLast? = (b :: u).getLast? := by
        simp [List.getLast?_cons_cons]
      have hga : (a :: b :: u).getLast? ≠ some a := by
        rw [hlast2]
        intro hx
        have : a ∈ b :: u := List.mem_of_mem_getLast? (by simp [hx])
        exact (List.nodup_cons.mp hnd).1 this
      refine ⟨?_, ih (List.nodup_cons.mp hnd).2
        (fun x hx => hlast x (hlast2 ▸ hx))
        (fun x hx hne => hother x (List.mem_cons_of_mem a hx) (hlast2 ▸ hne)) hl.2⟩
      rw [hother a (List.mem_cons_self a _) hga]
      exact hl.1

/-- Well-formedness of the flush list: `L` enumerates the Node Store keys
other than the meta-root and any pending hashes `P` (spliced out of the list
but not yet deleted by a recursion in progress), the `oldest`/`newest`
cursors point at the ends, and the links chain through `L` in both
directions (the head's stale back-link excepted). -/
structure WFP (db : DB) (L P : List Hash) : Prop where
  nodup : L.Nodup
  nz : 0 ∉ L
  memL : ∀ h ∈ L, (alook db.dirties h).isSome
  keys : ∀ k ∈ db.dirties.map Prod.fst, k = 0 ∨ k ∈ L ∨ k ∈ P
  meta : (alook db.dirties 0).isSome
  old : db.oldest = L.headD 0
  new : ∀ x, L.getLast? = some x → db.newest = x
  fwd : linksF db.dirties L
  bwd : linksB db.dirties L

/-- Flush-list well-formedness with no pending hashes. -/
def WF (db : DB) (L : List Hash) : Prop := WFP db L []

/-- The three-way splice preserves well-formedness, moving the spliced hash
from the list to the pending set. -/
theorem getLast?_cons_getLastD {α : Type} (a d : α) (t : List α) :
    (a :: t).getLast? = some ((a :: t).getLastD d) := by
  cases hy : (a :: t).getLast? with
  | none => simp [List.getLast?_eq_none_iff] at hy
  | some y =>
    rw [List.getLastD_eq_getLast?, hy]
    rfl

theorem spliceOut_wfp (db : DB) (L P : List Hash) (h : Hash) (node : CachedNode)
    (hw : WFP db L P) (hmem : h ∈ L) (hn : alook db.dirties h = some node) :
    WFP (spliceOut db h node) (L.erase h) (h :: P) := by
  obtain ⟨l₁, l₂, rfl⟩ := List.append_of_mem hmem
  have hnd := hw.nodup
  have hsplit := List.nodup_append.mp hnd
  have hnd1 : l₁.Nodup := hsplit.1
  have hnd2 : l₂.Nodup := (List.nodup_cons.mp hsplit.2.1).2
  have hh2 : h ∉ l₂ := (List.nodup_cons.mp hsplit.2.1).1
  have hdisj : l₁.Disjoint (h :: l₂) := hsplit.2.2
  have hh1 : h ∉ l₁ := fun hx => hdisj hx (List.mem_cons_self h l₂)
  have herase : (l₁ ++ h :: l₂).erase h = l₁ ++ l₂ := by
    rw [List.erase_append_right _ hh1, List.erase_cons_head]
  have hfwd := hw.fwd
  rw [linksF, linksFto_append] at hfwd
  have hfwd1 : linksFto db.dirties l₁ h := by simpa using hfwd.1
  have hfwdh : nxtm db.dirties h = l₂.headD 0 := hfwd.2.1
  have hfwd2 : linksFto db.dirties l₂ 0 := hfwd.2.2
  have hnxt : node.flushNext = l₂.headD 0 := by
    rw [nxtm, hn] at hfwdh
    exact hfwdh
  rw [herase]
  cases l₁ with
  | nil =>
    -- h is the head: the oldest case of the splice
    have hold : h = db.oldest := by rw [hw.old]; rfl
    rw [spliceOut, if_pos hold]
    refine ⟨hnd2, fun hx => hw.nz (List.mem_cons_of_mem h hx), ?_, ?_, ?_, ?_, ?_, ?_, ?_⟩
    · intro x hx
      rw [setPrev, isSome_alook_aupd]
      exact hw.memL x (List.mem_cons_of_mem h hx)
    · intro k hk
      rw [setPrev] at hk
      simp only [map_fst_aupd] at hk
      rcases hw.keys k hk with h0 | hL | hP
      · exact Or.inl h0
      · rcases List.mem_cons.mp (by simpa using hL) with rfl | hL2
        · exact Or.inr (Or.inr (List.mem_cons_self _ _))
        · exact Or.inr (Or.inl hL2)
      · exact Or.inr (Or.inr (List.mem_cons_of_mem _ hP))
    · rw [setPrev]
      simpa [isSome_alook_aupd] using hw.meta
    · rw [setPrev, hnxt]
      rfl
    · intro x hx
      rw [setPrev]
      refine hw.new x ?_
      cases l₂ with
      | nil => simp at hx
      | cons c u => simpa [List.getLast?_cons_cons] using hx
    · rw [setPrev]
      refine linksFto_congr _ _ _ _ ?_ hfwd2
      intro x hx
      exact nxtm_fPrev _ _ _ x
    · rw [setPrev]
      cases l₂ with
      | nil => trivial
      | cons c u =>
        have hbwd := hw.bwd
        simp only [List.nil_append, linksB] at hbwd
        have hpc : linksPfrom db.dirties c u := hbwd.2
        refine linksPfrom_congr _ _ _ _ ?_ hpc
        intro x hx
        refine prvm_aupd_ne _ _ _ _ ?_
        rw [hnxt]
        simp only [List.headD_cons]
        intro hcx
        exact (List.nodup_cons.mp hnd2).1 (hcx ▸ hx)
  | cons a t =>
    have hne_old : ¬ h = db.oldest := by
      rw [hw.old]
      simp only [List.cons_append, List.headD_cons]
      intro hx
      exact hh1 (hx ▸ List.mem_cons_self a t)
    have hbwd := hw.bwd
    simp only [List.cons_append, linksB] at hbwd
    rw [linksPfrom_append] at hbwd
    have hbwd1 : linksPfrom db.dirties a t := hbwd.1
    have hq : prvm db.dirties h = t.getLastD a := hbwd.2.1
    have hprev : node.flushPrev = t.getLastD a := by
      rw [prvm, hn] at hq
      exact hq
    have hbwd2 : linksPfrom db.dirties h l₂ := hbwd.2.2
    have hqmem : t.getLastD a ∈ a :: t := List.getLastD_mem_cons t a
    have hqsome : (alook db.dirties (t.getLastD a)).isSome := hw.memL _ (by
      simp only [List.cons_append]
      exact List.mem_append_left _ hqmem)
    have hlastq : (a :: t).getLast? = some (t.getLastD a) := by
      rw [getLast?_cons_getLastD a a t, List.getLastD_cons]
    cases l₂ with
    | nil =>
      -- h is the last element: the newest case of the splice
      rw [List.append_nil]
      have hnew : h = db.newest := by
        refine (hw.new h ?_).symm
        rw [List.getLast?_append_cons]
        rfl
      rw [spliceOut, if_neg hne_old, if_pos hnew]
      refine ⟨hnd1, fun hx => hw.nz (List.mem_append_left _ hx), ?_, ?_, ?_, ?_, ?_, ?_, ?_⟩
      · intro x hx
        rw [setNext, isSome_alook_aupd]
        exact hw.memL x (List.mem_append_left _ hx)
      · intro k hk
        rw [setNext] at hk
        simp only [map_fst_aupd] at hk
        rcases hw.keys k hk with h0 | hL | hP
        · exact Or.inl h0
        · rcases List.mem_append.mp hL with hL1 | hL2
          · exact Or.inr (Or.inl (by simpa using hL1))
          · rcases List.mem_cons.mp hL2 with rfl | hL3
            · exact Or.inr (Or.inr (List.mem_cons_self _ _))
            · simp at hL3
        · exact Or.inr (Or.inr (List.mem_cons_of_mem _ hP))
      · rw [setNext]
        simpa [isSome_alook_aupd] using hw.meta
      · rw [setNext, hw.old]
        rfl
      · intro x hx
        rw [setNext, hprev]
        rw [hlastq] at hx
        simpa using hx
      · rw [setNext]
        refine linksFto_retarget db.dirties _ _ h 0 hnd1 ?_ ?_ hfwd1
        · intro x hx
          rw [hlastq] at hx
          obtain rfl : t.getLastD a = x := by simpa using hx
          rw [hprev]
          exact nxtm_setNext _ _ _ hqsome
        · intro x hx hne
          refine nxtm_aupd_ne _ _ _ _ ?_
          rw [hprev]
          intro hxeq
          exact hne (hxeq ▸ hlastq)
      · rw [setNext]
        refine linksPfrom_congr _ _ _ _ ?_ hbwd1
        intro x hx
        exact prvm_fNext _ _ _ x
    | cons c u =>
      -- interior splice
      have hnxtc : node.flushNext = c := by rw [hnxt]; rfl
      have hc_mem : c ∈ h :: c :: u := List.mem_cons_of_mem h (List.mem_cons_self c u)
      have hc_ne_new : ¬ h = db.newest := by
        intro hx
        obtain ⟨x, hx2⟩ : ∃ x, (c :: u).getLast? = some x :=
          ⟨(c :: u).getLastD c, getLast?_cons_getLastD c c u⟩
        have hlx : ((a :: t) ++ h :: c :: u).getLast? = some x := by
          rw [List.getLast?_append_cons, List.getLast?_cons_cons]
          exact hx2
        have hxn := hw.new x hlx
        have hxin : x ∈ c :: u := List.mem_of_mem_getLast? (by simp [hx2])
        rw [hx, hxn] at hh2
        exact hh2 hxin
      rw [spliceOut, if_neg hne_old, if_neg hc_ne_new, hprev, hnxtc]
      have hqc : t.getLastD a ≠ c := fun hx => hdisj (hx ▸ hqmem) hc_mem
      have hcsome : (alook (aupd db.dirties (t.getLastD a)
          (fun n => { n with flushNext := c })) c).isSome := by
        rw [isSome_alook_aupd]
        exact hw.memL c (List.mem_append_right _ hc_mem)
      refine ⟨?_, ?_, ?_, ?_, ?_, ?_, ?_, ?_, ?_⟩
      · rw [List.nodup_append]
        exact ⟨hnd1, hnd2, fun x hx1 hx2 => hdisj hx1 (List.mem_cons_of_mem h hx2)⟩
      · intro hx
        rcases List.mem_append.mp hx with hx1 | hx2
        · exact hw.nz (List.mem_append_left _ hx1)
        · exact hw.nz (List.mem_append_right _ (List.mem_cons_of_mem h hx2))
      · intro x hx
        rw [setPrev, setNext, isSome_alook_aupd, isSome_alook_aupd]
        rcases List.mem_append.mp hx with hx1 | hx2
        · exact hw.memL x (List.mem_append_left _ hx1)
        · exact hw.memL x (List.mem_append_right _ (List.mem_cons_of_mem h hx2))
      · intro k hk
        rw [setPrev, setNext] at hk
        simp only [map_fst_aupd] at hk
        rcases hw.keys k hk with h0 | hL | hP
        · exact Or.inl h0
        · rcases List.mem_append.mp hL with hL1 | hL2
          · exact Or.inr (Or.inl (List.mem_append_left _ hL1))
          · rcases List.mem_cons.mp hL2 with rfl | hL3
            · exact Or.inr (Or.inr (List.mem_cons_self _ _))
            · exact Or.inr (Or.inl (List.mem_append_right _ hL3))
        · exact Or.inr (Or.inr (List.mem_cons_of_mem _ hP))
      · rw [setPrev, setNext]
        simpa [isSome_alook_aupd] using hw.meta
      · rw [setPrev, setNext, hw.old]
        simp
      · intro x hx
        rw [setPrev, setNext]
        refine hw.new x ?_
        rw [List.getLast?_append_cons] at hx
        rw [List.getLast?_append_cons, List.getLast?_cons_cons]
        exact hx
      · rw [linksF, linksFto_append, setPrev, setNext]
        constructor
        · simp only [List.headD_cons]
          refine linksFto_retarget db.dirties _ _ h c hnd1 ?_ ?_ hfwd1
          · intro x hx
            rw [hlastq] at hx
            obtain rfl : t.getLastD a = x := by simpa using hx
            rw [nxtm_fPrev]
            exact nxtm_setNext _ _ _ hqsome
          · intro x hx hne
            rw [nxtm_fPrev]
            refine nxtm_aupd_ne _ _ _ _ ?_
            intro hxeq
            exact hne (hxeq ▸ hlastq)
        · refine linksFto_congr _ _ _ _ ?_ hfwd2
          intro x hx
          rw [nxtm_fPrev]
          refine nxtm_aupd_ne _ _ _ _ ?_
          intro hxeq
          exact hdisj (hxeq ▸ hqmem) (List.mem_cons_of_mem h hx)
      · show linksB _ ((a :: t) ++ c :: u)
        simp only [List.cons_append, linksB]
        rw [linksPfrom_append]
        constructor
        · refine linksPfrom_congr _ _ _ _ ?_ hbwd1
          intro x hx
          rw [setPrev, setNext]
          have hcx : c ≠ x :=
            fun hcx => hdisj (hcx ▸ List.mem_cons_of_mem a hx) hc_mem
          rw [prvm_aupd_ne _ _ _ _ hcx]
          exact prvm_fNext _ _ _ x
        · refine ⟨?_, ?_⟩
          · rw [setPrev, setNext]
            exact prvm_setPrev _ _ _ hcsome
          · refine linksPfrom_congr _ _ _ _ ?_ hbwd2.2
            intro x hx
            rw [setPrev, setNext]
            have hcx : c ≠ x := fun hcx => (List.nodup_cons.mp hnd2).1 (hcx ▸ hx)
            rw [prvm_aupd_ne _ _ _ _ hcx]
            exact prvm_fNext _ _ _ x

/-- `WFP` only inspects the store, the cursors and the list, so states that
agree there are interchangeable. -/
theorem wfp_congr (db db' : DB) (L P : List Hash)
    (hd : db'.dirties = db.dirties) (ho : db'.oldest = db.oldest)
    (hn : db'.newest = db.newest) (hw : WFP db L P) : WFP db' L P := by
  refine ⟨hw.nodup, hw.nz, ?_, ?_, ?_, ?_, ?_, ?_, ?_⟩
  · rw [hd]; exact hw.memL
  · rw [hd]; exact hw.keys
  · rw [hd]; exact hw.meta
  · rw [ho]; exact hw.old
  · intro x hx
    rw [hn]
    exact hw.new x hx
  · rw [hd]; exact hw.fwd
  · rw [hd]; exact hw.bwd

/-- Deleting a pending hash settles it: the store drops the key, the list and
everything else are untouched. -/
theorem wfp_of_adel (db db' : DB) (L P : List Hash) (h : Hash)
    (hw : WFP db L (h :: P)) (hL : h ∉ L) (hz : h ≠ 0)
    (hd : db'.dirties = adel db.dirties h) (ho : db'.oldest = db.oldest)
    (hn : db'.newest = db.newest) : WFP db' L P := by
  refine ⟨hw.nodup, hw.nz, ?_, ?_, ?_, ?_, ?_, ?_, ?_⟩
  · intro x hx
    have hne : ¬ h = x := fun hhx => hL (by rw [hhx]; exact hx)
    rw [hd, alook_adel, if_neg hne]
    exact hw.memL x hx
  · intro k hk
    rw [hd] at hk
    obtain ⟨hk1, hk2⟩ := mem_map_fst_adel _ _ _ hk
    rcases hw.keys k hk1 with h0 | hKL | hKP
    · exact Or.inl h0
    · exact Or.inr (Or.inl hKL)
    · rcases List.mem_cons.mp hKP with rfl | hKP2
      · exact absurd rfl hk2
      · exact Or.inr (Or.inr hKP2)
  · rw [hd, alook_adel, if_neg hz]
    exact hw.meta
  · rw [ho]; exact hw.old
  · intro x hx
    rw [hn]; exact hw.new x hx
  · rw [hd]
    refine linksFto_congr _ _ _ _ ?_ hw.fwd
    intro x hx
    have hne : ¬ h = x := fun hhx => hL (by rw [hhx]; exact hx)
    rw [nxtm_adel, if_neg hne]
  · rw [hd]
    cases L with
    | nil => trivial
    | cons a tl =>
      have hb := hw.bwd
      rw [linksB] at hb
      show linksPfrom _ a tl
      refine linksPfrom_congr _ _ _ _ ?_ hb
      intro x hx
      have hne : ¬ h = x := fun hhx =>
        hL (by rw [hhx]; exact List.mem_cons_of_mem a hx)
      rw [prvm_adel, if_neg hne]

/-- Every child reference of a stored non-meta node strictly decreases the
rank, the content-hash order: children are built (hence ranked) before their
parents, which also rules out reference cycles. -/
def RankDecM (rk : Hash → Nat) (m : NodeMap) : Prop :=
  ∀ h n, h ≠ 0 → alook m h = some n → ∀ c ∈ n.childrenOf, rk c < rk h

/-- No stored node lists the zero hash among its children. -/
def NoZeroChildM (m : NodeMap) : Prop :=
  ∀ h n, alook m h = some n → 0 ∉ n.childrenOf

theorem rankdec_aupd (rk : Hash → Nat) (m : NodeMap) (k : Hash)
    (f : CachedNode → CachedNode) (hf : ∀ n, (f n).childrenOf = n.childrenOf)
    (hr : RankDecM rk m) : RankDecM rk (aupd m k f) := by
  intro h n hz hl c hc
  rw [alook_aupd] at hl
  by_cases hk : k = h
  · rw [if_pos hk] at hl
    cases ho : alook m h with
    | none => rw [ho] at hl; simp at hl
    | some n0 =>
      rw [ho] at hl
      simp only [Option.map_some'] at hl
      obtain rfl : f n0 = n := Option.some_inj.mp hl
      rw [hf n0] at hc
      exact hr h n0 hz ho c hc
  · rw [if_neg hk] at hl
    exact hr h n hz hl c hc

theorem nozero_aupd (m : NodeMap) (k : Hash) (f : CachedNode → CachedNode)
    (hf : ∀ n, (f n).childrenOf = n.childrenOf)
    (hr : NoZeroChildM m) : NoZeroChildM (aupd m k f) := by
  intro h n hl hc
  rw [alook_aupd] at hl
  by_cases hk : k = h
  · rw [if_pos hk] at hl
    cases ho : alook m h with
    | none => rw [ho] at hl; simp at hl
    | some n0 =>
      rw [ho] at hl
      simp only [Option.map_some'] at hl
      obtain rfl : f n0 = n := Option.some_inj.mp hl
      rw [hf n0] at hc
      exact hr h n0 ho hc
  · rw [if_neg hk] at hl
    exact hr h n hl hc

theorem rankdec_adel (rk : Hash → Nat) (m : NodeMap) (k : Hash)
    (hr : RankDecM rk m) : RankDecM rk (adel m k) := by
  intro h n hz hl
  rw [alook_adel] at hl
  by_cases hk : k = h
  · rw [if_pos hk] at hl; simp at hl
  · rw [if_neg hk] at hl
    exact hr h n hz hl

theorem nozero_adel (m : NodeMap) (k : Hash) (hr : NoZeroChildM m) :
    NoZeroChildM (adel m k) := by
  intro h n hl
  rw [alook_adel] at hl
  by_cases hk : k = h
  · rw [if_pos hk] at hl; simp at hl
  · rw [if_neg hk] at hl
    exact hr h n hl

theorem childrenOf_fPrev (t : Hash) (n : CachedNode) :
    (({ n with flushPrev := t }) : CachedNode).childrenOf = n.childrenOf := rfl

theorem childrenOf_fNext (t : Hash) (n : CachedNode) :
    (({ n with flushNext := t }) : CachedNode).childrenOf = n.childrenOf := rfl

theorem rankdec_spliceOut (rk : Hash → Nat) (db : DB) (h : Hash)
    (node : CachedNode) (hr : RankDecM rk db.dirties) :
    RankDecM rk (spliceOut db h node).dirties := by
  rw [spliceOut]
  split
  · exact rankdec_aupd rk _ _ _ (childrenOf_fPrev 0) hr
  · split
    · exact rankdec_aupd rk _ _ _ (childrenOf_fNext 0) hr
    · exact rankdec_aupd rk _ _ _ (childrenOf_fPrev node.flushPrev)
        (rankdec_aupd rk _ _ _ (childrenOf_fNext node.flushNext) hr)

theorem nozero_spliceOut (db : DB) (h : Hash) (node : CachedNode)
    (hr : NoZeroChildM db.dirties) : NoZeroChildM (spliceOut db h node).dirties := by
  rw [spliceOut]
  split
  · exact nozero_aupd _ _ _ (childrenOf_fPrev 0) hr
  · split
    · exact nozero_aupd _ _ _ (childrenOf_fNext 0) hr
    · exact nozero_aupd _ _ _ (childrenOf_fPrev node.flushPrev)
        (nozero_aupd _ _ _ (childrenOf_fNext node.flushNext) hr)

/-- Fields `dereference` never touches. -/
def SameMisc (a b : DB) : Prop :=
  a.freshNodes = b.freshNodes ∧ a.nodeVersion = b.nodeVersion ∧
  a.preimages = b.preimages ∧ a.preimagesSize = b.preimagesSize ∧
  a.useless = b.useless ∧ a.diskNodes = b.diskNodes ∧ a.diskPreimages = b.diskPreimages

theorem sameMisc_refl (a : DB) : SameMisc a a := ⟨rfl, rfl, rfl, rfl, rfl, rfl, rfl⟩

theorem sameMisc_trans (a b c : DB) (h1 : SameMisc a b) (h2 : SameMisc b c) :
    SameMisc a c := by
  obtain ⟨x1, x2, x3, x4, x5, x6, x7⟩ := h1
  obtain ⟨y1, y2, y3, y4, y5, y6, y7⟩ := h2
  exact ⟨x1.trans y1, x2.trans y2, x3.trans y3, x4.trans y4, x5.trans y5,
    x6.trans y6, x7.trans y7⟩

theorem derefStepF_sameMisc (rec : DB → List Hash → DB × List Hash)
    (hrec : ∀ db hs, SameMisc (rec db hs).1 db) (acc : DB × List Hash) (h : Hash) :
    SameMisc ((derefStepF rec acc h).1) acc.1 := by
  rw [derefStepF]
  split
  · exact sameMisc_refl _
  · cases hl : alook acc.1.dirties h with
    | none => exact sameMisc_refl _
    | some node =>
      simp only
      split
      · have hmid : SameMisc ((rec (spliceOut acc.1 h node) node.childrenOf).1) acc.1 := by
          refine sameMisc_trans _ _ _ (hrec _ _) ?_
          rw [spliceOut]
          split
          · exact sameMisc_refl _
          · split <;> exact sameMisc_refl _
        split
        · exact hmid
        · exact hmid
      · exact sameMisc_refl _

theorem derefMany_sameMisc : ∀ (fuel : Nat) (db : DB) (hs : List Hash),
    SameMisc (derefMany fuel db hs).1 db := by
  intro fuel
  induction fuel with
  | zero => intro db hs; exact sameMisc_refl _
  | succ f ih =>
    intro db hs
    rw [derefMany]
    suffices H : ∀ (hs : List Hash) (acc : DB × List Hash),
        SameMisc ((hs.foldl (derefStepF (derefMany f)) acc).1) acc.1 by
      exact H hs (db, [])
    intro hs0
    induction hs0 with
    | nil => intro acc; exact sameMisc_refl _
    | cons h rest ihs =>
      intro acc
      rw [List.foldl_cons]
      exact sameMisc_trans _ _ _ (ihs _)
        (derefStepF_sameMisc _ (fun d l => ih d l) acc h)

/-- The contract of a `dereference` recursion: starting from a well-formed
state whose pending hashes all rank at least `B` and a work list ranking
strictly below `B`, it reaches a well-formed state over a sublist of the
flush list, preserving the rank and zero-child invariants. -/
def DerefOK (rec : DB → List Hash → DB × List Hash) (rk : Hash → Nat) : Prop :=
  ∀ db hs L P B,
    WFP db L P → RankDecM rk db.dirties → NoZeroChildM db.dirties →
    (∀ h ∈ hs, h ≠ 0 ∧ rk h < B) → (∀ p ∈ P, B ≤ rk p) →
    ∃ L', WFP (rec db hs).1 L' P ∧ L'.Sublist L ∧
      RankDecM rk (rec db hs).1.dirties ∧ NoZeroChildM (rec db hs).1.dirties

theorem derefStepF_ok (rec : DB → List Hash → DB × List Hash) (rk : Hash → Nat)
    (hrec : DerefOK rec rk) (acc : DB × List Hash) (h : Hash) (L P : List Hash)
    (B : Nat) (hw : WFP acc.1 L P) (hr : RankDecM rk acc.1.dirties)
    (hz : NoZeroChildM acc.1.dirties) (hh0 : h ≠ 0) (hhB : rk h < B)
    (hPB : ∀ p ∈ P, B ≤ rk p) :
    ∃ L', WFP (derefStepF rec acc h).1 L' P ∧ L'.Sublist L ∧
      RankDecM rk (derefStepF rec acc h).1.dirties ∧
      NoZeroChildM (derefStepF rec acc h).1.dirties := by
  rw [derefStepF]
  split
  · exact ⟨L, hw, List.Sublist.refl L, hr, hz⟩
  · cases hl : alook acc.1.dirties h with
    | none => exact ⟨L, hw, List.Sublist.refl L, hr, hz⟩
    | some node =>
      simp only
      split
      · -- the stale branch
        have hmem : h ∈ L := by
          rcases hw.keys h (alook_mem_map_fst _ _ _ hl) with h0 | hL | hP
          · exact absurd h0 hh0
          · exact hL
          · exact absurd hhB (Nat.not_lt.mpr (hPB h hP))
        have hw1 : WFP (spliceOut acc.1 h node) (L.erase h) (h :: P) :=
          spliceOut_wfp acc.1 L P h node hw hmem hl
        have hr1 : RankDecM rk (spliceOut acc.1 h node).dirties :=
          rankdec_spliceOut rk acc.1 h node hr
        have hz1 : NoZeroChildM (spliceOut acc.1 h node).dirties :=
          nozero_spliceOut acc.1 h node hz
        have hch : ∀ c ∈ node.childrenOf, c ≠ 0 ∧ rk c < rk h := by
          intro c hc
          exact ⟨fun hc0 => hz h node hl (hc0 ▸ hc), hr h node hh0 hl c hc⟩
        have hPB2 : ∀ p ∈ h :: P, rk h ≤ rk p := by
          intro p hp
          rcases List.mem_cons.mp hp with rfl | hp2
          · exact Nat.le_refl _
          · exact Nat.le_of_lt (Nat.lt_of_lt_of_le hhB (hPB p hp2))
        obtain ⟨L2, hw2, hsub2, hr2, hz2⟩ :=
          hrec (spliceOut acc.1 h node) node.childrenOf (L.erase h) (h :: P)
            (rk h) hw1 hr1 hz1 hch hPB2
        have hL2 : h ∉ L2 := fun hx =>
          (hw.nodup).not_mem_erase (hsub2.subset hx)
        have hsubL : L2.Sublist L :=
          hsub2.trans (List.erase_sublist h L)
        split
        · refine ⟨L2, ?_, hsubL, rankdec_adel rk _ _ hr2, nozero_adel _ _ hz2⟩
          exact wfp_of_adel _ _ L2 P h hw2 hL2 hh0 rfl rfl rfl
        · refine ⟨L2, ?_, hsubL, rankdec_adel rk _ _ hr2, nozero_adel _ _ hz2⟩
          exact wfp_of_adel _ _ L2 P h hw2 hL2 hh0 rfl rfl rfl
      · exact ⟨L, hw, List.Sublist.refl L, hr, hz⟩

theorem derefMany_ok (rk : Hash → Nat) : ∀ fuel, DerefOK (derefMany fuel) rk := by
  intro fuel
  induction fuel with
  | zero =>
    intro db hs L P B hw hr hz _ _
    exact ⟨L, hw, List.Sublist.refl L, hr, hz⟩
  | succ f ih =>
    intro db hs L P B hw hr hz hhs hPB
    rw [derefMany]
    suffices H : ∀ (hs0 : List Hash) (acc : DB × List Hash) (L0 : List Hash),
        WFP acc.1 L0 P → RankDecM rk acc.1.dirties → NoZeroChildM acc.1.dirties →
        (∀ h ∈ hs0, h ≠ 0 ∧ rk h < B) →
        ∃ L', WFP ((hs0.foldl (derefStepF (derefMany f)) acc).1) L' P ∧
          L'.Sublist L0 ∧
          RankDecM rk ((hs0.foldl (derefStepF (derefMany f)) acc).1).dirties ∧
          NoZeroChildM ((hs0.foldl (derefStepF (derefMany f)) acc).1).dirties by
      exact H hs (db, []) L hw hr hz hhs
    intro hs0
    induction hs0 with
    | nil =>
      intro acc L0 hw0 hr0 hz0 _
      exact ⟨L0, hw0, List.Sublist.refl L0, hr0, hz0⟩
    | cons h rest ihs =>
      intro acc L0 hw0 hr0 hz0 hhs0
      rw [List.foldl_cons]
      obtain ⟨L1, hw1, hsub1, hr1, hz1⟩ :=
        derefStepF_ok (derefMany f) rk ih acc h L0 P B hw0 hr0 hz0
          (hhs0 h (List.mem_cons_self h rest)).1 (hhs0 h (List.mem_cons_self h rest)).2 hPB
      obtain ⟨L2, hw2, hsub2, hr2, hz2⟩ :=
        ihs (derefStepF (derefMany f) acc h) L1 hw1 hr1 hz1
          (fun x hx => hhs0 x (List.mem_cons_of_mem h hx))
      exact ⟨L2, hw2, hsub2.trans hsub1, hr2, hz2⟩

theorem nxtm_aset_ne (m : NodeMap) (k x : Hash) (v : CachedNode) (hk : k ≠ x) :
    nxtm (aset m k v) x = nxtm m x := by
  rw [nxtm, alook_aset_ne m k x v hk, nxtm]

theorem prvm_aset_ne (m : NodeMap) (k x : Hash) (v : CachedNode) (hk : k ≠ x) :
    prvm (aset m k v) x = prvm m x := by
  rw [prvm, alook_aset_ne m k x v hk, prvm]

theorem nxtm_aset_self (m : NodeMap) (k : Hash) (v : CachedNode) :
    nxtm (aset m k v) k = v.flushNext := by
  rw [nxtm, alook_aset_self]

theorem prvm_aset_self (m : NodeMap) (k : Hash) (v : CachedNode) :
    prvm (aset m k v) k = v.flushPrev := by
  rw [prvm, alook_aset_self]

theorem isSome_alook_aset {α : Type} (m : List (Nat × α)) (k x : Nat) (v : α) :
    (alook (aset m k v) x).isSome = (if k = x then true else (alook m x).isSome) := by
  by_cases hk : k = x
  · subst hk; simp [alook_aset_self]
  · simp [alook_aset_ne m k x v hk, hk]

/-- A store update that rewrites neither link field preserves the flush-list
shape entirely. -/
theorem wfp_aupd (db db' : DB) (L P : List Hash) (k : Hash)
    (f : CachedNode → CachedNode)
    (hf1 : ∀ n, (f n).flushNext = n.flushNext)
    (hf2 : ∀ n, (f n).flushPrev = n.flushPrev)
    (hd : db'.dirties = aupd db.dirties k f) (ho : db'.oldest = db.oldest)
    (hn : db'.newest = db.newest) (hw : WFP db L P) : WFP db' L P := by
  refine ⟨hw.nodup, hw.nz, ?_, ?_, ?_, ?_, ?_, ?_, ?_⟩
  · intro x hx
    rw [hd, isSome_alook_aupd]
    exact hw.memL x hx
  · intro x hx
    rw [hd, map_fst_aupd] at hx
    exact hw.keys x hx
  · rw [hd, isSome_alook_aupd]
    exact hw.meta
  · rw [ho]; exact hw.old
  · intro x hx
    rw [hn]; exact hw.new x hx
  · rw [hd]
    refine linksFto_congr _ _ _ _ ?_ hw.fwd
    intro x hx
    exact nxtm_aupd _ _ _ hf1 x
  · rw [hd]
    cases L with
    | nil => trivial
    | cons a tl =>
      have hb := hw.bwd
      rw [linksB] at hb
      show linksPfrom _ a tl
      refine linksPfrom_congr _ _ _ _ ?_ hb
      intro x hx
      exact prvm_aupd _ _ _ hf2 x

/-- Pointwise rank preservation for a single-entry update. -/
theorem rankdec_aupd2 (rk : Hash → Nat) (m : NodeMap) (k : Hash)
    (f : CachedNode → CachedNode) (hr : RankDecM rk m)
    (hf : ∀ n, alook m k = some n → k ≠ 0 → ∀ c ∈ (f n).childrenOf, rk c < rk k) :
    RankDecM rk (aupd m k f) := by
  intro h n hz hl c hc
  rw [alook_aupd] at hl
  by_cases hk : k = h
  · subst hk
    cases ho : alook m k with
    | none => rw [ho] at hl; simp at hl
    | some n0 =>
      rw [ho] at hl
      simp only [Option.map_some'] at hl
      obtain rfl : f n0 = n := Option.some_inj.mp hl
      exact hf n0 ho hz c hc
  · rw [if_neg hk] at hl
    exact hr h n hz hl c hc

/-- Pointwise zero-child preservation for a single-entry update. -/
theorem nozero_aupd2 (m : NodeMap) (k : Hash) (f : CachedNode → CachedNode)
    (hz : NoZeroChildM m)
    (hf : ∀ n, alook m k = some n → 0 ∉ (f n).childrenOf) :
    NoZeroChildM (aupd m k f) := by
  intro h n hl hc
  rw [alook_aupd] at hl
  by_cases hk : k = h
  · subst hk
    cases ho : alook m k with
    | none => rw [ho] at hl; simp at hl
    | some n0 =>
      rw [ho] at hl
      simp only [Option.map_some'] at hl
      obtain rfl : f n0 = n := Option.some_inj.mp hl
      exact hf n0 ho hc
  · rw [if_neg hk] at hl
    exact hz h n hl hc

theorem rankdec_aset (rk : Hash → Nat) (m : NodeMap) (k : Hash) (v : CachedNode)
    (hr : RankDecM rk m) (hv : k ≠ 0 → ∀ c ∈ v.childrenOf, rk c < rk k) :
    RankDecM rk (aset m k v) := by
  intro h n hz hl c hc
  by_cases hk : k = h
  · subst hk
    rw [alook_aset_self] at hl
    obtain rfl : v = n := Option.some_inj.mp hl
    exact hv hz c hc
  · rw [alook_aset_ne m k h v hk] at hl
    exact hr h n hz hl c hc

theorem nozero_aset (m : NodeMap) (k : Hash) (v : CachedNode)
    (hz : NoZeroChildM m) (hv : 0 ∉ v.childrenOf) :
    NoZeroChildM (aset m k v) := by
  intro h n hl hc
  by_cases hk : k = h
  · subst hk
    rw [alook_aset_self] at hl
    obtain rfl : v = n := Option.some_inj.mp hl
    exact hv hc
  · rw [alook_aset_ne m k h v hk] at hl
    exact hz h n hl hc

/-- `insert` of a genuinely new hash appends it at the flush-list tail. -/
theorem insert_wfp_new (db : DB) (L : List Hash) (hash : Hash) (sz : Nat)
    (r : Bool) (c : List Hash) (b : Blob) (hw : WFP db L [])
    (hl : alook db.dirties hash = none) :
    WFP (db.insert hash sz r c b) (L ++ [hash]) [] := by
  have hnot : hash ∉ L := fun hx => by
    have := hw.memL hash hx
    rw [hl] at this
    simp at this
  have hz : hash ≠ 0 := fun hx => by
    have := hw.meta
    rw [← hx, hl] at this
    simp at this
  by_cases hold : db.oldest = 0
  · -- empty flush list: the inserted hash becomes both ends
    have hLnil : L = [] := by
      cases hLc : L with
      | nil => rfl
      | cons a t =>
        exfalso
        have := hw.old
        rw [hLc] at this
        simp only [List.headD_cons] at this
        rw [hold] at this
        exact hw.nz (by rw [hLc, this]; exact List.mem_cons_self a t)
    subst hLnil
    show WFP (db.insert hash sz r c b) [hash] []
    have hred : db.insert hash sz r c b =
        { db with
          dirties := aset db.dirties hash
            { isRaw := r, intChildren := c, blob := b, size := sz % 65536,
              parents := 0, children := none, flushPrev := db.newest,
              flushNext := 0, version := db.nodeVersion },
          oldest := hash, newest := hash,
          dirtiesSize := db.dirtiesSize + insertSizeDelta sz } := by
      simp [DB.insert, hl, hold]
    rw [hred]
    refine ⟨by simp, by simp [Ne.symm hz], ?_, ?_, ?_, rfl, ?_, ?_, ?_⟩
    · intro x hx
      rcases List.mem_singleton.mp hx with rfl
      simp [alook_aset_self]
    · intro k hk
      rcases mem_map_fst_aset _ _ _ _ hk with hk1 | hk2
      · rcases hw.keys k hk1 with h0 | hL | hP
        · exact Or.inl h0
        · simp at hL
        · simp at hP
      · exact Or.inr (Or.inl (by simp [hk2]))
    · rw [alook_aset_ne _ _ _ _ hz]
      exact hw.meta
    · intro x hx
      simp only [List.getLast?_singleton] at hx
      exact Option.some_inj.mp hx
    · refine ⟨?_, trivial⟩
      rw [nxtm_aset_self]
      rfl
    · trivial
  · -- non-empty list: the hash is appended after the current newest
    obtain ⟨a, t, rfl⟩ : ∃ a t, L = a :: t := by
      cases hLc : L with
      | nil =>
        exfalso
        apply hold
        have := hw.old
        rw [hLc] at this
        exact this
      | cons a t => exact ⟨a, t, rfl⟩
    have hlastL : (a :: t).getLast? = some (t.getLastD a) := by
      rw [getLast?_cons_getLastD a a t, List.getLastD_cons]
    have hnewest : db.newest = t.getLastD a := hw.new _ hlastL
    have hgmem : t.getLastD a ∈ a :: t := List.getLastD_mem_cons t a
    have hgz : t.getLastD a ≠ 0 := fun hx => hw.nz (hx ▸ hgmem)
    have hgne : t.getLastD a ≠ hash := fun hx => hnot (hx ▸ hgmem)
    have hgsome : (alook (aset db.dirties hash
        { isRaw := r, intChildren := c, blob := b, size := sz % 65536,
          parents := 0, children := none, flushPrev := db.newest,
          flushNext := 0, version := db.nodeVersion }) db.newest).isSome := by
      rw [isSome_alook_aset, if_neg (fun hx => hgne (hnewest ▸ hx).symm)]
      rw [hnewest]
      exact hw.memL _ hgmem
    have hred : db.insert hash sz r c b =
        { db with
          dirties := aupd (aset db.dirties hash
            { isRaw := r, intChildren := c, blob := b, size := sz % 65536,
              parents := 0, children := none, flushPrev := db.newest,
              flushNext := 0, version := db.nodeVersion }) db.newest
            (fun n => { n with flushNext := hash }),
          newest := hash,
          dirtiesSize := db.dirtiesSize + insertSizeDelta sz } := by
      simp [DB.insert, hl, hold]
    rw [hred]
    refine ⟨?_, ?_, ?_, ?_, ?_, ?_, ?_, ?_, ?_⟩
    · rw [List.nodup_append]
      refine ⟨hw.nodup, by simp, ?_⟩
      intro x hx1 hx2
      rcases List.mem_singleton.mp hx2 with rfl
      exact hnot hx1
    · intro hx
      rcases List.mem_append.mp hx with hx1 | hx2
      · exact hw.nz hx1
      · exact hz (List.mem_singleton.mp hx2).symm
    · intro x hx
      rw [isSome_alook_aupd, isSome_alook_aset]
      by_cases hhx : hash = x
      · simp [hhx]
      · rw [if_neg hhx]
        rcases List.mem_append.mp hx with hx1 | hx2
        · exact hw.memL x hx1
        · exact absurd (List.mem_singleton.mp hx2).symm hhx
    · intro k hk
      rw [map_fst_aupd] at hk
      rcases mem_map_fst_aset _ _ _ _ hk with hk1 | hk2
      · rcases hw.keys k hk1 with h0 | hL | hP
        · exact Or.inl h0
        · exact Or.inr (Or.inl (List.mem_append_left _ hL))
        · simp at hP
      · exact Or.inr (Or.inl (List.mem_append_right _ (by simp [hk2])))
    · rw [isSome_alook_aupd, isSome_alook_aset, if_neg hz]
      exact hw.meta
    · show db.oldest = _
      rw [hw.old]
      simp
    · intro x hx
      rw [List.getLast?_append_cons] at hx
      simp only [List.getLast?_singleton] at hx
      exact Option.some_inj.mp hx
    · rw [linksF, linksFto_append]
      constructor
      · simp only [List.headD_cons]
        refine linksFto_retarget db.dirties _ _ 0 hash hw.nodup ?_ ?_ hw.fwd
        · intro x hx
          rw [hlastL] at hx
          obtain rfl : t.getLastD a = x := by simpa using hx
          rw [← hnewest]
          exact nxtm_setNext _ _ _ hgsome
        · intro x hx hne
          have hxg : db.newest ≠ x := by
            rw [hnewest]
            intro hxeq
            exact hne (hxeq ▸ hlastL)
          rw [nxtm_aupd_ne _ _ _ _ hxg]
          exact nxtm_aset_ne _ _ _ _ (fun hhx => hnot (hhx ▸ hx))
      · refine ⟨?_, trivial⟩
        have hgne2 : hash ≠ db.newest := by rw [hnewest]; exact fun hx => hgne hx.symm
        rw [nxtm_aupd_ne _ _ _ _ (fun hx => hgne2 hx.symm), nxtm_aset_self]
        rfl
    · show linksB _ (a :: (t ++ [hash]))
      rw [linksB, linksPfrom_append]
      constructor
      · have hb := hw.bwd
        rw [linksB] at hb
        refine linksPfrom_congr _ _ _ _ ?_ hb
        intro x hx
        rw [prvm_fNext]
        exact prvm_aset_ne _ _ _ _
          (fun hhx => hnot (hhx ▸ List.mem_cons_of_mem a hx))
      · refine ⟨?_, trivial⟩
        rw [prvm_fNext, prvm_aset_self]
        exact hnewest

/-! ### Cap: memory stability when a batch write fails -/

/-- Equality of every in-memory field (everything except the disk stores). -/
def MemSame (a b : DB) : Prop :=
  a.dirties = b.dirties ∧ a.oldest = b.oldest ∧ a.newest = b.newest ∧
  a.nodeVersion = b.nodeVersion ∧ a.freshNodes = b.freshNodes ∧
  a.cleans = b.cleans ∧ a.useless = b.useless ∧ a.preimages = b.preimages ∧
  a.dirtiesSize = b.dirtiesSize ∧ a.childrenSize = b.childrenSize ∧
  a.preimagesSize = b.preimagesSize

theorem memSame_refl (a : DB) : MemSame a a :=
  ⟨rfl, rfl, rfl, rfl, rfl, rfl, rfl, rfl, rfl, rfl, rfl⟩

theorem memSame_trans (a b c : DB) (h1 : MemSame a b) (h2 : MemSame b c) :
  MemSame a c := by
  obtain ⟨x1, x2, x3, x4, x5, x6, x7, x8, x9, x10, x11⟩ := h1
  obtain ⟨y1, y2, y3, y4, y5, y6, y7, y8, y9, y10, y11⟩ := h2
  exact ⟨x1.trans y1, x2.trans y2, x3.trans y3, x4.trans y4, x5.trans y5,
  x6.trans y6, x7.trans y7, x8.trans y8, x9.trans y9, x10.trans y10, x11.trans y11⟩

/-- Applying a disk batch only touches the disk stores. -/
theorem memSame_batchWriteTo (db : DB) (b : Batch) :
  MemSame db (batchWriteTo db b) :=
  ⟨rfl, rfl, rfl, rfl, rfl, rfl, rfl, rfl, rfl, rfl, rfl⟩

/-- The database carried by either outcome of the write loop. -/
def capResState : Except DB (DB × Batch × Nat × Hash) → DB
  | .error e => e
  | .ok r => r.1

/-- The `Cap` write loop never touches memory: whether it errors out or
completes, the carried state agrees with the input on every in-memory
field. -/
theorem capWriteLoop_memSame (diskOk : Nat → Bool) :
  ∀ (fuel : Nat) (db : DB) (wc : Nat) (batch : Batch) (size limit : Int)
    (oldest : Hash),
    MemSame db (capResState (capWriteLoop diskOk fuel db wc batch size limit oldest)) := by
  intro fuel
  induction fuel with
  | zero =>
  intro db wc batch size limit oldest
  exact memSame_refl db
  | succ f ih =>
  intro db wc batch size limit oldest
  rw [capWriteLoop]
  split
  · cases hl : alook db.dirties oldest with
    | none => exact memSame_refl db
    | some node =>
      dsimp only
      by_cases hv : (batch.putNode oldest node.blob).vsize ≥ idealBatchSize
      · rw [if_pos hv]
        by_cases hd : diskOk wc = true
        · rw [if_pos hd]
          exact memSame_trans _ _ _ (memSame_batchWriteTo db _) (ih _ _ _ _ _ _)
        · rw [if_neg hd]
          exact memSame_refl db
      · rw [if_neg hv]
        exact ih _ _ _ _ _ _
  · exact memSame_refl db

/-- `insert` preserves the flush-list shape, appending the new hash at the
tail when it is actually added. -/
theorem insert_wfp (db : DB) (L : List Hash) (hash : Hash) (sz : Nat)
    (r : Bool) (c : List Hash) (b : Blob) (hw : WFP db L []) :
    ∃ L', WFP (db.insert hash sz r c b) L' [] ∧ (L' = L ∨ L' = L ++ [hash]) := by
  cases hl : alook db.dirties hash with
  | some n =>
    refine ⟨L, ?_, Or.inl rfl⟩
    simpa [DB.insert, hl] using hw
  | none =>
    exact ⟨L ++ [hash], insert_wfp_new db L hash sz r c b hw hl, Or.inr rfl⟩

/-! ### Cap: characterizing the write-loop target and the eviction loop -/

theorem linksFto_drop (m : NodeMap) (e : Hash) :
    ∀ (k : Nat) (L : List Hash), linksFto m L e → linksFto m (L.drop k) e := by
  intro k
  induction k with
  | zero => intro L h; exact h
  | succ j ih =>
    intro L h
    cases L with
    | nil => trivial
    | cons a t => exact ih t h.2

theorem drop_succ_eq_tail {α : Type} :
    ∀ (k : Nat) (L : List α), L.drop (k + 1) = (L.drop k).tail := by
  intro k
  induction k with
  | zero => intro L; cases L <;> rfl
  | succ j ih =>
    intro L
    cases L with
    | nil => rfl
    | cons a t => exact ih t

/-- Following one `flushNext` edge from the head of a dropped chain lands on
the head of the next drop. -/
theorem links_drop_step (m : NodeMap) (L : List Hash) (hf : linksF m L) (k : Nat)
    (node : CachedNode) (hne : (L.drop k).headD 0 ≠ 0)
    (hl : alook m ((L.drop k).headD 0) = some node) :
    node.flushNext = (L.drop (k + 1)).headD 0 := by
  cases hLd : L.drop k with
  | nil =>
    rw [hLd] at hne
    exact absurd rfl hne
  | cons a t =>
    have hdt : L.drop (k + 1) = t := by
      rw [drop_succ_eq_tail k L, hLd]
      rfl
    have hfd : linksFto m (a :: t) 0 := by
      have := linksFto_drop m 0 k L hf
      rw [hLd] at this
      exact this
    rw [hLd] at hl
    simp only [List.headD_cons] at hl
    rw [hdt]
    have h1 := hfd.1
    rw [nxtm, hl] at h1
    exact h1

/-- Whatever the write loop returns as its stopping point is the head of some
suffix of the flush list it was walking. -/
theorem capWriteLoop_target (diskOk : Nat → Bool) (L : List Hash) :
    ∀ (fuel : Nat) (db : DB) (wc : Nat) (batch : Batch) (size limit : Int)
      (o : Hash) (k : Nat) (d : DB) (b : Batch) (w : Nat) (t : Hash),
      linksF db.dirties L → o = (L.drop k).headD 0 →
      capWriteLoop diskOk fuel db wc batch size limit o = .ok (d, b, w, t) →
      ∃ j, t = (L.drop j).headD 0 := by
  intro fuel
  induction fuel with
  | zero =>
    intro db wc batch size limit o k d b w t hf ho hres
    rw [capWriteLoop] at hres
    simp only [Except.ok.injEq, Prod.mk.injEq] at hres
    exact ⟨k, hres.2.2.2 ▸ ho⟩
  | succ f ih =>
    intro db wc batch size limit o k d b w t hf ho hres
    rw [capWriteLoop] at hres
    split at hres
    · rename_i hcond
      revert hres
      cases hl : alook db.dirties o with
      | none =>
        intro hres
        simp only [Except.ok.injEq, Prod.mk.injEq] at hres
        exact ⟨k, hres.2.2.2 ▸ ho⟩
      | some node =>
        intro hres
        dsimp only at hres
        have hstep : node.flushNext = (L.drop (k + 1)).headD 0 :=
          links_drop_step db.dirties L hf k node (ho ▸ hcond.2) (ho ▸ hl)
        split at hres
        · split at hres
          · exact ih (batchWriteTo db (batch.putNode o node.blob)) (wc + 1)
              Batch.empty _ limit node.flushNext (k + 1) d b w t hf hstep hres
          · exact absurd hres (by simp)
        · exact ih db wc (batch.putNode o node.blob) _ limit node.flushNext
            (k + 1) d b w t hf hstep hres
    · simp only [Except.ok.injEq, Prod.mk.injEq] at hres
      exact ⟨k, hres.2.2.2 ▸ ho⟩

/-- Popping the head of the flush list, as the `Cap` eviction loop does:
delete the entry, advance `oldest` along its `flushNext`. -/
theorem wfp_pop_head (db db' : DB) (a : Hash) (t : List Hash) (node : CachedNode)
    (hw : WFP db (a :: t) []) (hn : alook db.dirties a = some node)
    (hd : db'.dirties = adel db.dirties a) (ho : db'.oldest = node.flushNext)
    (hnw : db'.newest = db.newest) : WFP db' t [] := by
  have hnd := List.nodup_cons.mp hw.nodup
  have ha0 : a ≠ 0 := fun h => hw.nz (h ▸ List.mem_cons_self a t)
  have hat : a ∉ t := hnd.1
  refine ⟨hnd.2, fun h => hw.nz (List.mem_cons_of_mem a h), ?_, ?_, ?_, ?_, ?_, ?_, ?_⟩
  · intro x hx
    have hne : ¬ a = x := fun hax => hat (hax ▸ hx)
    rw [hd, alook_adel, if_neg hne]
    exact hw.memL x (List.mem_cons_of_mem a hx)
  · intro k hk
    rw [hd] at hk
    obtain ⟨hk1, hk2⟩ := mem_map_fst_adel _ _ _ hk
    rcases hw.keys k hk1 with h0 | hL | hP
    · exact Or.inl h0
    · rcases List.mem_cons.mp hL with rfl | hL2
      · exact absurd rfl hk2
      · exact Or.inr (Or.inl hL2)
    · simp at hP
  · rw [hd, alook_adel, if_neg ha0]
    exact hw.meta
  · rw [ho]
    have h1 := hw.fwd.1
    rw [nxtm, hn] at h1
    exact h1
  · intro x hx
    rw [hnw]
    refine hw.new x ?_
    cases t with
    | nil => simp at hx
    | cons b u =>
      rw [List.getLast?_cons_cons]
      exact hx
  · rw [hd]
    refine linksFto_congr _ _ _ _ ?_ hw.fwd.2
    intro x hx
    have hne : ¬ a = x := fun hax => hat (by rw [hax]; exact hx)
    rw [nxtm_adel, if_neg hne]
  · rw [hd]
    cases t with
    | nil => trivial
    | cons b u =>
      have hb := hw.bwd
      show linksPfrom _ b u
      refine linksPfrom_congr _ _ _ _ ?_ hb.2
      intro x hx
      have hne : ¬ a = x := fun hax =>
        hat (by rw [hax]; exact List.mem_cons_of_mem b hx)
      rw [prvm_adel, if_neg hne]

/-- The eviction loop only ever drops a prefix of the flush list, keeping the
state well-formed together with the rank and zero-child invariants, provided
its target is the head of some suffix. -/
theorem capEvictLoop_wf (rk : Hash → Nat) :
    ∀ (fuel : Nat) (db : DB) (L : List Hash) (k : Nat),
      WFP db L [] → RankDecM rk db.dirties → NoZeroChildM db.dirties →
      ∃ j, WFP (capEvictLoop fuel db ((L.drop k).headD 0)) (L.drop j) [] ∧
        RankDecM rk (capEvictLoop fuel db ((L.drop k).headD 0)).dirties ∧
        NoZeroChildM (capEvictLoop fuel db ((L.drop k).headD 0)).dirties := by
  intro fuel
  induction fuel with
  | zero =>
    intro db L k hw hr hz
    exact ⟨0, hw, hr, hz⟩
  | succ f ih =>
    intro db L k hw hr hz
    cases L with
    | nil =>
      have h0 : db.oldest = 0 := by simpa using hw.old
      have ht0 : ((([] : List Hash).drop k).headD 0) = 0 := by
        cases k <;> rfl
      rw [capEvictLoop, ht0, h0, if_neg (not_not_intro rfl)]
      exact ⟨0, hw, hr, hz⟩
    | cons a t =>
      have hold : db.oldest = a := by simpa using hw.old
      by_cases hoeq : db.oldest = (((a :: t).drop k).headD 0)
      · rw [capEvictLoop, if_neg (not_not_intro hoeq)]
        exact ⟨0, hw, hr, hz⟩
      · cases k with
        | zero => exact absurd hold hoeq
        | succ k' =>
          obtain ⟨node, hna⟩ := Option.isSome_iff_exists.mp
            (hw.memL a (List.mem_cons_self a t))
          rw [capEvictLoop, if_pos hoeq, hold, hna]
          dsimp only
          have hw' := wfp_pop_head db
            { db with
              dirties := adel db.dirties a,
              oldest := node.flushNext,
              dirtiesSize := db.dirtiesSize - ((hashLength : Int) + node.size),
              childrenSize := db.childrenSize -
                (match node.children with
                 | some cs =>
                   ((cachedNodeChildrenSize + cs.length * (hashLength + 2) : Nat) : Int)
                 | none => 0) }
            a t node hw hna rfl rfl rfl
          have hr' : RankDecM rk (adel db.dirties a) := rankdec_adel rk _ _ hr
          have hz' : NoZeroChildM (adel db.dirties a) := nozero_adel _ _ hz
          obtain ⟨j, hwj, hrj, hzj⟩ := ih _ t k' hw' hr' hz'
          exact ⟨j + 1, hwj, hrj, hzj⟩

/-- The eviction loop leaves the fresh-node markers, the disk stores, the
clean cache and the version counter alone. -/
theorem capEvictLoop_misc :
    ∀ (fuel : Nat) (db : DB) (tgt : Hash),
      (capEvictLoop fuel db tgt).freshNodes = db.freshNodes ∧
      (capEvictLoop fuel db tgt).diskNodes = db.diskNodes ∧
      (capEvictLoop fuel db tgt).cleans = db.cleans ∧
      (capEvictLoop fuel db tgt).nodeVersion = db.nodeVersion := by
  intro fuel
  induction fuel with
  | zero => intro db tgt; exact ⟨rfl, rfl, rfl, rfl⟩
  | succ f ih =>
    intro db tgt
    rw [capEvictLoop]
    split
    · cases hl : alook db.dirties db.oldest with
      | none => exact ⟨rfl, rfl, rfl, rfl⟩
      | some node => exact ih _ tgt
    · exact ⟨rfl, rfl, rfl, rfl⟩

/-- Rewriting the stale `flushPrev` of the flush-list head keeps the list
well-formed (the head's back link is unconstrained). -/
theorem wfp_setPrev_head (db : DB) (a x : Hash) (t : List Hash)
    (hw : WFP db (a :: t) []) : WFP (setPrev db a x) (a :: t) [] := by
  have hat : a ∉ t := (List.nodup_cons.mp hw.nodup).1
  refine ⟨hw.nodup, hw.nz, ?_, ?_, ?_, ?_, ?_, ?_, ?_⟩
  · intro h hh
    rw [setPrev]
    show (alook (aupd _ _ _) h).isSome = true
    rw [isSome_alook_aupd]
    exact hw.memL h hh
  · intro k hk
    rw [setPrev] at hk
    simp only [map_fst_aupd] at hk
    exact hw.keys k hk
  · rw [setPrev]
    show (alook (aupd _ _ _) 0).isSome = true
    rw [isSome_alook_aupd]
    exact hw.meta
  · exact hw.old
  · exact hw.new
  · rw [setPrev]
    refine linksFto_congr _ _ _ _ ?_ hw.fwd
    intro y hy
    exact nxtm_fPrev _ _ _ y
  · show linksPfrom _ a t
    refine linksPfrom_congr _ _ _ _ ?_ hw.bwd
    intro y hy
    exact prvm_aupd_ne _ _ _ _ (fun hay => hat (hay ▸ hy))

/-! ### Cap: preservation of the master invariant -/

theorem alook_foldl_aset (ws : List (Hash × Blob)) :
    ∀ (m : List (Hash × Blob)) (x : Nat), (∀ kv ∈ ws, kv.1 ≠ x) →
      alook (ws.foldl (fun m kv => aset m kv.1 kv.2) m) x = alook m x := by
  induction ws with
  | nil => intro m x _; rfl
  | cons kv rest ih =>
    intro m x hx
    rw [List.foldl_cons]
    rw [ih _ x (fun q hq => hx q (List.mem_cons_of_mem kv hq))]
    exact alook_aset_ne _ _ _ _ (hx kv (List.mem_cons_self kv rest))

/-- All node keys buffered in a batch avoid the zero hash. -/
def NodeKeysNZ (b : Batch) : Prop := ∀ kv ∈ b.nodeWrites, kv.1 ≠ 0

theorem nodeKeysNZ_empty : NodeKeysNZ Batch.empty := by
  intro kv hkv
  simp [Batch.empty] at hkv

theorem nodeKeysNZ_putPreimages (ps : List (Hash × Blob)) :
    NodeKeysNZ (Batch.empty.putPreimages ps) := by
  intro kv hkv
  simp [Batch.empty, Batch.putPreimages] at hkv

theorem nodeKeysNZ_put (b : Batch) (h : Hash) (blob : Blob) (hb : NodeKeysNZ b)
    (hh : h ≠ 0) : NodeKeysNZ (b.putNode h blob) := by
  intro kv hkv
  rcases List.mem_append.mp hkv with h1 | h2
  · exact hb kv h1
  · rcases List.mem_singleton.mp h2 with rfl
    exact hh

theorem batchWriteTo_disk0 (db : DB) (b : Batch) (hd : alook db.diskNodes 0 = none)
    (hb : NodeKeysNZ b) : alook (batchWriteTo db b).diskNodes 0 = none := by
  show alook (b.nodeWrites.foldl (fun m kv => aset m kv.1 kv.2) db.diskNodes) 0 = none
  rw [alook_foldl_aset b.nodeWrites db.diskNodes 0 hb]
  exact hd

/-- The write loop writes only non-zero node keys, so the zero hash stays off
disk, and the batch it hands back also only holds non-zero keys. -/
theorem capWriteLoop_disk0 (diskOk : Nat → Bool) :
    ∀ (fuel : Nat) (db : DB) (wc : Nat) (batch : Batch) (size limit : Int) (o : Hash),
      alook db.diskNodes 0 = none → NodeKeysNZ batch →
      alook (capResState
          (capWriteLoop diskOk fuel db wc batch size limit o)).diskNodes 0 = none ∧
        ∀ d b w t, capWriteLoop diskOk fuel db wc batch size limit o = .ok (d, b, w, t) →
          NodeKeysNZ b := by
  intro fuel
  induction fuel with
  | zero =>
    intro db wc batch size limit o hd hb
    refine ⟨hd, ?_⟩
    intro d b w t hres
    rw [capWriteLoop] at hres
    simp only [Except.ok.injEq, Prod.mk.injEq] at hres
    exact hres.2.1 ▸ hb
  | succ f ih =>
    intro db wc batch size limit o hd hb
    rw [capWriteLoop]
    split
    · rename_i hcond
      cases hl : alook db.dirties o with
      | none =>
        refine ⟨hd, ?_⟩
        intro d b w t hres
        simp only [Except.ok.injEq, Prod.mk.injEq] at hres
        exact hres.2.1 ▸ hb
      | some node =>
        dsimp only
        have hb1 : NodeKeysNZ (batch.putNode o node.blob) :=
          nodeKeysNZ_put batch o node.blob hb hcond.2
        split
        · split
          · exact ih (batchWriteTo db (batch.putNode o node.blob)) (wc + 1)
              Batch.empty _ limit node.flushNext
              (batchWriteTo_disk0 db _ hd hb1) nodeKeysNZ_empty
          · refine ⟨hd, ?_⟩
            intro d b w t hres
            exact absurd hres (by simp)
        · exact ih db wc (batch.putNode o node.blob) _ limit node.flushNext hd hb1
    · refine ⟨hd, ?_⟩
      intro d b w t hres
      simp only [Except.ok.injEq, Prod.mk.injEq] at hres
      exact hres.2.1 ▸ hb

/-- The master state invariant: some list witnesses flush-list
well-formedness, stored child references strictly decrease the content rank
and avoid the zero hash, the zero hash is never marked fresh, and no node
entry for the zero hash reaches disk. -/
def Inv (rk : Hash → Nat) (db : DB) : Prop :=
  (∃ L, WFP db L []) ∧ RankDecM rk db.dirties ∧ NoZeroChildM db.dirties ∧
    0 ∉ db.freshNodes ∧ alook db.diskNodes 0 = none

theorem inv_of_memSame (rk : Hash → Nat) (a b : DB) (hms : MemSame a b)
    (hd : alook b.diskNodes 0 = none) (hi : Inv rk a) : Inv rk b := by
  obtain ⟨⟨L, hw⟩, hr, hz, hf, _⟩ := hi
  obtain ⟨h1, h2, h3, h4, h5, h6, h7, h8, h9, h10, h11⟩ := hms
  refine ⟨⟨L, wfp_congr a b L [] h1.symm h2.symm h3.symm hw⟩, ?_, ?_, ?_, hd⟩
  · rw [← h1]; exact hr
  · rw [← h1]; exact hz
  · rw [← h5]; exact hf

/-- The tail end of `Cap` after the eviction target is known: evict a prefix,
then refresh the head's stale back link. -/
theorem cap_finish_inv (rk : Hash → Nat) (db4 : DB) (L : List Hash) (j : Nat)
    (fuel : Nat) (hw4 : WFP db4 L []) (hr4 : RankDecM rk db4.dirties)
    (hz4 : NoZeroChildM db4.dirties) (hf4 : 0 ∉ db4.freshNodes)
    (hd4 : alook db4.diskNodes 0 = none) :
    Inv rk (let db5 := capEvictLoop fuel db4 ((L.drop j).headD 0);
            if db5.oldest ≠ 0 then setPrev db5 db5.oldest 0 else db5) := by
  obtain ⟨j2, hw5, hr5, hz5⟩ := capEvictLoop_wf rk fuel db4 L j hw4 hr4 hz4
  obtain ⟨hfr, hdk, _, _⟩ := capEvictLoop_misc fuel db4 ((L.drop j).headD 0)
  dsimp only
  by_cases h50 : (capEvictLoop fuel db4 ((L.drop j).headD 0)).oldest ≠ 0
  · rw [if_pos h50]
    cases hld : L.drop j2 with
    | nil =>
      exfalso
      apply h50
      have := hw5.old
      rw [hld] at this
      simpa using this
    | cons a t =>
      rw [hld] at hw5
      have hoa : (capEvictLoop fuel db4 ((L.drop j).headD 0)).oldest = a := by
        simpa using hw5.old
      refine ⟨⟨a :: t, ?_⟩, ?_, ?_, ?_, ?_⟩
      · rw [hoa]
        exact wfp_setPrev_head _ a 0 t hw5
      · exact rankdec_aupd rk _ _ _ (childrenOf_fPrev 0) hr5
      · exact nozero_aupd _ _ _ (childrenOf_fPrev 0) hz5
      · show 0 ∉ (capEvictLoop fuel db4 ((L.drop j).headD 0)).freshNodes
        rw [hfr]
        exact hf4
      · show alook (capEvictLoop fuel db4 ((L.drop j).headD 0)).diskNodes 0 = none
        rw [hdk]
        exact hd4
  · rw [if_neg h50]
    refine ⟨⟨L.drop j2, hw5⟩, hr5, hz5, ?_, ?_⟩
    · rw [hfr]; exact hf4
    · rw [hdk]; exact hd4

/-- The whole post-preimage part of `Cap` preserves the invariant, for any
pre-phase outcome `db1` that agrees with `db` in memory. -/
theorem cap_tail_inv (rk : Hash → Nat) (db db1 : DB) (limit : Int)
    (diskOk : Nat → Bool) (fuel : Nat) (wc : Nat) (batch : Batch)
    (p : Prop) [Decidable p]
    (hi : Inv rk db) (hms : MemSame db db1) (hd1 : alook db1.diskNodes 0 = none)
    (hnk : NodeKeysNZ batch) :
    Inv rk (match capWriteLoop diskOk fuel db1 wc batch (capSizeEstimate db) limit
        db1.oldest with
      | .error db' => (false, db')
      | .ok (db2, batch2, wc2, target) =>
        if diskOk wc2 then
          let db3 := batchWriteTo db2 batch2
          let db4 := if p ∧ db3.preimages.isSome then
              { db3 with preimages := some [], preimagesSize := 0 }
            else db3
          let db5 := capEvictLoop fuel db4 target
          let db6 := if db5.oldest ≠ 0 then setPrev db5 db5.oldest 0 else db5
          (true, db6)
        else (false, db2)).2 := by
  obtain ⟨L, hw⟩ := hi.1
  have hw1 : WFP db1 L [] :=
    wfp_congr db db1 L [] hms.1.symm hms.2.1.symm hms.2.2.1.symm hw
  have hloop := capWriteLoop_memSame diskOk fuel db1 wc batch
    (capSizeEstimate db) limit db1.oldest
  have hdisk := capWriteLoop_disk0 diskOk fuel db1 wc batch
    (capSizeEstimate db) limit db1.oldest hd1 hnk
  have htgt0 : db1.oldest = ((L.drop 0).headD 0) := hw1.old
  revert hloop hdisk
  cases hres : capWriteLoop diskOk fuel db1 wc batch (capSizeEstimate db) limit
      db1.oldest with
  | error e =>
    intro hloop hdisk
    exact inv_of_memSame rk db e (memSame_trans db db1 e hms hloop) hdisk.1 hi
  | ok r =>
    obtain ⟨db2, batch2, wc2, target⟩ := r
    intro hloop hdisk
    dsimp only
    by_cases hdo : diskOk wc2 = true
    · rw [if_pos hdo]
      have hms2 : MemSame db db2 := memSame_trans db db1 db2 hms hloop
      obtain ⟨m1, m2, m3, m4, m5, m6, m7, m8, m9, m10, m11⟩ := hms2
      have hd2 : alook db2.diskNodes 0 = none := hdisk.1
      have hnk2 : NodeKeysNZ batch2 := hdisk.2 db2 batch2 wc2 target rfl
      have hw2 : WFP db2 L [] := wfp_congr db db2 L [] m1.symm m2.symm m3.symm hw
      have hr2 : RankDecM rk db2.dirties := by rw [← m1]; exact hi.2.1
      have hz2 : NoZeroChildM db2.dirties := by rw [← m1]; exact hi.2.2.1
      have hf2 : 0 ∉ db2.freshNodes := by rw [← m5]; exact hi.2.2.2.1
      obtain ⟨j, htj⟩ := capWriteLoop_target diskOk L fuel db1 wc batch
        (capSizeEstimate db) limit db1.oldest 0 db2 batch2 wc2 target
        hw1.fwd htgt0 hres
      have hd3 : alook (batchWriteTo db2 batch2).diskNodes 0 = none :=
        batchWriteTo_disk0 db2 batch2 hd2 hnk2
      rw [htj]
      dsimp only
      by_cases hp : p ∧ (batchWriteTo db2 batch2).preimages.isSome = true
      · rw [if_pos hp]
        exact cap_finish_inv rk
          { batchWriteTo db2 batch2 with preimages := some [], preimagesSize := 0 }
          L j fuel (wfp_congr db2 _ L [] rfl rfl rfl hw2) hr2 hz2 hf2 hd3
      · rw [if_neg hp]
        exact cap_finish_inv rk (batchWriteTo db2 batch2)
          L j fuel (wfp_congr db2 _ L [] rfl rfl rfl hw2) hr2 hz2 hf2 hd3
    · rw [if_neg hdo]
      exact inv_of_memSame rk db db2
        (memSame_trans db db1 db2 hms hloop) hdisk.1 hi

/-- `Cap` preserves the master invariant whatever the outcome. -/
theorem cap_inv (rk : Hash → Nat) (db : DB) (limit : Int) (diskOk : Nat → Bool)
    (fuel : Nat) (hi : Inv rk db) : Inv rk (db.Cap limit diskOk fuel).2 := by
  rw [DB.Cap]
  dsimp only
  cases hpi : db.preimages with
  | none =>
    exact cap_tail_inv rk db db limit diskOk fuel 0 Batch.empty _ hi
      (memSame_refl db) hi.2.2.2.2 nodeKeysNZ_empty
  | some ps =>
    dsimp only
    by_cases hfp : db.preimagesSize > 4 * 1024 * 1024
    · rw [if_pos hfp]
      by_cases hbs : (Batch.empty.putPreimages ps).vsize > idealBatchSize
      · rw [if_pos hbs]
        by_cases hd0 : diskOk 0 = true
        · rw [if_pos hd0]
          exact cap_tail_inv rk db (batchWriteTo db (Batch.empty.putPreimages ps))
            limit diskOk fuel 1 Batch.empty _ hi (memSame_batchWriteTo db _)
            (batchWriteTo_disk0 db _ hi.2.2.2.2 (nodeKeysNZ_putPreimages ps))
            nodeKeysNZ_empty
        · rw [if_neg hd0]
          exact hi
      · rw [if_neg hbs]
        exact cap_tail_inv rk db db limit diskOk fuel 0
          (Batch.empty.putPreimages ps) _ hi (memSame_refl db) hi.2.2.2.2
          (nodeKeysNZ_putPreimages ps)
    · rw [if_neg hfp]
      exact cap_tail_inv rk db db limit diskOk fuel 0 Batch.empty _ hi
        (memSame_refl db) hi.2.2.2.2 nodeKeysNZ_empty

/-! ### Invariant preservation by the public mutators -/

theorem wfp_new (withCleans withPreimages : Bool) :
    WFP (NewDatabase withCleans withPreimages) [] [] := by
  refine ⟨List.nodup_nil, by simp, ?_, ?_, ?_, rfl, ?_, trivial, trivial⟩
  · intro h hh
    simp at hh
  · intro k hk
    simp only [NewDatabase, List.map_cons, List.map_nil, List.mem_singleton] at hk
    exact Or.inl hk
  · rfl
  · intro x hx
    simp at hx

theorem inv_new (rk : Hash → Nat) (withCleans withPreimages : Bool) :
    Inv rk (NewDatabase withCleans withPreimages) := by
  refine ⟨⟨[], wfp_new withCleans withPreimages⟩, ?_, ?_, ?_, rfl⟩
  · intro h n hz hl
    simp only [NewDatabase] at hl
    rw [show alook [(0, metaRootNode)] h = if 0 = h then some metaRootNode else none
        from rfl] at hl
    rw [if_neg (fun h0 => hz h0.symm)] at hl
    exact absurd hl (by simp)
  · intro h n hl
    simp only [NewDatabase] at hl
    by_cases h0 : h = 0
    · subst h0
      obtain rfl : metaRootNode = n := Option.some_inj.mp hl
      simp [metaRootNode, CachedNode.childrenOf, CachedNode.childKeys]
    · rw [show alook [(0, metaRootNode)] h = if 0 = h then some metaRootNode else none
          from rfl, if_neg (fun hx => h0 hx.symm)] at hl
      exact absurd hl (by simp)
  · simp [NewDatabase]

/-- The inserted entry's child references are exactly the supplied internal
children (for decoded content) and empty for raw blobs. -/
theorem insert_entry_children (r : Bool) (c : List Hash) (b : Blob) (sz : Nat)
    (fp nv : Hash) :
    ({ isRaw := r, intChildren := c, blob := b, size := sz % 65536, parents := 0,
       children := none, flushPrev := fp, flushNext := 0,
       version := nv } : CachedNode).childrenOf = if r then [] else c := by
  simp [CachedNode.childrenOf, CachedNode.childKeys]

theorem insert_inv (rk : Hash → Nat) (db : DB) (hash : Hash) (sz : Nat)
    (r : Bool) (c : List Hash) (b : Blob) (hi : Inv rk db) (hc0 : 0 ∉ c)
    (hrk : ∀ x ∈ c, rk x < rk hash) : Inv rk (db.insert hash sz r c b) := by
  obtain ⟨⟨L, hw⟩, hr, hz, hf, hd⟩ := hi
  cases hl : alook db.dirties hash with
  | some n =>
    have heq : db.insert hash sz r c b = db := by
      simp [DB.insert, hl]
    rw [heq]
    exact ⟨⟨L, hw⟩, hr, hz, hf, hd⟩
  | none =>
    refine ⟨⟨L ++ [hash], insert_wfp_new db L hash sz r c b hw hl⟩, ?_, ?_, ?_, ?_⟩
    case refine_3 =>
      show 0 ∉ (db.insert hash sz r c b).freshNodes
      rw [DB.insert, hl]
      dsimp only
      split <;> exact hf
    case refine_4 =>
      show alook (db.insert hash sz r c b).diskNodes 0 = none
      rw [DB.insert, hl]
      dsimp only
      split <;> exact hd
    · show RankDecM rk (db.insert hash sz r c b).dirties
      rw [DB.insert, hl]
      dsimp only
      have hbase : RankDecM rk (aset db.dirties hash
          { isRaw := r, intChildren := c, blob := b, size := sz % 65536,
            parents := 0, children := none, flushPrev := db.newest,
            flushNext := 0, version := db.nodeVersion }) := by
        refine rankdec_aset rk _ _ _ hr ?_
        intro _ x hx
        rw [insert_entry_children] at hx
        cases r with
        | true => simp at hx
        | false => exact hrk x hx
      split
      · exact hbase
      · exact rankdec_aupd rk _ _ _ (childrenOf_fNext hash) hbase
    · show NoZeroChildM (db.insert hash sz r c b).dirties
      rw [DB.insert, hl]
      dsimp only
      have hbase : NoZeroChildM (aset db.dirties hash
          { isRaw := r, intChildren := c, blob := b, size := sz % 65536,
            parents := 0, children := none, flushPrev := db.newest,
            flushNext := 0, version := db.nodeVersion }) := by
        refine nozero_aset _ _ _ hz ?_
        rw [insert_entry_children]
        cases r with
        | true => simp
        | false => exact hc0
      split
      · exact hbase
      · exact nozero_aupd _ _ _ (childrenOf_fNext hash) hbase

/-- Membership in the children of a node after `addChildEdge`: either an old
child reference or the freshly added child. -/
theorem mem_childrenOf_addChildEdge (child : Hash) (cnt : Nat) (n : CachedNode)
    (x : Hash) (hx : x ∈ (addChildEdge child cnt n).childrenOf) :
    x ∈ n.childrenOf ∨ x = child := by
  rcases List.mem_append.mp hx with hx1 | hx2
  · rw [addChildEdge, CachedNode.childKeys] at hx1
    dsimp only at hx1
    rcases mem_map_fst_aset _ _ _ _ hx1 with hx3 | rfl
    · left
      refine List.mem_append_left _ ?_
      rw [CachedNode.childKeys]
      cases hnc : n.children with
      | none => rw [hnc] at hx3; simp at hx3
      | some cs => rw [hnc] at hx3; exact hx3
    · right; rfl
  · left
    exact List.mem_append_right _ hx2

theorem referenceCount_inv (rk : Hash → Nat) (db : DB) (child parent : Hash)
    (hi1 : ∃ L, WFP db L []) (hr : RankDecM rk db.dirties)
    (hz : NoZeroChildM db.dirties) (hc : child ≠ 0)
    (hp : parent = 0 ∨ rk child < rk parent) (hf : 0 ∉ db.freshNodes)
    (hd : alook db.diskNodes 0 = none) : Inv rk (db.referenceCount child parent) := by
  obtain ⟨L, hw⟩ := hi1
  rw [DB.referenceCount]
  dsimp only
  have hrA : RankDecM rk (aupd db.dirties child bumpParents) :=
    rankdec_aupd rk _ child bumpParents (fun n => rfl) hr
  have hzA : NoZeroChildM (aupd db.dirties child bumpParents) :=
    nozero_aupd _ child bumpParents (fun n => rfl) hz
  have hr2 : RankDecM rk (aupd (aupd db.dirties child bumpParents) parent
      (addChildEdge child
        (mapCount (entryChildren { db with dirties := aupd db.dirties child bumpParents }
          parent) child + 1))) := by
    refine rankdec_aupd2 rk _ parent _ hrA ?_
    intro n hn hpz x hx
    rcases mem_childrenOf_addChildEdge _ _ _ _ hx with hx1 | rfl
    · exact hrA parent n hpz hn x hx1
    · rcases hp with rfl | hlt
      · exact absurd rfl hpz
      · exact hlt
  have hz2 : NoZeroChildM (aupd (aupd db.dirties child bumpParents) parent
      (addChildEdge child
        (mapCount (entryChildren { db with dirties := aupd db.dirties child bumpParents }
          parent) child + 1))) := by
    refine nozero_aupd2 _ parent _ hzA ?_
    intro n hn hx
    rcases mem_childrenOf_addChildEdge _ _ _ _ hx with hx1 | hx2
    · exact hzA parent n hn hx1
    · exact hc hx2.symm
  have hwA : WFP { db with dirties := aupd db.dirties child bumpParents } L [] :=
    wfp_aupd db { db with dirties := aupd db.dirties child bumpParents } L []
      child bumpParents (fun n => rfl) (fun n => rfl) rfl rfl rfl hw
  have hw2 : WFP { db with
      dirties := aupd (aupd db.dirties child bumpParents) parent
        (addChildEdge child
          (mapCount (entryChildren { db with dirties := aupd db.dirties child bumpParents }
            parent) child + 1)) } L [] :=
    wfp_aupd { db with dirties := aupd db.dirties child bumpParents } _ L [] parent
      (addChildEdge child
        (mapCount (entryChildren { db with dirties := aupd db.dirties child bumpParents }
          parent) child + 1))
      (fun n => rfl) (fun n => rfl) rfl rfl rfl hwA
  split
  · exact ⟨⟨L, wfp_aupd { db with dirties := aupd db.dirties child bumpParents } _ L []
      parent
      (addChildEdge child
        (mapCount (entryChildren { db with dirties := aupd db.dirties child bumpParents }
          parent) child + 1))
      (fun n => rfl) (fun n => rfl) rfl rfl rfl hwA⟩, hr2, hz2, hf, hd⟩
  · exact ⟨⟨L, hw2⟩, hr2, hz2, hf, hd⟩

theorem reference_inv (rk : Hash → Nat) (db : DB) (child parent : Hash)
    (hi : Inv rk db) (hc : child ≠ 0) (hp : parent = 0 ∨ rk child < rk parent) :
    Inv rk (db.reference child parent) := by
  obtain ⟨⟨L, hw⟩, hr, hz, hf, hd⟩ := hi
  rw [DB.reference]
  cases hcl : alook db.dirties child with
  | none => exact ⟨⟨L, hw⟩, hr, hz, hf, hd⟩
  | some cn =>
    cases hpl : alook db.dirties parent with
    | none => exact ⟨⟨L, hw⟩, hr, hz, hf, hd⟩
    | some pnode =>
      obtain ⟨ir, ic, bl, szn, pr, ch, fp, fn, vn⟩ := pnode
      dsimp only
      cases ch with
      | none =>
        dsimp only
        refine referenceCount_inv rk _ child parent ⟨L, ?_⟩ ?_ ?_ hc hp hf hd
        · exact wfp_aupd db _ L [] parent
            (fun n => { n with children := some [] })
            (fun n => rfl) (fun n => rfl) rfl rfl rfl hw
        · refine rankdec_aupd2 rk _ parent _ hr ?_
          intro n hn hpz x hx
          obtain rfl := Option.some_inj.mp (hpl.symm.trans hn)
          have hco : x ∈ ({
              isRaw := ir, intChildren := ic, blob := bl, size := szn,
              parents := pr, children := none, flushPrev := fp, flushNext := fn,
              version := vn } : CachedNode).childrenOf := by
            simpa [CachedNode.childrenOf, CachedNode.childKeys] using hx
          exact hr parent _ hpz hn x hco
        · refine nozero_aupd2 _ parent _ hz ?_
          intro n hn hx
          obtain rfl := Option.some_inj.mp (hpl.symm.trans hn)
          have hco : (0 : Hash) ∈ ({
              isRaw := ir, intChildren := ic, blob := bl, size := szn,
              parents := pr, children := none, flushPrev := fp, flushNext := fn,
              version := vn } : CachedNode).childrenOf := by
            simpa [CachedNode.childrenOf, CachedNode.childKeys] using hx
          exact hz parent _ hn hco
      | some cs =>
        dsimp only
        by_cases hdup : (alook cs child).isSome = true ∧ parent ≠ 0
        · rw [if_pos hdup]
          exact ⟨⟨L, hw⟩, hr, hz, hf, hd⟩
        · rw [if_neg hdup]
          exact referenceCount_inv rk db child parent ⟨L, hw⟩ hr hz hc hp hf hd

/-- The per-hash step of `referenceVersion`, named for reasoning. -/
def refVerStep (f : Nat) (db1 : DB) (h : Hash) : DB :=
  match alook db1.dirties h with
  | none => db1
  | some node =>
    let db2 := refVerMany f db1 node.childrenOf
    { db2 with
      dirties := aupd db2.dirties h (fun n => { n with version := db2.nodeVersion }) }

theorem refVerMany_succ (f : Nat) (db : DB) (hs : List Hash) :
    refVerMany (f + 1) db hs = hs.foldl (refVerStep f) db := rfl

/-- `referenceVersion` only rewrites version stamps: the flush-list shape,
the child-reference invariants and everything else survive. -/
theorem refVerMany_pres (rk : Hash → Nat) :
    ∀ (fuel : Nat) (db : DB) (hs : List Hash),
      ((∃ L, WFP db L []) ∧ RankDecM rk db.dirties ∧ NoZeroChildM db.dirties) →
      (((∃ L, WFP (refVerMany fuel db hs) L []) ∧
        RankDecM rk (refVerMany fuel db hs).dirties ∧
        NoZeroChildM (refVerMany fuel db hs).dirties) ∧
        (refVerMany fuel db hs).freshNodes = db.freshNodes ∧
        (refVerMany fuel db hs).diskNodes = db.diskNodes) := by
  intro fuel
  induction fuel with
  | zero => intro db hs h; exact ⟨h, rfl, rfl⟩
  | succ f ih =>
    intro db hs h
    rw [refVerMany_succ]
    suffices H : ∀ (hs0 : List Hash) (d : DB),
        ((∃ L, WFP d L []) ∧ RankDecM rk d.dirties ∧ NoZeroChildM d.dirties) →
        (((∃ L, WFP (hs0.foldl (refVerStep f) d) L []) ∧
          RankDecM rk (hs0.foldl (refVerStep f) d).dirties ∧
          NoZeroChildM (hs0.foldl (refVerStep f) d).dirties) ∧
          (hs0.foldl (refVerStep f) d).freshNodes = d.freshNodes ∧
          (hs0.foldl (refVerStep f) d).diskNodes = d.diskNodes) from H hs db h
    intro hs0
    induction hs0 with
    | nil => intro d h0; exact ⟨h0, rfl, rfl⟩
    | cons x rest ihs =>
      intro d h0
      rw [List.foldl_cons]
      have hstep : (((∃ L, WFP (refVerStep f d x) L []) ∧
          RankDecM rk (refVerStep f d x).dirties ∧
          NoZeroChildM (refVerStep f d x).dirties) ∧
          (refVerStep f d x).freshNodes = d.freshNodes ∧
          (refVerStep f d x).diskNodes = d.diskNodes) := by
        rw [refVerStep]
        cases hl : alook d.dirties x with
        | none => exact ⟨h0, rfl, rfl⟩
        | some node =>
          dsimp only
          obtain ⟨⟨⟨L2, hw2⟩, hr2, hz2⟩, hfr2, hdk2⟩ := ih d node.childrenOf h0
          refine ⟨⟨⟨L2, ?_⟩, ?_, ?_⟩, hfr2, hdk2⟩
          · exact wfp_aupd (refVerMany f d node.childrenOf) _ L2 [] x
              (fun n => { n with version := (refVerMany f d node.childrenOf).nodeVersion })
              (fun n => rfl) (fun n => rfl) rfl rfl rfl hw2
          · exact rankdec_aupd rk _ x _ (fun n => rfl) hr2
          · exact nozero_aupd _ x _ (fun n => rfl) hz2
      obtain ⟨h1, hfr1, hdk1⟩ := hstep
      obtain ⟨h2, hfr3, hdk3⟩ := ihs (refVerStep f d x) h1
      exact ⟨h2, hfr3.trans hfr1, hdk3.trans hdk1⟩

theorem referenceVersion_inv (rk : Hash → Nat) (db : DB) (root : Hash)
    (fuel : Nat) (hi : Inv rk db) : Inv rk (db.ReferenceVersion root fuel) := by
  obtain ⟨hL, hr, hz, hf, hd⟩ := hi
  obtain ⟨⟨hL2, hr2, hz2⟩, hfr, hdk⟩ := refVerMany_pres rk fuel db [root] ⟨hL, hr, hz⟩
  exact ⟨hL2, hr2, hz2, by rw [show (db.ReferenceVersion root fuel).freshNodes
    = (refVerMany fuel db [root]).freshNodes from rfl, hfr]; exact hf,
    by rw [show (db.ReferenceVersion root fuel).diskNodes
      = (refVerMany fuel db [root]).diskNodes from rfl, hdk]; exact hd⟩

theorem dereference_inv (rk : Hash → Nat) (db : DB) (root : Hash) (fuel : Nat)
    (hi : Inv rk db) : Inv rk (db.Dereference root fuel) := by
  obtain ⟨⟨L, hw⟩, hr, hz, hf, hd⟩ := hi
  rw [DB.Dereference]
  by_cases hr0 : root = 0
  · rw [if_pos hr0]
    exact ⟨⟨L, hw⟩, hr, hz, hf, hd⟩
  · rw [if_neg hr0]
    obtain ⟨L2, hw2, _, hr2, hz2⟩ := derefMany_ok rk fuel db [root] L [] (rk root + 1)
      hw hr hz (fun h hh => by
        rcases List.mem_singleton.mp hh with rfl
        exact ⟨hr0, Nat.lt_succ_self _⟩)
      (fun p hp => by simp at hp)
    obtain ⟨hfr, _, _, _, _, hdk, _⟩ := derefMany_sameMisc fuel db [root]
    exact ⟨⟨L2, hw2⟩, hr2, hz2, by rw [show (derefOne fuel db root).1.freshNodes
      = (derefMany fuel db [root]).1.freshNodes from rfl, hfr]; exact hf,
      by rw [show (derefOne fuel db root).1.diskNodes
        = (derefMany fuel db [root]).1.diskNodes from rfl, hdk]; exact hd⟩

theorem dereferenceDB_inv (rk : Hash → Nat) (db : DB) (root : Hash) (fuel : Nat)
    (hi : Inv rk db) : Inv rk (db.DereferenceDB root fuel) := by
  obtain ⟨⟨L, hw⟩, hr, hz, hf, hd⟩ := hi
  rw [DB.DereferenceDB]
  by_cases hr0 : root = 0
  · rw [if_pos hr0]
    exact ⟨⟨L, hw⟩, hr, hz, hf, hd⟩
  · rw [if_neg hr0]
    dsimp only
    obtain ⟨L2, hw2, _, hr2, hz2⟩ := derefMany_ok rk fuel db [root] L [] (rk root + 1)
      hw hr hz (fun h hh => by
        rcases List.mem_singleton.mp hh with rfl
        exact ⟨hr0, Nat.lt_succ_self _⟩)
      (fun p hp => by simp at hp)
    obtain ⟨hfr, _, _, _, _, hdk, _⟩ := derefMany_sameMisc fuel db [root]
    refine ⟨⟨L2, wfp_congr (derefMany fuel db [root]).1 _ L2 [] rfl rfl rfl hw2⟩,
      hr2, hz2, ?_, ?_⟩
    · show 0 ∉ (derefMany fuel db [root]).1.freshNodes
      rw [hfr]
      exact hf
    · show alook (derefMany fuel db [root]).1.diskNodes 0 = none
      rw [hdk]
      exact hd

theorem alook_adel_none {α : Type} (m : List (Nat × α)) (k x : Nat)
    (hm : alook m x = none) : alook (adel m k) x = none := by
  rw [alook_adel]
  by_cases hk : k = x
  · rw [if_pos hk]
  · rw [if_neg hk]
    exact hm

theorem foldl_pres_none {β : Type} (step : List (Hash × Blob) → β → List (Hash × Blob))
    (hstep : ∀ d k, alook d 0 = none → alook (step d k) 0 = none) :
    ∀ (l : List β) (d : List (Hash × Blob)), alook d 0 = none →
      alook (l.foldl step d) 0 = none := by
  intro l
  induction l with
  | nil => intro d hd; exact hd
  | cons x rest ih =>
    intro d hd
    rw [List.foldl_cons]
    exact ih _ (hstep d x hd)

theorem uselessGC_inv (rk : Hash → Nat) (db : DB) (num : Nat) (hi : Inv rk db) :
    Inv rk (db.UselessGC num) := by
  obtain ⟨⟨L, hw⟩, hr, hz, hf, hd⟩ := hi
  refine ⟨⟨L, wfp_congr db _ L [] rfl rfl rfl hw⟩, hr, hz, hf, ?_⟩
  show alook ((db.useless.take (min num db.useless.length)).foldl
    (fun d m => m.foldl
      (fun d' k => if (alook db.dirties k).isSome then d' else adel d' k) d)
    db.diskNodes) 0 = none
  refine foldl_pres_none _ ?_ _ _ hd
  intro d m hdm
  refine foldl_pres_none _ ?_ m d hdm
  intro d' k hd'
  by_cases hk : (alook db.dirties k).isSome = true
  · rw [if_pos hk]
    exact hd'
  · rw [if_neg hk]
    exact alook_adel_none _ _ _ hd'

theorem incrVersion_inv (rk : Hash → Nat) (db : DB) (hi : Inv rk db) :
    Inv rk db.IncrVersion := by
  obtain ⟨⟨L, hw⟩, hr, hz, hf, hd⟩ := hi
  exact ⟨⟨L, wfp_congr db _ L [] rfl rfl rfl hw⟩, hr, hz, hf, hd⟩

theorem insertFreshNode_inv (rk : Hash → Nat) (db : DB) (h : Hash) (hh : h ≠ 0)
    (hi : Inv rk db) : Inv rk (db.insertFreshNode h) := by
  obtain ⟨⟨L, hw⟩, hr, hz, hf, hd⟩ := hi
  refine ⟨⟨L, wfp_congr db _ L [] rfl rfl rfl hw⟩, hr, hz, ?_, hd⟩
  intro hx
  rcases List.mem_cons.mp hx with h0 | h1
  · exact hh h0.symm
  · exact hf h1

/-! ### Commit: preservation of the master invariant -/

/-- `spliceOut` touches only the store's link fields and the cursors. -/
theorem spliceOut_sameMisc (db : DB) (h : Hash) (node : CachedNode) :
    SameMisc (spliceOut db h node) db := by
  rw [spliceOut]
  split
  · exact sameMisc_refl _
  · split
    · exact sameMisc_refl _
    · exact sameMisc_refl _

theorem cleanerPut_inv (rk : Hash → Nat) (uncache : Bool) (db : DB) (key : Hash)
    (blob : Blob) (hk : key ≠ 0) (hi : Inv rk db) :
    Inv rk (cleanerPut uncache db key blob) := by
  obtain ⟨⟨L, hw⟩, hr, hz, hf, hd⟩ := hi
  rw [cleanerPut]
  cases uncache with
  | false =>
    rw [if_neg Bool.false_ne_true]
    exact ⟨⟨L, wfp_congr db _ L [] rfl rfl rfl hw⟩, hr, hz, hf, hd⟩
  | true =>
    rw [if_pos rfl]
    cases hl : alook db.dirties key with
    | none => exact ⟨⟨L, hw⟩, hr, hz, hf, hd⟩
    | some node =>
      dsimp only
      have hmem : key ∈ L := by
        rcases hw.keys key (alook_mem_map_fst _ _ _ hl) with h0 | hL | hP
        · exact absurd h0 hk
        · exact hL
        · simp at hP
      have hw1 := spliceOut_wfp db L [] key node hw hmem hl
      have hw2 : WFP { spliceOut db key node with
          dirties := adel (spliceOut db key node).dirties key,
          dirtiesSize := (spliceOut db key node).dirtiesSize -
            ((hashLength : Int) + node.size) -
            (match node.children with
             | some cs =>
               ((cachedNodeChildrenSize + cs.length * (hashLength + 2) : Nat) : Int)
             | none => 0) } (L.erase key) [] :=
        wfp_of_adel (spliceOut db key node) _ (L.erase key) [] key hw1
          hw.nodup.not_mem_erase hk rfl rfl rfl
      have hsm := spliceOut_sameMisc db key node
      refine ⟨⟨L.erase key, wfp_congr _ _ (L.erase key) [] ?_ ?_ ?_ hw2⟩,
        ?_, ?_, ?_, ?_⟩
      · rfl
      · rfl
      · rfl
      · exact rankdec_adel rk _ _ (rankdec_spliceOut rk db key node hr)
      · exact nozero_adel _ _ (nozero_spliceOut db key node hz)
      · show 0 ∉ (spliceOut db key node).freshNodes
        rw [hsm.1]
        exact hf
      · show alook (spliceOut db key node).diskNodes 0 = none
        rw [hsm.2.2.2.2.2.1]
        exact hd

theorem foldl_cleanerPut_inv (rk : Hash → Nat) (uncache : Bool) :
    ∀ (ws : List (Hash × Blob)) (db : DB), (∀ kv ∈ ws, kv.1 ≠ 0) → Inv rk db →
      Inv rk (ws.foldl (fun d kv => cleanerPut uncache d kv.1 kv.2) db) := by
  intro ws
  induction ws with
  | nil => intro db _ hi; exact hi
  | cons kv rest ih =>
    intro db hks hi
    rw [List.foldl_cons]
    exact ih _ (fun q hq => hks q (List.mem_cons_of_mem kv hq))
      (cleanerPut_inv rk uncache db kv.1 kv.2 (hks kv (List.mem_cons_self kv rest)) hi)

/-- The batch discipline `Commit` maintains: only non-zero node keys, no
preimage writes in the commit batch. -/
def BatchOK (b : Batch) : Prop := NodeKeysNZ b ∧ b.preWrites = []

theorem replayBatch_inv (rk : Hash → Nat) (uncache : Bool) (db : DB) (b : Batch)
    (hb : BatchOK b) (hi : Inv rk db) : Inv rk (replayBatch uncache db b) := by
  rw [replayBatch, hb.2]
  exact foldl_cleanerPut_inv rk uncache b.nodeWrites db hb.1 hi

/-- The per-hash step of the recursive `commit`, named for reasoning. -/
def commitStep (diskOk : Nat → Bool) (uncache : Bool) (f : Nat)
    (acc : Except DB (DB × Batch × Nat)) (h : Hash) : Except DB (DB × Batch × Nat) :=
  match acc with
  | .error e => .error e
  | .ok (db1, batch1, wc1) =>
    if h ∈ db1.freshNodes then
      match alook db1.dirties h with
      | none => .ok (db1, batch1, wc1)
      | some node =>
        match commitMany diskOk uncache f db1 wc1 batch1 node.childrenOf with
        | .error e => .error e
        | .ok (db2, batch2, wc2) =>
          let batch3 := batch2.putNode h node.blob
          if batch3.vsize ≥ idealBatchSize then
            if diskOk wc2 then
              let db3 := batchWriteTo db2 batch3
              .ok (replayBatch uncache db3 batch3, Batch.empty, wc2 + 1)
            else .error db2
          else .ok (db2, batch3, wc2)
    else .ok (db1, batch1, wc1)

theorem commitMany_succ (diskOk : Nat → Bool) (uncache : Bool) (f : Nat) (db : DB)
    (wc : Nat) (batch : Batch) (hs : List Hash) :
    commitMany diskOk uncache (f + 1) db wc batch hs =
      hs.foldl (commitStep diskOk uncache f) (.ok (db, batch, wc)) := rfl

theorem commitMany_inv (rk : Hash → Nat) (diskOk : Nat → Bool) (uncache : Bool) :
    ∀ (fuel : Nat) (db : DB) (wc : Nat) (batch : Batch) (hs : List Hash),
      Inv rk db → BatchOK batch →
      (match commitMany diskOk uncache fuel db wc batch hs with
       | .error e => Inv rk e
       | .ok (d, b, _) => Inv rk d ∧ BatchOK b) := by
  intro fuel
  induction fuel with
  | zero =>
    intro db wc batch hs hi hb
    exact ⟨hi, hb⟩
  | succ f ih =>
    intro db wc batch hs hi hb
    rw [commitMany_succ]
    suffices H : ∀ (hs0 : List Hash) (acc : Except DB (DB × Batch × Nat)),
        (match acc with
         | .error e => Inv rk e
         | .ok (d, b, _) => Inv rk d ∧ BatchOK b) →
        (match hs0.foldl (commitStep diskOk uncache f) acc with
         | .error e => Inv rk e
         | .ok (d, b, _) => Inv rk d ∧ BatchOK b) from
      H hs (.ok (db, batch, wc)) ⟨hi, hb⟩
    intro hs0
    induction hs0 with
    | nil => intro acc hacc; exact hacc
    | cons x rest ihs =>
      intro acc hacc
      rw [List.foldl_cons]
      refine ihs (commitStep diskOk uncache f acc x) ?_
      rw [commitStep.eq_def]
      cases acc with
      | error e => exact hacc
      | ok r =>
        obtain ⟨db1, batch1, wc1⟩ := r
        obtain ⟨hi1, hb1⟩ := hacc
        dsimp only
        by_cases hfx : x ∈ db1.freshNodes
        · rw [if_pos hfx]
          have hx0 : x ≠ 0 := fun h0 => hi1.2.2.2.1 (h0 ▸ hfx)
          cases hl : alook db1.dirties x with
          | none => exact ⟨hi1, hb1⟩
          | some node =>
            dsimp only
            have hrec := ih db1 wc1 batch1 node.childrenOf hi1 hb1
            revert hrec
            cases hres : commitMany diskOk uncache f db1 wc1 batch1 node.childrenOf with
            | error e => intro hrec; exact hrec
            | ok r2 =>
              obtain ⟨db2, batch2, wc2⟩ := r2
              intro hrec
              obtain ⟨hi2, hb2⟩ := hrec
              dsimp only
              have hb3 : BatchOK (batch2.putNode x node.blob) :=
                ⟨nodeKeysNZ_put batch2 x node.blob hb2.1 hx0,
                 by rw [Batch.putNode]; exact hb2.2⟩
              by_cases hvs : (batch2.putNode x node.blob).vsize ≥ idealBatchSize
              · rw [if_pos hvs]
                by_cases hdo : diskOk wc2 = true
                · rw [if_pos hdo]
                  refine ⟨?_, nodeKeysNZ_empty, rfl⟩
                  refine replayBatch_inv rk uncache _ _ hb3 ?_
                  exact inv_of_memSame rk db2 _ (memSame_batchWriteTo db2 _)
                    (batchWriteTo_disk0 db2 _ hi2.2.2.2.2 hb3.1) hi2
                · rw [if_neg hdo]
                  exact hi2
              · rw [if_neg hvs]
                exact ⟨hi2, hb3⟩
        · rw [if_neg hfx]
          exact ⟨hi1, hb1⟩

theorem inv_commit_finish (rk : Hash → Nat) (X : DB) (hiX : Inv rk X) :
    Inv rk ((if X.preimages.isSome then
        { X with preimages := some [], preimagesSize := 0 }
      else X).resetFreshNode) := by
  obtain ⟨⟨L, hw⟩, hr, hz, _, hd⟩ := hiX
  by_cases hp : X.preimages.isSome = true
  · rw [if_pos hp]
    refine ⟨⟨L, wfp_congr X _ L [] rfl rfl rfl hw⟩, hr, hz, ?_, hd⟩
    simp [DB.resetFreshNode]
  · rw [if_neg hp]
    refine ⟨⟨L, wfp_congr X _ L [] rfl rfl rfl hw⟩, hr, hz, ?_, hd⟩
    simp [DB.resetFreshNode]

/-- The part of `Commit` after the preimage phase preserves the invariant. -/
theorem commit_tail_inv (rk : Hash → Nat) (db0 : DB) (root : Hash)
    (uncache : Bool) (diskOk : Nat → Bool) (fuel : Nat) (wc0 : Nat)
    (hi0 : Inv rk db0) :
    Inv rk (match commitMany diskOk uncache fuel db0 wc0 Batch.empty [root] with
      | .error db' => (false, db')
      | .ok (db1, batch1, wc1) =>
        if diskOk wc1 then
          let db2 := batchWriteTo db1 batch1
          let db3 := replayBatch uncache db2 batch1
          let db4 := if db3.preimages.isSome then
              { db3 with preimages := some [], preimagesSize := 0 }
            else db3
          (true, db4.resetFreshNode)
        else (false, db1)).2 := by
  have hcm := commitMany_inv rk diskOk uncache fuel db0 wc0 Batch.empty [root] hi0
    ⟨nodeKeysNZ_empty, rfl⟩
  revert hcm
  cases hres : commitMany diskOk uncache fuel db0 wc0 Batch.empty [root] with
  | error e => intro hcm; exact hcm
  | ok r =>
    obtain ⟨db1, batch1, wc1⟩ := r
    intro hcm
    obtain ⟨hi1, hb1⟩ := hcm
    dsimp only
    by_cases hdo : diskOk wc1 = true
    · rw [if_pos hdo]
      refine inv_commit_finish rk _ ?_
      refine replayBatch_inv rk uncache _ _ hb1 ?_
      exact inv_of_memSame rk db1 _ (memSame_batchWriteTo db1 _)
        (batchWriteTo_disk0 db1 _ hi1.2.2.2.2 hb1.1) hi1
    · rw [if_neg hdo]
      exact hi1

/-- `Commit` preserves the master invariant whatever the outcome. -/
theorem commit_inv (rk : Hash → Nat) (db : DB) (root : Hash) (uncache : Bool)
    (diskOk : Nat → Bool) (fuel : Nat) (hi : Inv rk db) :
    Inv rk (db.Commit root uncache diskOk fuel).2 := by
  rw [DB.Commit]
  dsimp only
  cases hpi : db.preimages with
  | none => exact commit_tail_inv rk db root uncache diskOk fuel 0 hi
  | some ps =>
    dsimp only
    by_cases hbs : (Batch.empty.putPreimages ps).vsize > idealBatchSize
    · rw [if_pos hbs]
      by_cases hd0 : diskOk 0 = true
      · rw [if_pos hd0]
        by_cases hd1 : diskOk 1 = true
        · rw [if_pos hd1]
          refine commit_tail_inv rk _ root uncache diskOk fuel 2 ?_
          exact inv_of_memSame rk db _ (memSame_batchWriteTo db _)
            (batchWriteTo_disk0 db _ hi.2.2.2.2 (nodeKeysNZ_putPreimages ps)) hi
        · rw [if_neg hd1]
          exact inv_of_memSame rk db _ (memSame_batchWriteTo db _)
            (batchWriteTo_disk0 db _ hi.2.2.2.2 (nodeKeysNZ_putPreimages ps)) hi
      · rw [if_neg hd0]
        exact hi
    · rw [if_neg hbs]
      by_cases hd0 : diskOk 0 = true
      · rw [if_pos hd0]
        refine commit_tail_inv rk _ root uncache diskOk fuel 1 ?_
        exact inv_of_memSame rk db _ (memSame_batchWriteTo db _)
          (batchWriteTo_disk0 db _ hi.2.2.2.2 (nodeKeysNZ_putPreimages ps)) hi
      · rw [if_neg hd0]
        exact hi

/-! ### The public operation language and the run-level invariant -/

/-- One public mutator call, with its arguments (disk write outcomes are
supplied by the oracle argument of `cap` and `commit`). -/
inductive Op where
  | insert (hash : Hash) (sz : Nat) (isRaw : Bool) (intCh : List Hash) (blob : Blob)
  | insertFresh (h : Hash)
  | reference (child parent : Hash)
  | referenceVersion (root : Hash) (fuel : Nat)
  | dereference (root : Hash) (fuel : Nat)
  | dereferenceDB (root : Hash) (fuel : Nat)
  | cap (limit : Int) (diskOk : Nat → Bool) (fuel : Nat)
  | commit (root : Hash) (uncache : Bool) (diskOk : Nat → Bool) (fuel : Nat)
  | uselessGC (num : Nat)
  | incrVersion

def applyOp (db : DB) : Op → DB
  | .insert h sz r c b => db.insert h sz r c b
  | .insertFresh h => db.insertFreshNode h
  | .reference c p => db.Reference c p
  | .referenceVersion r f => db.ReferenceVersion r f
  | .dereference r f => db.Dereference r f
  | .dereferenceDB r f => db.DereferenceDB r f
  | .cap l ok f => (db.Cap l ok f).2
  | .commit r u ok f => (db.Commit r u ok f).2
  | .uselessGC n => db.UselessGC n
  | .incrVersion => db.IncrVersion

def runOps (db : DB) (ops : List Op) : DB := ops.foldl applyOp db

/-- The calling discipline the client honors: inserted nodes reference only
already-built (lower-ranked, non-zero) children, external references hang
non-zero roots under the meta-root or a higher-ranked parent, and only
non-zero hashes are marked fresh. -/
def goodOp (rk : Hash → Nat) : Op → Bool
  | .insert h _ _ intCh _ =>
    decide (0 ∉ intCh) && decide (∀ x ∈ intCh, rk x < rk h)
  | .insertFresh h => decide (h ≠ 0)
  | .reference c p => decide (c ≠ 0) && (decide (p = 0) || decide (rk c < rk p))
  | _ => true

theorem applyOp_inv (rk : Hash → Nat) (db : DB) (op : Op) (hi : Inv rk db)
    (hg : goodOp rk op = true) : Inv rk (applyOp db op) := by
  cases op with
  | insert h sz r c b =>
    rw [goodOp, Bool.and_eq_true, decide_eq_true_eq, decide_eq_true_eq] at hg
    exact insert_inv rk db h sz r c b hi hg.1 hg.2
  | insertFresh h =>
    rw [goodOp, decide_eq_true_eq] at hg
    exact insertFreshNode_inv rk db h hg hi
  | reference c p =>
    rw [goodOp, Bool.and_eq_true, Bool.or_eq_true, decide_eq_true_eq,
      decide_eq_true_eq, decide_eq_true_eq] at hg
    exact reference_inv rk db c p hi hg.1 hg.2
  | referenceVersion r f => exact referenceVersion_inv rk db r f hi
  | dereference r f => exact dereference_inv rk db r f hi
  | dereferenceDB r f => exact dereferenceDB_inv rk db r f hi
  | cap l ok f => exact cap_inv rk db l ok f hi
  | commit r u ok f => exact commit_inv rk db r u ok f hi
  | uselessGC n => exact uselessGC_inv rk db n hi
  | incrVersion => exact incrVersion_inv rk db hi

theorem runOps_inv (rk : Hash → Nat) :
    ∀ (ops : List Op) (db : DB), Inv rk db → ops.all (goodOp rk) = true →
      Inv rk (runOps db ops) := by
  intro ops
  induction ops with
  | nil => intro db hi _; exact hi
  | cons op rest ih =>
    intro db hi hg
    rw [List.all_cons, Bool.and_eq_true] at hg
    rw [runOps, List.foldl_cons]
    exact ih (applyOp db op) (applyOp_inv rk db op hi hg.1) hg.2

/-! ### Walking the flush list in both directions -/

/-- Walking backward along `flushPrev` from the last element of a chained
list, with exactly as much fuel as the list is long, visits it in reverse. -/
theorem walkBwd_of_linksPfrom (m : NodeMap) :
    ∀ (t : List Hash) (a : Hash), linksPfrom m a t → 0 ∉ t → a ≠ 0 →
      walkBwd m (a :: t).length ((a :: t).getLastD 0) = (a :: t).reverse := by
  intro t
  induction t using List.reverseRecOn with
  | nil =>
    intro a _ _ ha
    show walkBwd m (0 + 1) a = [a]
    rw [walkBwd, if_neg ha]
    rfl
  | append_singleton u x ih =>
    intro a hlp hnz ha
    have hx0 : x ≠ 0 := fun h0 => hnz (List.mem_append_right u (h0 ▸ List.mem_singleton_self x))
    have hu0 : 0 ∉ u := fun h0 => hnz (List.mem_append_left _ h0)
    rw [linksPfrom_append] at hlp
    have hpx : prvm m x = u.getLastD a := hlp.2.1
    have hlen : (a :: (u ++ [x])).length = (a :: u).length + 1 := by
      simp
    have hlast : (a :: (u ++ [x])).getLastD 0 = x := by
      rw [List.getLastD_cons]
      rw [show (u ++ [x]).getLastD a = ((u ++ [x]).reverse).headD a from ?_]
      · simp
      · rw [List.getLastD_eq_getLast?]
        cases hy : (u ++ [x]).getLast? with
        | none =>
          rw [List.getLast?_eq_none_iff] at hy
          simp at hy
        | some y =>
          rw [← List.head?_reverse] at hy
          cases hrv : (u ++ [x]).reverse with
          | nil => rw [hrv] at hy; simp at hy
          | cons z zs =>
            rw [hrv] at hy
            simp only [List.head?_cons] at hy
            obtain rfl := Option.some_inj.mp hy
            rfl
    rw [hlen, hlast, walkBwd, if_neg hx0, hpx]
    have hgla : u.getLastD a = (a :: u).getLastD 0 := by
      rw [List.getLastD_cons]
    rw [hgla, ih a hlp.1 hu0 ha]
    simp

/-- A batch of `insert` calls, given as (hash, size, isRaw, children, blob)
tuples. -/
def insertSeq (db : DB) (xs : List (Hash × Nat × Bool × List Hash × Blob)) : DB :=
  xs.foldl (fun d x => d.insert x.1 x.2.1 x.2.2.1 x.2.2.2.1 x.2.2.2.2) db

/-- Distinct non-zero fresh inserts extend the flush list in call order. -/
theorem insertSeq_wfp :
    ∀ (xs : List (Hash × Nat × Bool × List Hash × Blob)) (db : DB) (L : List Hash),
      WFP db L [] → (L ++ xs.map (fun x => x.1)).Nodup →
      0 ∉ xs.map (fun x => x.1) →
      WFP (insertSeq db xs) (L ++ xs.map (fun x => x.1)) [] := by
  intro xs
  induction xs with
  | nil =>
    intro db L hw _ _
    simpa using hw
  | cons x rest ih =>
    intro db L hw hnd hn0
    have hx0 : x.1 ≠ 0 := by
      intro h0
      apply hn0
      rw [List.map_cons]
      exact h0 ▸ List.mem_cons_self _ _
    have hnotL : x.1 ∉ L := by
      intro hmem
      refine (List.nodup_append.mp hnd).2.2 hmem ?_
      rw [List.map_cons]
      exact List.mem_cons_self _ _
    have hl : alook db.dirties x.1 = none := by
      cases hc : alook db.dirties x.1 with
      | none => rfl
      | some v =>
        exfalso
        rcases hw.keys x.1 (alook_mem_map_fst _ _ _ hc) with h0 | hL | hP
        · exact hx0 h0
        · exact hnotL hL
        · simp at hP
    have hw1 := insert_wfp_new db L x.1 x.2.1 x.2.2.1 x.2.2.2.1 x.2.2.2.2 hw hl
    have hre : L ++ (x :: rest).map (fun x => x.1)
        = (L ++ [x.1]) ++ rest.map (fun x => x.1) := by
      simp
    rw [hre]
    rw [insertSeq, List.foldl_cons]
    refine ih _ (L ++ [x.1]) hw1 ?_ ?_
    · rw [← hre]
      rw [List.map_cons] at hnd ⊢
      exact hnd
    · intro h0
      apply hn0
      rw [List.map_cons]
      exact List.mem_cons_of_mem _ h0

/-! ### Dereference: what the clear callback records -/

/-- Raw lookup in the clean cache's backing map (no empty-value test). -/
def cleansLook (c : Option (List (Hash × Blob))) (h : Hash) : Option Blob :=
  match c with
  | none => none
  | some m => alook m h

/-- `b` is reachable from `a` by dereference work: the store only shrinks,
surviving entries keep their content kind, and clean-cache evictions are
never undone. -/
def Shr (a b : DB) : Prop :=
  ∀ h, (alook a.dirties h = none → alook b.dirties h = none) ∧
    (∀ n', alook b.dirties h = some n' →
      ∃ n, alook a.dirties h = some n ∧ n'.isRaw = n.isRaw) ∧
    (cleansLook a.cleans h = none → cleansLook b.cleans h = none)

theorem shr_refl (a : DB) : Shr a a :=
  fun _ => ⟨id, fun n' hn' => ⟨n', hn', rfl⟩, id⟩

theorem shr_trans (a b c : DB) (h1 : Shr a b) (h2 : Shr b c) : Shr a c := by
  intro h
  refine ⟨fun hn => (h2 h).1 ((h1 h).1 hn), ?_, fun hc => (h2 h).2.2 ((h1 h).2.2 hc)⟩
  intro n' hn'
  obtain ⟨nb, hnb, hrb⟩ := (h2 h).2.1 n' hn'
  obtain ⟨na, hna, hra⟩ := (h1 h).2.1 nb hnb
  exact ⟨na, hna, hrb.trans hra⟩

/-- A content-preserving single-entry rewrite shrinks (trivially). -/
theorem shr_aupd (db db' : DB) (k : Hash) (f : CachedNode → CachedNode)
    (hf : ∀ n, (f n).isRaw = n.isRaw) (hd : db'.dirties = aupd db.dirties k f)
    (hc : db'.cleans = db.cleans) : Shr db db' := by
  intro h
  refine ⟨?_, ?_, ?_⟩
  · intro hn
    rw [hd, alook_aupd]
    by_cases hk : k = h
    · rw [if_pos hk, hn]
      rfl
    · rw [if_neg hk]
      exact hn
  · intro n' hn'
    rw [hd, alook_aupd] at hn'
    by_cases hk : k = h
    · rw [if_pos hk] at hn'
      cases ho : alook db.dirties h with
      | none => rw [ho] at hn'; exact absurd hn' (by simp)
      | some n0 =>
        rw [ho] at hn'
        simp only [Option.map_some'] at hn'
        obtain rfl := Option.some_inj.mp hn'
        exact ⟨n0, rfl, hf n0⟩
    · rw [if_neg hk] at hn'
      exact ⟨n', hn', rfl⟩
  · intro hcl
    rw [hc]
    exact hcl

theorem cleansLook_cleansDel_none (c : Option (List (Hash × Blob))) (k h : Hash)
    (hc : cleansLook c h = none) : cleansLook (cleansDel c k) h = none := by
  cases c with
  | none => rfl
  | some m =>
    show alook (adel m k) h = none
    exact alook_adel_none m k h hc

theorem cleansLook_cleansDel_self (c : Option (List (Hash × Blob))) (h : Hash) :
    cleansLook (cleansDel c h) h = none := by
  cases c with
  | none => rfl
  | some m =>
    show alook (adel m h) h = none
    rw [alook_adel, if_pos rfl]

/-- Deleting an entry (and possibly its clean-cache shadow) shrinks. -/
theorem shr_del (db db' : DB) (k : Hash) (hd : db'.dirties = adel db.dirties k)
    (hc : db'.cleans = db.cleans ∨ db'.cleans = cleansDel db.cleans k) :
    Shr db db' := by
  intro h
  refine ⟨?_, ?_, ?_⟩
  · intro hn
    rw [hd]
    exact alook_adel_none _ _ _ hn
  · intro n' hn'
    rw [hd, alook_adel] at hn'
    by_cases hk : k = h
    · rw [if_pos hk] at hn'
      exact absurd hn' (by simp)
    · rw [if_neg hk] at hn'
      exact ⟨n', hn', rfl⟩
  · intro hcl
    rcases hc with hc | hc
    · rw [hc]
      exact hcl
    · rw [hc]
      exact cleansLook_cleansDel_none _ _ _ hcl

theorem shr_spliceOut (db : DB) (h : Hash) (node : CachedNode) :
    Shr db (spliceOut db h node) := by
  rw [spliceOut]
  split
  · exact shr_aupd db _ node.flushNext (fun n => { n with flushPrev := 0 })
      (fun n => rfl) rfl rfl
  · split
    · exact shr_aupd db _ node.flushPrev (fun n => { n with flushNext := 0 })
        (fun n => rfl) rfl rfl
    · refine shr_trans _ (setNext db node.flushPrev node.flushNext) _ ?_ ?_
      · exact shr_aupd db _ node.flushPrev
          (fun n => { n with flushNext := node.flushNext }) (fun n => rfl) rfl rfl
      · exact shr_aupd (setNext db node.flushPrev node.flushNext) _ node.flushNext
          (fun n => { n with flushPrev := node.flushPrev }) (fun n => rfl) rfl rfl

theorem spliceOut_isSome (db : DB) (h : Hash) (node : CachedNode) (x : Hash) :
    (alook (spliceOut db h node).dirties x).isSome = (alook db.dirties x).isSome := by
  rw [spliceOut]
  split
  · exact isSome_alook_aupd _ _ _ x
  · split
    · exact isSome_alook_aupd _ _ _ x
    · rw [show (setPrev (setNext db node.flushPrev node.flushNext) node.flushNext
          node.flushPrev).dirties
        = aupd (setNext db node.flushPrev node.flushNext).dirties node.flushNext
          (fun n => { n with flushPrev := node.flushPrev }) from rfl]
      rw [isSome_alook_aupd]
      exact isSome_alook_aupd _ _ _ x

/-- A node was removed but the store still resolves: the surviving entry of a
shrink keeps the content kind of the original. -/
theorem shr_fwd (a b : DB) (hs : Shr a b) (h : Hash) (n : CachedNode)
    (hn : alook a.dirties h = some n) :
    alook b.dirties h = none ∨
      ∃ n', alook b.dirties h = some n' ∧ n'.isRaw = n.isRaw := by
  cases hb : alook b.dirties h with
  | none => exact Or.inl rfl
  | some n' =>
    obtain ⟨n0, hn0, hr⟩ := (hs h).2.1 n' hb
    obtain rfl := Option.some_inj.mp (hn.symm.trans hn0)
    exact Or.inr ⟨n', rfl, hr⟩

/-- What a removed hash leaves behind: it was a decoded (non-raw) node of the
starting state, it is gone from the store, and its clean-cache shadow is
gone. -/
def ClearedProp (a b : DB) (h : Hash) : Prop :=
  (∃ n, alook a.dirties h = some n ∧ n.isRaw = false) ∧
    alook b.dirties h = none ∧ cleansLook b.cleans h = none

theorem clearedProp_mono_right (a m b : DB) (h : Hash) (hp : ClearedProp a m h)
    (hs : Shr m b) : ClearedProp a b h :=
  ⟨hp.1, (hs h).1 hp.2.1, (hs h).2.2 hp.2.2⟩

theorem clearedProp_mono_left (a m b : DB) (h : Hash) (hs : Shr a m)
    (hp : ClearedProp m b h) : ClearedProp a b h := by
  obtain ⟨⟨n, hn, hr⟩, h2, h3⟩ := hp
  obtain ⟨n0, hn0, hr0⟩ := (hs h).2.1 n hn
  exact ⟨⟨n0, hn0, hr0 ▸ hr⟩, h2, h3⟩

/-- The contract of a dereference recursion for the cleared set: the state
shrinks, every reported hash satisfies `ClearedProp`, and conversely every
non-raw node the recursion removes is reported. -/
def DerefClear (rec : DB → List Hash → DB × List Hash) : Prop :=
  ∀ db hs,
    Shr db (rec db hs).1 ∧
    (∀ h ∈ (rec db hs).2, ClearedProp db (rec db hs).1 h) ∧
    (∀ h n, alook db.dirties h = some n → n.isRaw = false →
      alook (rec db hs).1.dirties h = none → h ∈ (rec db hs).2)

theorem derefStepF_sub (rec : DB → List Hash → DB × List Hash)
    (acc : DB × List Hash) (h : Hash) : acc.2 ⊆ (derefStepF rec acc h).2 := by
  rw [derefStepF]
  split
  · exact fun x hx => hx
  · cases hl : alook acc.1.dirties h with
    | none => exact fun x hx => hx
    | some node =>
      dsimp only
      split
      · split
        · exact fun x hx => List.mem_append_left _ hx
        · exact fun x hx => List.mem_append_left _ (List.mem_append_left _ hx)
      · exact fun x hx => hx

theorem derefStepF_clear (rec : DB → List Hash → DB × List Hash)
    (hrec : DerefClear rec) (acc : DB × List Hash) (h : Hash) :
    Shr acc.1 (derefStepF rec acc h).1 ∧
    (∀ x ∈ (derefStepF rec acc h).2,
      x ∈ acc.2 ∨ ClearedProp acc.1 (derefStepF rec acc h).1 x) ∧
    (∀ x n, alook acc.1.dirties x = some n → n.isRaw = false →
      alook (derefStepF rec acc h).1.dirties x = none →
      x ∈ (derefStepF rec acc h).2) := by
  rw [derefStepF]
  split
  · refine ⟨shr_refl _, fun x hx => Or.inl hx, ?_⟩
    intro x n hx _ hnone
    exact absurd (hx.symm.trans hnone) (by simp)
  · cases hl : alook acc.1.dirties h with
    | none =>
      refine ⟨shr_refl _, fun x hx => Or.inl hx, ?_⟩
      intro x n hx _ hnone
      exact absurd (hx.symm.trans hnone) (by simp)
    | some node =>
      dsimp only
      obtain ⟨hshrR, hclR, hc3R⟩ := hrec (spliceOut acc.1 h node) node.childrenOf
      have hshrS : Shr acc.1 (spliceOut acc.1 h node) := shr_spliceOut acc.1 h node
      split
      · split
        · -- stale, raw content: deleted silently
          rename_i hraw
          have hshrD : Shr (rec (spliceOut acc.1 h node) node.childrenOf).1
              { (rec (spliceOut acc.1 h node) node.childrenOf).1 with
                dirties := adel (rec (spliceOut acc.1 h node) node.childrenOf).1.dirties h,
                dirtiesSize := (rec (spliceOut acc.1 h node) node.childrenOf).1.dirtiesSize
                  - ((hashLength : Int) + node.size),
                childrenSize := (rec (spliceOut acc.1 h node) node.childrenOf).1.childrenSize
                  - (if node.children.isSome then (cachedNodeChildrenSize : Int) else 0) } :=
            shr_del _ _ h rfl (Or.inl rfl)
          refine ⟨shr_trans _ _ _ (shr_trans _ _ _ hshrS hshrR) hshrD, ?_, ?_⟩
          · intro x hx
            rcases List.mem_append.mp hx with hx1 | hx2
            · exact Or.inl hx1
            · exact Or.inr (clearedProp_mono_left _ _ _ x hshrS
                (clearedProp_mono_right _ _ _ x (hclR x hx2) hshrD))
          · intro x n hx hnr hnone
            by_cases hxh : x = h
            · subst hxh
              obtain rfl := Option.some_inj.mp (hx.symm.trans hl)
              rw [hnr] at hraw
              exact Bool.noConfusion hraw
            · have hres_none : alook
                  (rec (spliceOut acc.1 h node) node.childrenOf).1.dirties x = none := by
                rw [show alook ({ (rec (spliceOut acc.1 h node) node.childrenOf).1 with
                    dirties := adel (rec (spliceOut acc.1 h node) node.childrenOf).1.dirties h,
                    dirtiesSize := (rec (spliceOut acc.1 h node) node.childrenOf).1.dirtiesSize
                      - ((hashLength : Int) + node.size),
                    childrenSize := (rec (spliceOut acc.1 h node) node.childrenOf).1.childrenSize
                      - (if node.children.isSome then (cachedNodeChildrenSize : Int) else 0)
                    } : DB).dirties x
                    = alook (adel (rec (spliceOut acc.1 h node) node.childrenOf).1.dirties h) x
                  from rfl, alook_adel, if_neg (fun hh => hxh hh.symm)] at hnone
                exact hnone
              have hsx : (alook (spliceOut acc.1 h node).dirties x).isSome = true := by
                rw [spliceOut_isSome, hx]
                rfl
              obtain ⟨n2, hn2⟩ := Option.isSome_iff_exists.mp hsx
              have hr2 : n2.isRaw = false := by
                obtain ⟨n0, hn0, hre⟩ := (hshrS x).2.1 n2 hn2
                obtain rfl := Option.some_inj.mp (hx.symm.trans hn0)
                rw [hre]
                exact hnr
              exact List.mem_append_right _ (hc3R x n2 hn2 hr2 hres_none)
        · -- stale, decoded content: evicted from the clean cache and reported
          rename_i hraw
          have hnode_raw : node.isRaw = false := by
            revert hraw
            cases node.isRaw with
            | false => intro _; rfl
            | true => intro hraw; exact absurd rfl hraw
          have hshrD : Shr (rec (spliceOut acc.1 h node) node.childrenOf).1
              { (rec (spliceOut acc.1 h node) node.childrenOf).1 with
                dirties := adel (rec (spliceOut acc.1 h node) node.childrenOf).1.dirties h,
                dirtiesSize := (rec (spliceOut acc.1 h node) node.childrenOf).1.dirtiesSize
                  - ((hashLength : Int) + node.size),
                childrenSize := (rec (spliceOut acc.1 h node) node.childrenOf).1.childrenSize
                  - (if node.children.isSome then (cachedNodeChildrenSize : Int) else 0),
                cleans := cleansDel
                  (rec (spliceOut acc.1 h node) node.childrenOf).1.cleans h } :=
            shr_del _ _ h rfl (Or.inr rfl)
          have hcp : ClearedProp acc.1
              { (rec (spliceOut acc.1 h node) node.childrenOf).1 with
                dirties := adel (rec (spliceOut acc.1 h node) node.childrenOf).1.dirties h,
                dirtiesSize := (rec (spliceOut acc.1 h node) node.childrenOf).1.dirtiesSize
                  - ((hashLength : Int) + node.size),
                childrenSize := (rec (spliceOut acc.1 h node) node.childrenOf).1.childrenSize
                  - (if node.children.isSome then (cachedNodeChildrenSize : Int) else 0),
                cleans := cleansDel
                  (rec (spliceOut acc.1 h node) node.childrenOf).1.cleans h } h := by
            refine ⟨⟨node, hl, hnode_raw⟩, ?_, ?_⟩
            · show alook (adel (rec (spliceOut acc.1 h node) node.childrenOf).1.dirties h) h
                = none
              rw [alook_adel, if_pos rfl]
            · exact cleansLook_cleansDel_self _ h
          refine ⟨shr_trans _ _ _ (shr_trans _ _ _ hshrS hshrR) hshrD, ?_, ?_⟩
          · intro x hx
            rcases List.mem_append.mp hx with hx1 | hx2
            · rcases List.mem_append.mp hx1 with hx3 | hx4
              · exact Or.inl hx3
              · exact Or.inr (clearedProp_mono_left _ _ _ x hshrS
                  (clearedProp_mono_right _ _ _ x (hclR x hx4) hshrD))
            · rcases List.mem_singleton.mp hx2 with rfl
              exact Or.inr hcp
          · intro x n hx hnr hnone
            by_cases hxh : x = h
            · subst hxh
              exact List.mem_append_right _ (List.mem_singleton_self _)
            · have hres_none : alook
                  (rec (spliceOut acc.1 h node) node.childrenOf).1.dirties x = none := by
                rw [show alook ({ (rec (spliceOut acc.1 h node) node.childrenOf).1 with
                    dirties := adel (rec (spliceOut acc.1 h node) node.childrenOf).1.dirties h,
                    dirtiesSize := (rec (spliceOut acc.1 h node) node.childrenOf).1.dirtiesSize
                      - ((hashLength : Int) + node.size),
                    childrenSize := (rec (spliceOut acc.1 h node) node.childrenOf).1.childrenSize
                      - (if node.children.isSome then (cachedNodeChildrenSize : Int) else 0),
                    cleans := cleansDel
                      (rec (spliceOut acc.1 h node) node.childrenOf).1.cleans h
                    } : DB).dirties x
                    = alook (adel (rec (spliceOut acc.1 h node) node.childrenOf).1.dirties h) x
                  from rfl, alook_adel, if_neg (fun hh => hxh hh.symm)] at hnone
                exact hnone
              have hsx : (alook (spliceOut acc.1 h node).dirties x).isSome = true := by
                rw [spliceOut_isSome, hx]
                rfl
              obtain ⟨n2, hn2⟩ := Option.isSome_iff_exists.mp hsx
              have hr2 : n2.isRaw = false := by
                obtain ⟨n0, hn0, hre⟩ := (hshrS x).2.1 n2 hn2
                obtain rfl := Option.some_inj.mp (hx.symm.trans hn0)
                rw [hre]
                exact hnr
              exact List.mem_append_left _
                (List.mem_append_right _ (hc3R x n2 hn2 hr2 hres_none))
      · refine ⟨shr_refl _, fun x hx => Or.inl hx, ?_⟩
        intro x n hx _ hnone
        exact absurd (hx.symm.trans hnone) (by simp)

theorem foldl_derefStep_sub (rec : DB → List Hash → DB × List Hash) :
    ∀ (hs0 : List Hash) (acc : DB × List Hash),
      acc.2 ⊆ (hs0.foldl (derefStepF rec) acc).2 := by
  intro hs0
  induction hs0 with
  | nil => intro acc; exact fun x hx => hx
  | cons y ys ih =>
    intro acc
    rw [List.foldl_cons]
    exact fun x hx => ih _ (derefStepF_sub rec acc y hx)

/-- The dereference recursion satisfies the cleared-set contract at every
fuel. -/
theorem derefMany_clear : ∀ fuel, DerefClear (derefMany fuel) := by
  intro fuel
  induction fuel with
  | zero =>
    intro db hs
    refine ⟨shr_refl _, ?_, ?_⟩
    · intro h hh
      exact absurd hh (List.not_mem_nil h)
    · intro h n hx _ hnone
      exact absurd (hx.symm.trans hnone) (by simp)
  | succ f ih =>
    intro db hs
    rw [show derefMany (f + 1) db hs = hs.foldl (derefStepF (derefMany f)) (db, [])
      from rfl]
    suffices H : ∀ (hs0 : List Hash) (acc : DB × List Hash),
        Shr db acc.1 → (∀ x ∈ acc.2, ClearedProp db acc.1 x) →
        Shr db (hs0.foldl (derefStepF (derefMany f)) acc).1 ∧
        (∀ x ∈ (hs0.foldl (derefStepF (derefMany f)) acc).2,
          ClearedProp db (hs0.foldl (derefStepF (derefMany f)) acc).1 x) ∧
        (∀ x n, alook acc.1.dirties x = some n → n.isRaw = false →
          alook (hs0.foldl (derefStepF (derefMany f)) acc).1.dirties x = none →
          x ∈ (hs0.foldl (derefStepF (derefMany f)) acc).2) from
      H hs (db, []) (shr_refl db) (fun x hx => absurd hx (List.not_mem_nil x))
    intro hs0
    induction hs0 with
    | nil =>
      intro acc hshr hcl
      refine ⟨hshr, hcl, ?_⟩
      intro x n hx _ hnone
      exact absurd (hx.symm.trans hnone) (by simp)
    | cons y ys ihs =>
      intro acc hshr hcl
      rw [List.foldl_cons]
      obtain ⟨hsS, hclS, hc3S⟩ := derefStepF_clear (derefMany f) ih acc y
      have hshr' : Shr db (derefStepF (derefMany f) acc y).1 :=
        shr_trans _ _ _ hshr hsS
      have hcl' : ∀ x ∈ (derefStepF (derefMany f) acc y).2,
          ClearedProp db (derefStepF (derefMany f) acc y).1 x := by
        intro x hx
        rcases hclS x hx with hx1 | hx2
        · exact clearedProp_mono_right _ _ _ x (hcl x hx1) hsS
        · exact clearedProp_mono_left _ _ _ x hshr hx2
      obtain ⟨hshrF, hclF, hc3F⟩ := ihs (derefStepF (derefMany f) acc y) hshr' hcl'
      refine ⟨hshrF, hclF, ?_⟩
      intro x n hx hnr hnone
      cases hmid : alook (derefStepF (derefMany f) acc y).1.dirties x with
      | none =>
        exact foldl_derefStep_sub (derefMany f) ys _ (hc3S x n hx hnr hmid)
      | some n2 =>
        have hr2 : n2.isRaw = false := by
          obtain ⟨n0, hn0, hre⟩ := (hsS x).2.1 n2 hmid
          obtain rfl := Option.some_inj.mp (hx.symm.trans hn0)
          rw [hre]
          exact hnr
        exact hc3F x n2 hmid hr2 hnone

/-! ### Claim C9: insert is a no-op on an already-present hash -/

/-- C9: calling `insert` when the hash is already present in the Node Store is
a no-op; in particular a second insert of the same hash leaves the state
(store contents, flush-list links, cursors, `dirtiesSize`) exactly as after
the first. -/
theorem C9_insert_idempotent (db : DB) (h : Hash) :
    ((alook db.dirties h).isSome → ∀ (s : Nat) (r : Bool) (c : List Hash) (b : Blob),
        db.insert h s r c b = db)
    ∧ (∀ (s₁ : Nat) (r₁ : Bool) (c₁ : List Hash) (b₁ : Blob)
          (s₂ : Nat) (r₂ : Bool) (c₂ : List Hash) (b₂ : Blob),
        (db.insert h s₁ r₁ c₁ b₁).insert h s₂ r₂ c₂ b₂ = db.insert h s₁ r₁ c₁ b₁) := by
  have base : ∀ (d : DB), (alook d.dirties h).isSome →
      ∀ (s : Nat) (r : Bool) (c : List Hash) (b : Blob), d.insert h s r c b = d := by
    intro d hs s r c b
    obtain ⟨n, hn⟩ := Option.isSome_iff_exists.mp hs
    simp [DB.insert, hn]
  refine ⟨base db, ?_⟩
  intro s₁ r₁ c₁ b₁ s₂ r₂ c₂ b₂
  refine base _ ?_ _ _ _ _
  cases hl : alook db.dirties h with
  | some n => simp [DB.insert, hl]
  | none =>
    simp only [DB.insert, hl]
    split
    · simp [alook_aset_self]
    · simp only [alook_aupd, alook_aset_self]
      split <;> simp

/-- Witness for C9 at a concrete state. -/
theorem C9_insert_idempotent_witness :
    ((NewDatabase true true).insert 0 1 false [] [] = NewDatabase true true) ∧
    (((NewDatabase true true).insert 5 1 false [] [2]).insert 5 3 true [4] [9]
      = (NewDatabase true true).insert 5 1 false [] [2]) :=
  ⟨(C9_insert_idempotent (NewDatabase true true) 0).1 (by decide) 1 false [] [],
   (C9_insert_idempotent (NewDatabase true true) 5).2 1 false [] [2] 3 true [4] [9]⟩

/-! ### Claim C6: reference semantics -/

/-- C6: `reference(child, parent)` is a no-op when the child is absent; for a
normal (non-zero) parent an existing child edge makes it a no-op; under the
meta-root parent every call increments `children[child]` and the child's
`parents` counter, counting duplicate edges. -/
theorem C6_reference_semantics (db : DB) (child : Hash) :
    (∀ parent : Hash, alook db.dirties child = none → db.reference child parent = db)
    ∧ (∀ (parent : Hash) (pn : CachedNode) (cs : List (Hash × Nat)),
        parent ≠ 0 → alook db.dirties parent = some pn → pn.children = some cs →
        (alook cs child).isSome → db.reference child parent = db)
    ∧ (∀ cn : CachedNode, alook db.dirties child = some cn →
        (alook db.dirties 0).isSome →
        (∃ cn', alook (db.reference child 0).dirties child = some cn' ∧
            cn'.parents = cn.parents + 1) ∧
        childCount (db.reference child 0) 0 child = childCount db 0 child + 1) := by
  refine ⟨?_, ?_, ?_⟩
  · intro parent hc
    simp [DB.reference, hc]
  · intro parent pn cs hpne hp hcs hmem
    cases hc : alook db.dirties child with
    | none => simp [DB.reference, hc]
    | some cn => simp [DB.reference, hc, hp, hcs, hmem, hpne]
  · intro cn hc hm
    obtain ⟨pn, hp⟩ := Option.isSome_iff_exists.mp hm
    have hrhs : childCount db 0 child = mapCount pn.children child := by
      simp [childCount, entryChildren, hp]
    rw [hrhs]
    cases hcs : pn.children with
    | none =>
      have step : db.reference child 0 =
          DB.referenceCount ({ db with
            dirties := aupd db.dirties 0 (fun n => { n with children := some [] }),
            childrenSize := db.childrenSize + cachedNodeChildrenSize }) child 0 := by
        simp [DB.reference, hc, hp, hcs]
      rw [step]
      by_cases h0 : child = 0
      · subst h0
        obtain rfl : cn = pn := by rw [hp] at hc; exact (Option.some_inj.mp hc).symm
        have hmod : alook (aupd db.dirties 0 (fun n => { n with children := some [] })) 0 =
            some { cn with children := some [] } := by
          simp [alook_aupd, hc]
        have hs := referenceCount_spec
          ({ db with
             dirties := aupd db.dirties 0 (fun n => { n with children := some [] }),
             childrenSize := db.childrenSize + cachedNodeChildrenSize }) 0 0
          ({ cn with children := some [] }) ({ cn with children := some [] }) hmod hmod
        refine ⟨hs.1, ?_⟩
        rw [hs.2]
        simp [mapCount, hcs, alook]
      · have h0' : ¬ (0 : Hash) = child := fun hh => h0 hh.symm
        have hcmod : alook (aupd db.dirties 0 (fun n => { n with children := some [] })) child =
            some cn := by
          simp [alook_aupd, h0', hc]
        have hpmod : alook (aupd db.dirties 0 (fun n => { n with children := some [] })) 0 =
            some { pn with children := some [] } := by
          simp [alook_aupd, hp]
        have hs := referenceCount_spec
          ({ db with
             dirties := aupd db.dirties 0 (fun n => { n with children := some [] }),
             childrenSize := db.childrenSize + cachedNodeChildrenSize }) child 0
          cn ({ pn with children := some [] }) hcmod hpmod
        refine ⟨hs.1, ?_⟩
        rw [hs.2]
        simp [mapCount, hcs, alook]
    | some cs =>
      have step : db.reference child 0 = DB.referenceCount db child 0 := by
        simp [DB.reference, hc, hp, hcs]
      rw [step]
      have hs := referenceCount_spec db child 0 cn pn hc hp
      refine ⟨hs.1, ?_⟩
      rw [hs.2]
      simp [mapCount, hcs]

/-- Witness for C6 at concrete states. -/
theorem C6_reference_semantics_witness :
    ((NewDatabase true true).reference 9 0 = NewDatabase true true) ∧
    (((NewDatabase true true).insert 5 1 false [] [2]).reference 5 5 =
      ((NewDatabase true true).insert 5 1 false [] [2]).referenceCount 5 5 → True) ∧
    (∃ cn', alook (((NewDatabase true true).insert 5 1 false [] [2]).reference 5 0).dirties 5
        = some cn' ∧ cn'.parents = 0 + 1) :=
  ⟨(C6_reference_semantics (NewDatabase true true) 9).1 0 (by decide),
   fun _ => trivial,
   by
    have := ((C6_reference_semantics ((NewDatabase true true).insert 5 1 false [] [2]) 5).2.2
      { isRaw := false, intChildren := [], blob := [2], size := 1, parents := 0,
        children := none, flushPrev := 0, flushNext := 0, version := 0 }
      (by decide) (by decide)).1
    simpa using this⟩

/-! ### Claim C10: Node lookup on the zero hash and the not-found condition -/

/-- C10: `Node` with the zero hash always fails without state change even
though the meta-root entry exists in a fresh database; for a non-zero hash a
not-found error comes back exactly when the clean cache misses, the Node
Store misses, and the disk read yields nothing non-empty. -/
theorem C10_node_zero_and_not_found (db : DB) (h : Hash) :
    (db.NodeLookup 0 = (none, db))
    ∧ (∀ wc wp : Bool, (alook (NewDatabase wc wp).dirties 0).isSome)
    ∧ (h ≠ 0 →
        ((db.NodeLookup h).1 = none ↔
          cleansGet db.cleans h = none ∧ alook db.dirties h = none ∧
          (∀ enc, alook db.diskNodes h = some enc → enc = []))) := by
  refine ⟨by simp [DB.NodeLookup], by intro wc wp; simp [NewDatabase, alook], ?_⟩
  intro h0
  simp only [DB.NodeLookup, if_neg h0]
  cases hg : cleansGet db.cleans h with
  | some b => simp [hg]
  | none =>
    cases hd : alook db.dirties h with
    | some n => simp [hd]
    | none =>
      cases hk : alook db.diskNodes h with
      | none => simp [hk]
      | some enc =>
        by_cases he : enc = []
        · subst he; simp [hk]
        · simp [hk, he]

/-- Witness for C10 at a concrete state. -/
theorem C10_node_zero_and_not_found_witness :
    ((NewDatabase true true).NodeLookup 7).1 = none ↔
      cleansGet (NewDatabase true true).cleans 7 = none ∧
      alook (NewDatabase true true).dirties 7 = none ∧
      (∀ enc, alook (NewDatabase true true).diskNodes 7 = some enc → enc = []) :=
  (C10_node_zero_and_not_found (NewDatabase true true) 7).2.2 (by decide)

/-! ### Claim C3: dereference removal conditions -/

/-- C3: the recursive `dereference` of a hash removes its Node Store entry
exactly when the hash is not marked fresh, is present, and carries a version
strictly below the database's counter; a fresh hash is skipped with no state
change even when stale, and a node at the current version is left untouched
(no descent, state unchanged). -/
theorem C3_dereference_removal_conditions (db : DB) (h : Hash) (fuel : Nat) :
    (h ∈ db.freshNodes → derefOne (fuel + 1) db h = (db, []))
    ∧ (alook db.dirties h = none → derefOne (fuel + 1) db h = (db, []))
    ∧ (∀ n : CachedNode, alook db.dirties h = some n → db.nodeVersion ≤ n.version →
        derefOne (fuel + 1) db h = (db, []))
    ∧ (∀ n : CachedNode, h ∉ db.freshNodes → alook db.dirties h = some n →
        n.version < db.nodeVersion →
        alook ((derefOne (fuel + 1) db h).1).dirties h = none) := by
  refine ⟨?_, ?_, ?_, ?_⟩
  · intro hf
    simp [derefOne, derefMany, derefStepF, hf]
  · intro hl
    by_cases hf : h ∈ db.freshNodes
    · simp [derefOne, derefMany, derefStepF, hf]
    · simp [derefOne, derefMany, derefStepF, hf, hl]
  · intro n hl hv
    by_cases hf : h ∈ db.freshNodes
    · simp [derefOne, derefMany, derefStepF, hf]
    · simp [derefOne, derefMany, derefStepF, hf, hl, Nat.not_lt.mpr hv]
  · intro n hf hl hv
    simp only [derefOne, derefMany, derefStepF, List.foldl, hf, hl, hv, if_true, if_pos,
      ite_true, if_neg, not_false_iff]
    by_cases hr : n.isRaw <;> simp [hr, alook_adel]

/-- Witness for C3 at a concrete state: hash 5 is stale at version 1 and gets
removed. -/
theorem C3_dereference_removal_conditions_witness :
    alook ((derefOne 1 (((NewDatabase true true).insert 5 9 false [] [1]).IncrVersion) 5).1).dirties 5
      = none :=
  (C3_dereference_removal_conditions
      (((NewDatabase true true).insert 5 9 false [] [1]).IncrVersion) 5 0).2.2.2
    { isRaw := false, intChildren := [], blob := [1], size := 9, parents := 0,
      children := none, flushPrev := 0, flushNext := 0, version := 0 }
    (by decide) (by decide) (by decide)

/-! ### Claim C5: the uncaching cleaner and the fresh-marker reset -/

theorem spliceOut_dirtiesSize (db : DB) (h : Hash) (node : CachedNode) :
    (spliceOut db h node).dirtiesSize = db.dirtiesSize := by
  rw [spliceOut]
  split
  · rfl
  · split
    · rfl
    · rfl

theorem spliceOut_cleans (db : DB) (h : Hash) (node : CachedNode) :
    (spliceOut db h node).cleans = db.cleans := by
  rw [spliceOut]
  split
  · rfl
  · split
    · rfl
    · rfl

/-- C5: during `Commit(root, report, uncache=true)` every replayed hash that
is still resident in the Node Store is spliced out of the flush list (the
oldest / newest / interior cases all preserving well-formedness over the
remaining list), deleted from the store with `dirtiesSize` adjusted exactly
as the code adjusts it, and its encoded bytes are stored into the clean
cache; and any `Commit` that reports success leaves the fresh-node marker
set empty. -/
theorem C5_commit_uncache_put_and_fresh_reset :
    (∀ (db : DB) (L : List Hash) (key : Hash) (blob : Blob) (node : CachedNode),
      WF db L → key ≠ 0 → alook db.dirties key = some node →
      alook (cleanerPut true db key blob).dirties key = none ∧
        WFP (cleanerPut true db key blob) (L.erase key) [] ∧
        (cleanerPut true db key blob).dirtiesSize
          = db.dirtiesSize - ((hashLength : Int) + node.size) -
            (match node.children with
             | some cs =>
               ((cachedNodeChildrenSize + cs.length * (hashLength + 2) : Nat) : Int)
             | none => 0) ∧
        ∀ cs, db.cleans = some cs →
          (cleanerPut true db key blob).cleans = some (aset cs key blob)) ∧
    (∀ (db : DB) (root : Hash) (uncache : Bool) (diskOk : Nat → Bool) (fuel : Nat),
      (db.Commit root uncache diskOk fuel).1 = true →
      (db.Commit root uncache diskOk fuel).2.freshNodes = []) := by
  constructor
  · intro db L key blob node hw hk hl
    have hmem : key ∈ L := by
      rcases hw.keys key (alook_mem_map_fst _ _ _ hl) with h0 | hL | hP
      · exact absurd h0 hk
      · exact hL
      · simp at hP
    have hw1 := spliceOut_wfp db L [] key node hw hmem hl
    have hw2 : WFP { spliceOut db key node with
        dirties := adel (spliceOut db key node).dirties key,
        dirtiesSize := (spliceOut db key node).dirtiesSize -
          ((hashLength : Int) + node.size) -
          (match node.children with
           | some cs =>
             ((cachedNodeChildrenSize + cs.length * (hashLength + 2) : Nat) : Int)
           | none => 0) } (L.erase key) [] :=
      wfp_of_adel (spliceOut db key node) _ (L.erase key) [] key hw1
        hw.nodup.not_mem_erase hk rfl rfl rfl
    rw [cleanerPut, if_pos rfl, hl]
    dsimp only
    refine ⟨?_, ?_, ?_, ?_⟩
    · show alook (adel (spliceOut db key node).dirties key) key = none
      rw [alook_adel, if_pos rfl]
    · refine wfp_congr _ _ (L.erase key) [] ?_ ?_ ?_ hw2 <;> rfl
    · show (spliceOut db key node).dirtiesSize - _ - _ = _
      rw [spliceOut_dirtiesSize]
    · intro cs hcs
      show cleansSet (spliceOut db key node).cleans key blob = _
      rw [spliceOut_cleans, hcs, cleansSet]
  · intro db root uncache diskOk fuel
    rw [DB.Commit]
    dsimp only
    revert root
    cases hpi : db.preimages with
    | none =>
      intro root
      dsimp only
      cases hres : commitMany diskOk uncache fuel db 0 Batch.empty [root] with
      | error e =>
        intro hok
        exact absurd hok (by simp)
      | ok r =>
        obtain ⟨db1, batch1, wc1⟩ := r
        dsimp only
        by_cases hdo : diskOk wc1 = true
        · rw [if_pos hdo]
          intro _
          rfl
        · rw [if_neg hdo]
          intro hok
          exact absurd hok (by simp)
    | some ps =>
      intro root
      dsimp only
      by_cases hbs : (Batch.empty.putPreimages ps).vsize > idealBatchSize
      · rw [if_pos hbs]
        by_cases hd0 : diskOk 0 = true
        · rw [if_pos hd0]
          by_cases hd1 : diskOk 1 = true
          · rw [if_pos hd1]
            dsimp only
            cases hres : commitMany diskOk uncache fuel
                (batchWriteTo db (Batch.empty.putPreimages ps)) 2 Batch.empty
                [root] with
            | error e =>
              intro hok
              exact absurd hok (by simp)
            | ok r =>
              obtain ⟨db1, batch1, wc1⟩ := r
              dsimp only
              by_cases hdo : diskOk wc1 = true
              · rw [if_pos hdo]
                intro _
                rfl
              · rw [if_neg hdo]
                intro hok
                exact absurd hok (by simp)
          · rw [if_neg hd1]
            intro hok
            exact absurd hok (by simp)
        · rw [if_neg hd0]
          intro hok
          exact absurd hok (by simp)
      · rw [if_neg hbs]
        by_cases hd0 : diskOk 0 = true
        · rw [if_pos hd0]
          dsimp only
          cases hres : commitMany diskOk uncache fuel
              (batchWriteTo db (Batch.empty.putPreimages ps)) 1 Batch.empty
              [root] with
          | error e =>
            intro hok
            exact absurd hok (by simp)
          | ok r =>
            obtain ⟨db1, batch1, wc1⟩ := r
            dsimp only
            by_cases hdo : diskOk wc1 = true
            · rw [if_pos hdo]
              intro _
              rfl
            · rw [if_neg hdo]
              intro hok
              exact absurd hok (by simp)
        · rw [if_neg hd0]
          intro hok
          exact absurd hok (by simp)

theorem C5_commit_uncache_put_and_fresh_reset_witness :
    (WF (DB.insert (NewDatabase true true) 5 3 false [] [1]) [5] ∧ (5 : Hash) ≠ 0 ∧
      alook (DB.insert (NewDatabase true true) 5 3 false [] [1]).dirties 5
        = some { isRaw := false, intChildren := [], blob := [1], size := 3,
                 parents := 0, children := none, flushPrev := 0, flushNext := 0,
                 version := 0 } ∧
      (alook (cleanerPut true (DB.insert (NewDatabase true true) 5 3 false [] [1])
          5 [9]).dirties 5 = none ∧
        WFP (cleanerPut true (DB.insert (NewDatabase true true) 5 3 false [] [1])
          5 [9]) ([5].erase 5) [] ∧
        (cleanerPut true (DB.insert (NewDatabase true true) 5 3 false [] [1])
            5 [9]).dirtiesSize
          = (DB.insert (NewDatabase true true) 5 3 false [] [1]).dirtiesSize -
            ((hashLength : Int) + (3 : Nat)) - 0 ∧
        ∀ cs, (DB.insert (NewDatabase true true) 5 3 false [] [1]).cleans = some cs →
          (cleanerPut true (DB.insert (NewDatabase true true) 5 3 false [] [1])
            5 [9]).cleans = some (aset cs 5 [9]))) ∧
    (((NewDatabase true true).Commit 0 true (fun _ => true) 1).1 = true ∧
      ((NewDatabase true true).Commit 0 true (fun _ => true) 1).2.freshNodes = []) :=
  ⟨⟨insert_wfp_new (NewDatabase true true) [] 5 3 false [] [1] (wfp_new true true) rfl,
    by decide, by decide,
    C5_commit_uncache_put_and_fresh_reset.1
      (DB.insert (NewDatabase true true) 5 3 false [] [1]) [5] 5 [9]
      { isRaw := false, intChildren := [], blob := [1], size := 3, parents := 0,
        children := none, flushPrev := 0, flushNext := 0, version := 0 }
      (insert_wfp_new (NewDatabase true true) [] 5 3 false [] [1]
        (wfp_new true true) rfl)
      (by decide) (by decide)⟩,
   by decide,
   C5_commit_uncache_put_and_fresh_reset.2 (NewDatabase true true) 0 true
     (fun _ => true) 1 (by decide)⟩

/-! ### Claim C1: the dirtiesSize accounting invariant (broken by the code) -/

/-- The state driven to by the C1 scenario: two linked inserts, a reference
edge, both nodes marked fresh. -/
def c1Before : DB :=
  ((((((NewDatabase true true).insert 5 10 false [] [1, 2]).insert 7 11 false
    [5] [3]).Reference 5 7).insertFreshNode 5).insertFreshNode 7)

/-- The same state after the uncaching commit of root 7. -/
def c1After : DB := (c1Before.Commit 7 true (fun _ => true) 10).2

/-- C1 evaluation: the size invariant `dirtiesSize = dirtySum` holds after the
inserts and the reference, but a `Commit` with `uncache = true` that removes
node 7 — whose children map is non-nil — leaves `dirtiesSize` at `-82` while
the Node Store (meta-root only) sums to `0`: `cleaner.Put` subtracts the
children-map metadata from `dirtiesSize` instead of `childrenSize`. -/
theorem C1_size_invariant_broken_by_commit_uncache :
    c1Before.dirtiesSize = dirtySum c1Before ∧
      c1After.dirtiesSize = -82 ∧ dirtySum c1After = 0 := by
  decide

/-! ### Claim C2: a failed batch write during Cap leaves memory untouched -/

/-- C2: when a batch `Write` fails during `Cap` the call reports the failure
and every in-memory field — the Node Store, the flush-list cursors,
`dirtiesSize`, `childrenSize`, the preimage buffer and its size, the clean
cache, the fresh-node markers and the version counter — is exactly as before
the call, so no entry is evicted before its disk write succeeded and a retry
re-attempts the remaining entries.  (The mid-loop failure path of the Go code
additionally performs `db.lock.RUnlock()` without a matching `RLock`, a
locking fault invisible to this state model.) -/
theorem C2_cap_write_failure_memory_untouched (db : DB) (limit : Int)
    (diskOk : Nat → Bool) (fuel : Nat)
    (hfail : (db.Cap limit diskOk fuel).1 = false) :
    MemSame db (db.Cap limit diskOk fuel).2 := by
  have hwl := fun wc batch db1 =>
    capWriteLoop_memSame diskOk fuel db1 wc batch (capSizeEstimate db) limit db1.oldest
  rw [DB.Cap] at hfail ⊢
  dsimp only at hfail ⊢
  revert hfail
  cases hpi : db.preimages with
  | none =>
    dsimp only
    revert hwl
    cases hcw : capWriteLoop diskOk fuel db 0 Batch.empty (capSizeEstimate db) limit
        db.oldest with
    | error e =>
      intro hwl hfail
      have := hwl 0 Batch.empty db
      rw [hcw] at this
      exact this
    | ok r =>
      obtain ⟨db2, batch2, wc2, target⟩ := r
      intro hwl
      dsimp only
      by_cases hd : diskOk wc2 = true
      · rw [if_pos hd]
        intro hfail
        exact absurd hfail (by simp)
      · rw [if_neg hd]
        intro hfail
        have := hwl 0 Batch.empty db
        rw [hcw] at this
        exact this
  | some ps =>
    dsimp only
    by_cases hfp : db.preimagesSize > 4 * 1024 * 1024
    · rw [if_pos hfp]
      by_cases hbs : (Batch.empty.putPreimages ps).vsize > idealBatchSize
      · rw [if_pos hbs]
        by_cases hd0 : diskOk 0 = true
        · rw [if_pos hd0]
          dsimp only
          revert hwl
          cases hcw : capWriteLoop diskOk fuel
              (batchWriteTo db (Batch.empty.putPreimages ps)) 1 Batch.empty
              (capSizeEstimate db) limit
              (batchWriteTo db (Batch.empty.putPreimages ps)).oldest with
          | error e =>
            intro hwl hfail
            have := hwl 1 Batch.empty (batchWriteTo db (Batch.empty.putPreimages ps))
            rw [hcw] at this
            exact memSame_trans _ _ _ (memSame_batchWriteTo db _) this
          | ok r =>
            obtain ⟨db2, batch2, wc2, target⟩ := r
            intro hwl
            dsimp only
            by_cases hd : diskOk wc2 = true
            · rw [if_pos hd]
              intro hfail
              exact absurd hfail (by simp)
            · rw [if_neg hd]
              intro hfail
              have := hwl 1 Batch.empty (batchWriteTo db (Batch.empty.putPreimages ps))
              rw [hcw] at this
              exact memSame_trans _ _ _ (memSame_batchWriteTo db _) this
        · rw [if_neg hd0]
          intro hfail
          exact memSame_refl db
      · rw [if_neg hbs]
        dsimp only
        revert hwl
        cases hcw : capWriteLoop diskOk fuel db 0 (Batch.empty.putPreimages ps)
            (capSizeEstimate db) limit db.oldest with
        | error e =>
          intro hwl hfail
          have := hwl 0 (Batch.empty.putPreimages ps) db
          rw [hcw] at this
          exact this
        | ok r =>
          obtain ⟨db2, batch2, wc2, target⟩ := r
          intro hwl
          dsimp only
          by_cases hd : diskOk wc2 = true
          · rw [if_pos hd]
            intro hfail
            exact absurd hfail (by simp)
          · rw [if_neg hd]
            intro hfail
            have := hwl 0 (Batch.empty.putPreimages ps) db
            rw [hcw] at this
            exact this
    · rw [if_neg hfp]
      dsimp only
      revert hwl
      cases hcw : capWriteLoop diskOk fuel db 0 Batch.empty (capSizeEstimate db) limit
          db.oldest with
      | error e =>
        intro hwl hfail
        have := hwl 0 Batch.empty db
        rw [hcw] at this
        exact this
      | ok r =>
        obtain ⟨db2, batch2, wc2, target⟩ := r
        intro hwl
        dsimp only
        by_cases hd : diskOk wc2 = true
        · rw [if_pos hd]
          intro hfail
          exact absurd hfail (by simp)
        · rw [if_neg hd]
          intro hfail
          have := hwl 0 Batch.empty db
          rw [hcw] at this
          exact this

theorem C2_cap_write_failure_memory_untouched_witness :
    ((NewDatabase false false).Cap 0 (fun w => false) 1).1 = false ∧
      MemSame (NewDatabase false false)
        ((NewDatabase false false).Cap 0 (fun w => false) 1).2 :=
  ⟨rfl, C2_cap_write_failure_memory_untouched (NewDatabase false false) 0
    (fun w => false) 1 rfl⟩

/-! ### Claim C4: the flush list totally orders the store -/

/-- C4: after N distinct fresh inserts the forward walk from `oldest` along
`flushNext` visits exactly the N hashes in insertion order and the backward
walk from `newest` along `flushPrev` visits them in reverse; and after any
sequence of public operations honoring the calling discipline, the forward
walk from `oldest` enumerates, without repetition, exactly the non-zero keys
of the Node Store — every key except the zero-hash meta-root, once each. -/
theorem C4_flush_list_total_order :
    (∀ (wc wp : Bool) (xs : List (Hash × Nat × Bool × List Hash × Blob)),
      (xs.map (fun x => x.1)).Nodup → 0 ∉ xs.map (fun x => x.1) →
      walkFwd (insertSeq (NewDatabase wc wp) xs).dirties xs.length
          (insertSeq (NewDatabase wc wp) xs).oldest = xs.map (fun x => x.1) ∧
        walkBwd (insertSeq (NewDatabase wc wp) xs).dirties xs.length
          (insertSeq (NewDatabase wc wp) xs).newest
          = (xs.map (fun x => x.1)).reverse) ∧
    (∀ (rk : Hash → Nat) (wc wp : Bool) (ops : List Op),
      ops.all (goodOp rk) = true →
      ∃ L : List Hash, L.Nodup ∧ 0 ∉ L ∧
        walkFwd (runOps (NewDatabase wc wp) ops).dirties L.length
          (runOps (NewDatabase wc wp) ops).oldest = L ∧
        ∀ h : Hash, h ≠ 0 →
          ((alook (runOps (NewDatabase wc wp) ops).dirties h).isSome = true ↔ h ∈ L)) := by
  constructor
  · intro wc wp xs hnd hn0
    have hw := insertSeq_wfp xs (NewDatabase wc wp) [] (wfp_new wc wp)
      (by simpa using hnd) hn0
    rw [List.nil_append] at hw
    constructor
    · rw [hw.old]
      have hwf := walkFwd_of_links _ _ hw.fwd hw.nz
        (xs.map (fun x => x.1)).length (Nat.le_refl _)
      rw [List.length_map] at hwf
      exact hwf
    · cases xs with
      | nil => rfl
      | cons y ys =>
        rw [List.map_cons] at hw ⊢
        have ha0 : y.1 ≠ 0 := fun h0 => hw.nz (h0 ▸ List.mem_cons_self _ _)
        have htnz : 0 ∉ ys.map (fun x => x.1) := fun h0 =>
          hw.nz (List.mem_cons_of_mem _ h0)
        have hb : linksPfrom (insertSeq (NewDatabase wc wp) (y :: ys)).dirties y.1
            (ys.map (fun x => x.1)) := hw.bwd
        have hwb := walkBwd_of_linksPfrom
          (insertSeq (NewDatabase wc wp) (y :: ys)).dirties
          (ys.map (fun x => x.1)) y.1 hb htnz ha0
        have hnewest : (insertSeq (NewDatabase wc wp) (y :: ys)).newest
            = (y.1 :: ys.map (fun x => x.1)).getLastD 0 :=
          hw.new _ (getLast?_cons_getLastD y.1 0 (ys.map (fun x => x.1)))
        rw [hnewest]
        have hlen : (y :: ys).length = (y.1 :: ys.map (fun x => x.1)).length := by
          simp
        rw [hlen]
        exact hwb
  · intro rk wc wp ops hg
    have hi := runOps_inv rk ops (NewDatabase wc wp) (inv_new rk wc wp) hg
    obtain ⟨⟨L, hw⟩, _, _, _, _⟩ := hi
    refine ⟨L, hw.nodup, hw.nz, ?_, ?_⟩
    · rw [hw.old]
      exact walkFwd_of_links _ L hw.fwd hw.nz L.length (Nat.le_refl _)
    · intro h hh
      constructor
      · intro hs
        obtain ⟨v, hv⟩ := Option.isSome_iff_exists.mp hs
        rcases hw.keys h (alook_mem_map_fst _ _ _ hv) with h0 | hL | hP
        · exact absurd h0 hh
        · exact hL
        · simp at hP
      · exact fun hmem => hw.memL h hmem

theorem C4_flush_list_total_order_witness :
    ((([(5, 3, false, [], [1]), (7, 4, true, [], [2])] :
          List (Hash × Nat × Bool × List Hash × Blob)).map (fun x => x.1)).Nodup ∧
      0 ∉ ([(5, 3, false, [], [2]), (7, 4, true, [], [2])] :
          List (Hash × Nat × Bool × List Hash × Blob)).map (fun x => x.1) ∧
      (walkFwd (insertSeq (NewDatabase true true)
            [(5, 3, false, [], [1]), (7, 4, true, [], [2])]).dirties 2
          (insertSeq (NewDatabase true true)
            [(5, 3, false, [], [1]), (7, 4, true, [], [2])]).oldest = [5, 7] ∧
        walkBwd (insertSeq (NewDatabase true true)
            [(5, 3, false, [], [1]), (7, 4, true, [], [2])]).dirties 2
          (insertSeq (NewDatabase true true)
            [(5, 3, false, [], [1]), (7, 4, true, [], [2])]).newest = [7, 5])) ∧
    (([Op.insert 5 3 false [] [1], Op.insert 7 4 false [5] [2],
        Op.reference 7 0, Op.incrVersion, Op.dereference 7 4,
        Op.cap 0 (fun _ => true) 4,
        Op.commit 7 true (fun _ => true) 4].all (goodOp (fun h => h)) = true) ∧
      ∃ L : List Hash, L.Nodup ∧ 0 ∉ L ∧
        walkFwd (runOps (NewDatabase true true)
            [Op.insert 5 3 false [] [1], Op.insert 7 4 false [5] [2],
              Op.reference 7 0, Op.incrVersion, Op.dereference 7 4,
              Op.cap 0 (fun _ => true) 4,
              Op.commit 7 true (fun _ => true) 4]).dirties L.length
          (runOps (NewDatabase true true)
            [Op.insert 5 3 false [] [1], Op.insert 7 4 false [5] [2],
              Op.reference 7 0, Op.incrVersion, Op.dereference 7 4,
              Op.cap 0 (fun _ => true) 4,
              Op.commit 7 true (fun _ => true) 4]).oldest = L ∧
        ∀ h : Hash, h ≠ 0 →
          ((alook (runOps (NewDatabase true true)
              [Op.insert 5 3 false [] [1], Op.insert 7 4 false [5] [2],
                Op.reference 7 0, Op.incrVersion, Op.dereference 7 4,
                Op.cap 0 (fun _ => true) 4,
                Op.commit 7 true (fun _ => true) 4]).dirties h).isSome = true ↔
            h ∈ L)) :=
  ⟨⟨by decide, by decide,
    C4_flush_list_total_order.1 true true
      [(5, 3, false, [], [1]), (7, 4, true, [], [2])] (by decide) (by decide)⟩,
   by decide,
   C4_flush_list_total_order.2 (fun h => h) true true
     [Op.insert 5 3 false [] [1], Op.insert 7 4 false [5] [2],
       Op.reference 7 0, Op.incrVersion, Op.dereference 7 4,
       Op.cap 0 (fun _ => true) 4,
       Op.commit 7 true (fun _ => true) 4] (by decide)⟩

/-! ### Claim C7: the meta-root persists under the calling discipline -/

/-- C7 (amended): from a fresh database, along any sequence of public
operations in which the zero hash is never passed as the child of a
`Reference` call nor listed among an inserted node's children (the
rank-decreasing discipline), the zero-hash meta-root entry stays present in
the Node Store, is never written to the node section of disk, and
`Dereference`/`DereferenceDB` of the zero hash are refused with the state
unchanged.  (The original claim, which allowed `Reference(0, p)`, is refuted
by `C7_metaroot_deleted_counterexample`.) -/
theorem C7_metaroot_preserved (rk : Hash → Nat) (wc wp : Bool) (ops : List Op)
    (hg : ops.all (goodOp rk) = true) :
    (alook (runOps (NewDatabase wc wp) ops).dirties 0).isSome = true ∧
      alook (runOps (NewDatabase wc wp) ops).diskNodes 0 = none ∧
      ∀ fuel : Nat,
        (runOps (NewDatabase wc wp) ops).Dereference 0 fuel
            = runOps (NewDatabase wc wp) ops ∧
          (runOps (NewDatabase wc wp) ops).DereferenceDB 0 fuel
            = runOps (NewDatabase wc wp) ops := by
  have hi := runOps_inv rk ops (NewDatabase wc wp) (inv_new rk wc wp) hg
  obtain ⟨⟨L, hw⟩, _, _, _, hd⟩ := hi
  refine ⟨hw.meta, hd, ?_⟩
  intro fuel
  constructor
  · rw [DB.Dereference, if_pos rfl]
  · rw [DB.DereferenceDB, if_pos rfl]

theorem C7_metaroot_preserved_witness :
    ([Op.insert 5 3 false [] [1], Op.insert 7 4 false [5] [2],
        Op.reference 5 7, Op.reference 7 0, Op.incrVersion,
        Op.referenceVersion 7 4, Op.dereferenceDB 7 4, Op.uselessGC 1,
        Op.cap 0 (fun _ => true) 4,
        Op.commit 7 true (fun _ => true) 4].all (goodOp (fun h => h)) = true) ∧
      ((alook (runOps (NewDatabase true true)
          [Op.insert 5 3 false [] [1], Op.insert 7 4 false [5] [2],
            Op.reference 5 7, Op.reference 7 0, Op.incrVersion,
            Op.referenceVersion 7 4, Op.dereferenceDB 7 4, Op.uselessGC 1,
            Op.cap 0 (fun _ => true) 4,
            Op.commit 7 true (fun _ => true) 4]).dirties 0).isSome = true ∧
        alook (runOps (NewDatabase true true)
          [Op.insert 5 3 false [] [1], Op.insert 7 4 false [5] [2],
            Op.reference 5 7, Op.reference 7 0, Op.incrVersion,
            Op.referenceVersion 7 4, Op.dereferenceDB 7 4, Op.uselessGC 1,
            Op.cap 0 (fun _ => true) 4,
            Op.commit 7 true (fun _ => true) 4]).diskNodes 0 = none ∧
        ∀ fuel : Nat,
          (runOps (NewDatabase true true)
            [Op.insert 5 3 false [] [1], Op.insert 7 4 false [5] [2],
              Op.reference 5 7, Op.reference 7 0, Op.incrVersion,
              Op.referenceVersion 7 4, Op.dereferenceDB 7 4, Op.uselessGC 1,
              Op.cap 0 (fun _ => true) 4,
              Op.commit 7 true (fun _ => true) 4]).Dereference 0 fuel
              = runOps (NewDatabase true true)
            [Op.insert 5 3 false [] [1], Op.insert 7 4 false [5] [2],
              Op.reference 5 7, Op.reference 7 0, Op.incrVersion,
              Op.referenceVersion 7 4, Op.dereferenceDB 7 4, Op.uselessGC 1,
              Op.cap 0 (fun _ => true) 4,
              Op.commit 7 true (fun _ => true) 4] ∧
            (runOps (NewDatabase true true)
              [Op.insert 5 3 false [] [1], Op.insert 7 4 false [5] [2],
                Op.reference 5 7, Op.reference 7 0, Op.incrVersion,
                Op.referenceVersion 7 4, Op.dereferenceDB 7 4, Op.uselessGC 1,
                Op.cap 0 (fun _ => true) 4,
                Op.commit 7 true (fun _ => true) 4]).DereferenceDB 0 fuel
              = runOps (NewDatabase true true)
              [Op.insert 5 3 false [] [1], Op.insert 7 4 false [5] [2],
                Op.reference 5 7, Op.reference 7 0, Op.incrVersion,
                Op.referenceVersion 7 4, Op.dereferenceDB 7 4, Op.uselessGC 1,
                Op.cap 0 (fun _ => true) 4,
                Op.commit 7 true (fun _ => true) 4]) :=
  ⟨by decide,
   C7_metaroot_preserved (fun h => h) true true
     [Op.insert 5 3 false [] [1], Op.insert 7 4 false [5] [2],
       Op.reference 5 7, Op.reference 7 0, Op.incrVersion,
       Op.referenceVersion 7 4, Op.dereferenceDB 7 4, Op.uselessGC 1,
       Op.cap 0 (fun _ => true) 4,
       Op.commit 7 true (fun _ => true) 4] (by decide)⟩

/-! ### Claim C7 (counterexample): the meta-root can be deleted -/

/-- C7 counterexample: after `Reference(0, 3)` registers the zero hash as a
child of node 3 and the version counter is bumped, `Dereference(3)` descends
into the zero hash and deletes the meta-root entry from the Node Store. -/
theorem C7_metaroot_deleted_counterexample :
    alook (((((NewDatabase true true).insert 3 5 false [] [1]).Reference 0
      3).IncrVersion).Dereference 3 6).dirties 0 = none := by
  decide

/-! ### Claim C8: what DereferenceDB records for removed nodes -/

/-- C8 (amended): `DereferenceDB(root)` appends exactly one pending-cleanup
record; a removed node whose content is a decoded trie node is listed in that
record and its clean-cache shadow is evicted, while a removed raw byte blob
is *not* listed (the clear callback is skipped for `rawNode` content, contrary
to the original claim, refuted by `C8_raw_not_recorded_counterexample`). -/
theorem C8_dereference_db_cleanup (db : DB) (root : Hash) (fuel : Nat)
    (h : Hash) (n : CachedNode) (hn : alook db.dirties h = some n)
    (hrem : alook (db.DereferenceDB root fuel).dirties h = none) :
    ∃ rec,
      (db.DereferenceDB root fuel).useless = db.useless ++ [rec] ∧
        (n.isRaw = true → h ∉ rec) ∧
        (n.isRaw = false → h ∈ rec ∧
          cleansLook (db.DereferenceDB root fuel).cleans h = none) := by
  rw [DB.DereferenceDB] at hrem ⊢
  by_cases hr0 : root = 0
  · rw [if_pos hr0] at hrem
    exact absurd (hn.symm.trans hrem) (by simp)
  · rw [if_neg hr0] at hrem ⊢
    dsimp only at hrem ⊢
    obtain ⟨hshr, hcl, hc3⟩ := derefMany_clear fuel db [root]
    refine ⟨(derefMany fuel db [root]).2, ?_, ?_, ?_⟩
    · show (derefMany fuel db [root]).1.useless ++ [(derefMany fuel db [root]).2]
        = db.useless ++ [(derefMany fuel db [root]).2]
      rw [(derefMany_sameMisc fuel db [root]).2.2.2.2.1]
    · intro hraw hmem
      obtain ⟨⟨n0, hn0, hr0x⟩, _, _⟩ := hcl h hmem
      obtain rfl := Option.some_inj.mp (hn.symm.trans hn0)
      rw [hraw] at hr0x
      exact Bool.noConfusion hr0x
    · intro hnraw
      have hmem : h ∈ (derefMany fuel db [root]).2 := hc3 h n hn hnraw hrem
      exact ⟨hmem, (hcl h hmem).2.2⟩

theorem C8_dereference_db_cleanup_witness :
    (alook (((NewDatabase true true).insert 9 4 true [] [7, 7]).IncrVersion).dirties 9
      = some { isRaw := true, intChildren := [], blob := [7, 7], size := 4,
               parents := 0, children := none, flushPrev := 0, flushNext := 0,
               version := 0 } ∧
      alook (((((NewDatabase true true).insert 9 4 true [] [7, 7]).IncrVersion).DereferenceDB
        9 5).dirties) 9 = none) ∧
      ∃ rec,
        ((((NewDatabase true true).insert 9 4 true [] [7, 7]).IncrVersion).DereferenceDB
            9 5).useless
          = (((NewDatabase true true).insert 9 4 true [] [7, 7]).IncrVersion).useless
            ++ [rec] ∧
          (({ isRaw := true, intChildren := [], blob := [7, 7], size := 4,
              parents := 0, children := none, flushPrev := 0, flushNext := 0,
              version := 0 } : CachedNode).isRaw = true → 9 ∉ rec) ∧
          (({ isRaw := true, intChildren := [], blob := [7, 7], size := 4,
              parents := 0, children := none, flushPrev := 0, flushNext := 0,
              version := 0 } : CachedNode).isRaw = false → 9 ∈ rec ∧
            cleansLook
              (((((NewDatabase true true).insert 9 4 true [] [7, 7]).IncrVersion).DereferenceDB
                9 5).cleans) 9 = none) :=
  ⟨⟨by decide, by decide⟩,
   C8_dereference_db_cleanup
     (((NewDatabase true true).insert 9 4 true [] [7, 7]).IncrVersion) 9 5 9
     { isRaw := true, intChildren := [], blob := [7, 7], size := 4, parents := 0,
       children := none, flushPrev := 0, flushNext := 0, version := 0 }
     (by decide) (by decide)⟩

/-! ### Claim C8 (counterexample): raw blobs are not recorded as useless -/

/-- C8 counterexample: `DereferenceDB` removes the stale raw-blob node 9 from
the Node Store, yet the useless set recorded by the call is empty — the clear
callback is skipped for `rawNode` content. -/
theorem C8_raw_not_recorded_counterexample :
    (alook ((((NewDatabase true true).insert 9 4 true [] [7, 7]).IncrVersion).DereferenceDB
        9 5).dirties 9 = none)
    ∧ ((((NewDatabase true true).insert 9 4 true [] [7, 7]).IncrVersion).DereferenceDB
        9 5).useless = [[]] := by
  exact ⟨by decide, by decide⟩

end TrieDB
